import Mathlib

/-! Verification of tweedledum: device mapping view and relative-phase Toffoli rewriting.

A shallow embedding of `views/mapping_view.hpp` and `algorithms/mapping/rpt.hpp`.
Qubit identifiers and the entries of the mapping vectors are `uint32_t` in the
source; no arithmetic is performed on them, so they are natural numbers here.
Calls that can throw, trip an assertion or run into undefined behaviour return
an `Except fault`.
-/

namespace Tweedledum

/-! ## Data model -/

/-- Operation tags used by the two headers; `other` stands for every tag of
`gate_set.hpp` that neither header names. -/
inductive gate_set where
  | pauli_x
  | hadamard
  | t
  | t_dagger
  | cx
  | mcx
  | mcz
  | swap
  | other (tag : Nat)
deriving DecidableEq, Repr

/-- Modelled from the spec: the gate record (`gates/mcst_gate.hpp` and the other
gate types are not among the sources). A record holds an operation tag, the
control identifiers and the target identifiers, both in enumeration order. -/
structure gate where
  op : gate_set
  controls : List Nat
  targets : List Nat
deriving DecidableEq, Repr

/-- The record built by `gate_type(op, target)`. -/
def gate.single (op : gate_set) (target : Nat) : gate :=
  ⟨op, [], [target]⟩

/-- The record built by `gate_type(op, control, target)`. -/
def gate.controlled (op : gate_set) (control target : Nat) : gate :=
  ⟨op, [control], [target]⟩

/-- The value of `gate.num_controls()`. -/
def gate.num_controls (g : gate) : Nat := g.controls.length

/-- Modelled from the spec: the circuit the view derives from and the rewriter
writes to (`networks/netlist.hpp` is not among the sources): an append-only
sequence of gate records over a register that only grows. -/
structure network where
  num_qubits : Nat
  gates : List gate
deriving DecidableEq, Repr

/-- The default-constructed `Network()`. -/
def network.empty : network := ⟨0, []⟩

/-- The effect of `add_qubit()`: one more qubit, no gate. -/
def network.add_qubit (n : network) : network :=
  { n with num_qubits := n.num_qubits + 1 }

/-- The effect of `emplace_gate(g)`: the record is appended. -/
def network.emplace_gate (n : network) (g : gate) : network :=
  { n with gates := n.gates ++ [g] }

/-- The value of `num_gates()`. -/
def network.num_gates (n : network) : Nat := n.gates.length

/-- Modelled from the spec: the device (`utils/device.hpp` is not among the
sources): the number of physical qubits and the adjacency query of its coupling
matrix, `get_coupling_matrix().at(i, j)`. -/
structure device where
  num_vertices : Nat
  coupling : Nat → Nat → Bool

/-- The ways a call can leave the ordinary control flow. -/
inductive fault where
  | out_of_range
  | assertion
  | undefined
deriving DecidableEq, Repr

/-! ## `mapping_view` -/

/-- The state of a `mapping_view<Network>`: the inherited network, the private
members, and whether `Network::gate_type` is `mcst_gate`. -/
structure mapping_view where
  net : network
  init_virtual_phy_map_ : List Nat
  virtual_phy_map_ : List Nat
  coupling_matrix_ : Nat → Nat → Bool
  allow_partial_ : Bool
  is_partial_ : Bool
  gate_type_is_mcst : Bool

/-- The effect of `std::iota(v.begin(), v.end(), 0u)`: the element at index `i`
becomes `i`; the length does not change. -/
def iota (v : List Nat) : List Nat := List.range v.length

/-- Performs `n` calls of `add_qubit()`. -/
def add_qubits : Nat → network → network
  | 0, net => net
  | k + 1, net => add_qubits k net.add_qubit

/-- The constructor `mapping_view(network, arch, allow_partial)`. The member
initialiser list sizes `virtual_phy_map_` only; `init_virtual_phy_map_` is
default-constructed. The assertion reads `this->num_qubits()` of the fresh
`Network()`. -/
def mapping_view.construct (mcst : Bool) (src : network) (arch : device)
    (allow : Bool) : Except fault mapping_view :=
  let base := network.empty
  let virtual_phy_map_ := List.replicate arch.num_vertices 0
  let init_virtual_phy_map_ : List Nat := []
  if base.num_qubits ≤ arch.num_vertices then
    .ok {
      net := add_qubits src.num_qubits base
      init_virtual_phy_map_ := iota init_virtual_phy_map_
      virtual_phy_map_ := iota virtual_phy_map_
      coupling_matrix_ := arch.coupling
      allow_partial_ := allow
      is_partial_ := false
      gate_type_is_mcst := mcst }
  else
    .error fault.assertion

/-- The checked read `v.at(i)`. -/
def vector_at (v : List Nat) (i : Nat) : Except fault Nat :=
  match v[i]? with
  | some x => .ok x
  | none => .error fault.out_of_range

/-- The single-qubit `add_gate(op, target)`; returns the appended node. -/
def mapping_view.add_gate (v : mapping_view) (op : gate_set) (target : Nat) :
    Except fault (gate × mapping_view) := do
  let phy_target ← vector_at v.virtual_phy_map_ target
  let g := gate.single op phy_target
  pure (g, { v with net := v.net.emplace_gate g })

/-- The two-qubit `add_gate(op, control, target)`; the `Option` is the
`std::optional` of the source. -/
def mapping_view.add_gate2 (v : mapping_view) (op : gate_set) (control target : Nat) :
    Except fault (Option gate × mapping_view) := do
  let phy_control ← vector_at v.virtual_phy_map_ control
  let phy_target ← vector_at v.virtual_phy_map_ target
  let g := gate.controlled op phy_control phy_target
  if !v.coupling_matrix_ phy_control phy_target then
    if v.allow_partial_ then
      let v1 := { v with is_partial_ := true }
      pure (some g, { v1 with net := v1.net.emplace_gate g })
    else
      pure (none, v)
  else
    pure (some g, { v with net := v.net.emplace_gate g })

/-- The accessor `is_partial()`. -/
def mapping_view.is_partial (v : mapping_view) : Bool := v.is_partial_

/-- The setter `set_virtual_phy_map(map)`. -/
def mapping_view.set_virtual_phy_map (v : mapping_view) (map : List Nat) : mapping_view :=
  let v1 := if v.net.num_gates = 0 then { v with init_virtual_phy_map_ := map } else v
  { v1 with virtual_phy_map_ := map }

/-- The accessor `init_virtual_phy_map()`. -/
def mapping_view.init_virtual_phy_map (v : mapping_view) : List Nat :=
  v.init_virtual_phy_map_

/-- One round of the loop of the setter `phy_virtual_map(map)`:
`virtual_phy_map_[map[i]] = i`. Both subscripts are unchecked in the source. -/
def phy_virtual_step (map : List Nat) (acc : List Nat) (i : Nat) : Except fault (List Nat) :=
  match map[i]? with
  | none => .error fault.undefined
  | some p => if p < acc.length then .ok (acc.set p i) else .error fault.undefined

/-- The loop of the setter `phy_virtual_map(map)` over the indices in `is`. -/
def phy_virtual_loop (map : List Nat) : List Nat → List Nat → Except fault (List Nat)
  | [], acc => .ok acc
  | i :: is, acc =>
    match phy_virtual_step map acc i with
    | .ok acc1 => phy_virtual_loop map is acc1
    | .error e => .error e

/-- The setter `phy_virtual_map(map)` (physical qubit -> virtual qubit). -/
def mapping_view.set_phy_virtual_map (v : mapping_view) (map : List Nat) :
    Except fault mapping_view :=
  match phy_virtual_loop map (List.range v.virtual_phy_map_.length) v.virtual_phy_map_ with
  | .ok m => .ok { v with virtual_phy_map_ := m }
  | .error e => .error e

/-- The gates `add_swap(phy_a, phy_b)` emplaces, in order. -/
def swap_gates (mcst : Bool) (phy_a phy_b : Nat) : List gate :=
  if mcst then
    [gate.controlled gate_set.cx phy_a phy_b,
     gate.controlled gate_set.cx phy_b phy_a,
     gate.controlled gate_set.cx phy_a phy_b]
  else
    [gate.controlled gate_set.swap phy_a phy_b]

/-- The position `std::find` returns for `x`; the length stands for `end()`. -/
def find_index (v : List Nat) (x : Nat) : Nat := v.indexOf x

/-- The effect of `add_swap(phy_a, phy_b)`. Dereferencing `end()` is undefined. -/
def mapping_view.add_swap (v : mapping_view) (phy_a phy_b : Nat) : Except fault mapping_view :=
  if !v.coupling_matrix_ phy_a phy_b then
    .error fault.assertion
  else
    let net1 := (swap_gates v.gate_type_is_mcst phy_a phy_b).foldl network.emplace_gate v.net
    let it_a := find_index v.virtual_phy_map_ phy_a
    let it_b := find_index v.virtual_phy_map_ phy_b
    match v.virtual_phy_map_[it_a]?, v.virtual_phy_map_[it_b]? with
    | some xa, some xb =>
      .ok { v with
        net := net1
        virtual_phy_map_ := (v.virtual_phy_map_.set it_a xb).set it_b xa }
    | _, _ => .error fault.undefined

/-! ## `rpt`: the gate rewriter -/

/-- The call `dest.add_gate(gate_set::pauli_x, target)` on the destination
netlist, as the record it appends (the netlist does not translate identifiers). -/
def emit.pauli_x (target : Nat) : gate := gate.single gate_set.pauli_x target

/-- The call `dest.add_gate(gate_set::hadamard, target)`. -/
def emit.hadamard (target : Nat) : gate := gate.single gate_set.hadamard target

/-- The call `dest.add_gate(gate_set::t, target)`. -/
def emit.t (target : Nat) : gate := gate.single gate_set.t target

/-- The call `dest.add_gate(gate_set::t_dagger, target)`. -/
def emit.t_dagger (target : Nat) : gate := gate.single gate_set.t_dagger target

/-- The call `dest.add_gate(gate_set::cx, control, target)`. -/
def emit.cx (control target : Nat) : gate := gate.controlled gate_set.cx control target

/-- A run of `dest.add_gate` calls, in order. -/
def network.add_gates (dest : network) (calls : List gate) : network :=
  calls.foldl network.emplace_gate dest

/-- The subscript `targets[0]`. It is unchecked in the source; an empty vector
reads as 0 here. -/
def targets0 (targets : List Nat) : Nat := targets.headD 0

/-- The loop `for (i = 1u; i < targets.size(); ++i) dest.add_gate(cx, d, targets[i])`. -/
def fan_out (d : Nat) (targets : List Nat) : List gate :=
  targets.tail.map (fun ti => emit.cx d ti)

/-- The helper search: `helper` starts as `qid_invalid` and becomes the first
`i < num_qubits` that passes the test. `qid_invalid` is declared in
`networks/qubit.hpp`, which is not among the sources, and is a parameter. -/
def helper_scan (qid_invalid : Nat) (free : Nat → Bool) (num_qubits : Nat) : Nat :=
  ((List.range num_qubits).find? free).getD qid_invalid

/-- The thirteen calls shared by the two-control MCX case and the MCZ case. -/
def ccz_calls (c0 c1 t0 : Nat) : List gate :=
  [ emit.cx c1 t0, emit.t_dagger t0, emit.cx c0 t0, emit.t t0,
    emit.cx c1 t0, emit.t_dagger t0, emit.cx c0 t0, emit.t t0,
    emit.cx c0 c1, emit.t_dagger c1, emit.cx c0 c1, emit.t c1, emit.t c0 ]

/-- The calls of `case 2u` between the two fan-out loops. -/
def case2_core (c0 c1 t0 : Nat) : List gate :=
  [emit.hadamard t0] ++ ccz_calls c0 c1 t0 ++ [emit.hadamard t0]

/-- The calls of `case 2u`. -/
def case2_calls (c0 c1 : Nat) (targets : List Nat) : List gate :=
  fan_out (targets0 targets) targets
  ++ [emit.hadamard (targets0 targets)]
  ++ ccz_calls c0 c1 (targets0 targets)
  ++ [emit.hadamard (targets0 targets)]
  ++ fan_out (targets0 targets) targets

/-- The calls of `case 3u` between the two fan-out loops. -/
def case3_core (a b c d helper : Nat) : List gate :=
  -- R1-TOF(a, b, helper)
  [ emit.hadamard helper, emit.t helper, emit.cx b helper, emit.t_dagger helper,
    emit.cx a helper, emit.t helper, emit.cx b helper, emit.t_dagger helper,
    emit.hadamard helper,
  -- S-R2-TOF(c3, helper, target)
    emit.hadamard d, emit.cx d helper, emit.t_dagger helper, emit.cx c helper,
    emit.t helper, emit.cx d helper, emit.t_dagger helper, emit.cx c helper,
    emit.t helper,
  -- R1-TOF^-1(a, b, helper)
    emit.hadamard helper, emit.t helper, emit.cx b helper, emit.t_dagger helper,
    emit.cx a helper, emit.t helper, emit.cx b helper, emit.t_dagger helper,
    emit.hadamard helper,
  -- S-R2-TOF^-1(c3, helper, target)
    emit.t_dagger helper, emit.cx c helper, emit.t helper, emit.cx d helper,
    emit.t_dagger helper, emit.cx c helper, emit.t helper, emit.cx d helper,
    emit.hadamard d ]

/-- The calls of `case 3u` once a helper is found. -/
def case3_calls (a b c helper : Nat) (targets : List Nat) : List gate :=
  fan_out (targets0 targets) targets
  ++ case3_core a b c (targets0 targets) helper
  ++ fan_out (targets0 targets) targets

/-- The calls of `case 4u` between the two fan-out loops. -/
def case4_core (a b control d e helper : Nat) : List gate :=
  [ emit.hadamard helper, emit.t helper, emit.cx control helper, emit.t_dagger helper,
    emit.hadamard helper, emit.cx a helper, emit.t helper, emit.cx b helper,
    emit.t_dagger helper, emit.cx a helper, emit.t helper, emit.cx b helper,
    emit.t_dagger helper, emit.hadamard helper, emit.t helper, emit.cx control helper,
    emit.t_dagger helper, emit.hadamard helper, emit.hadamard e, emit.cx e helper,
    emit.t_dagger helper, emit.cx d helper, emit.t helper, emit.cx e helper,
    emit.t_dagger helper, emit.cx d helper, emit.t helper, emit.hadamard helper,
    emit.t helper, emit.cx control helper, emit.t_dagger helper, emit.hadamard helper,
    emit.t helper, emit.cx b helper, emit.t_dagger helper, emit.cx a helper,
    emit.t helper, emit.cx b helper, emit.t_dagger helper, emit.cx a helper,
    emit.hadamard helper, emit.t helper, emit.cx control helper, emit.t_dagger helper,
    emit.hadamard helper, emit.t_dagger helper, emit.cx d helper, emit.t helper,
    emit.cx e helper, emit.t_dagger helper, emit.cx d helper, emit.t helper,
    emit.cx e helper, emit.hadamard e ]

/-- The calls of `case 4u` once a helper is found. -/
def case4_calls (a b control d helper : Nat) (targets : List Nat) : List gate :=
  fan_out (targets0 targets) targets
  ++ case4_core a b control d (targets0 targets) helper
  ++ fan_out (targets0 targets) targets

/-- The lambda `gate_rewriter(dest, gate)` of `rpt`: the returned flag and the
destination after the call. The `switch` on `gate.num_controls()` is the match on
the enumerated controls. -/
def gate_rewriter (qid_invalid : Nat) (dest : network) (g : gate) : Bool × network :=
  if g.op = gate_set.mcx then
    match g.controls with
    | [] => (true, dest.add_gates (g.targets.map emit.pauli_x))
    | [control] => (true, dest.add_gates (g.targets.map (fun target => emit.cx control target)))
    | [c0, c1] => (true, dest.add_gates (case2_calls c0 c1 g.targets))
    | [a, b, c] =>
      let helper := helper_scan qid_invalid
        (fun i => i != a && i != b && i != c && !g.targets.contains i) dest.num_qubits
      if helper = qid_invalid then (false, dest)
      else (true, dest.add_gates (case3_calls a b c helper g.targets))
    | [a, b, control, d] =>
      let helper := helper_scan qid_invalid
        (fun i => i != a && i != b && i != control && i != d && !g.targets.contains i)
        dest.num_qubits
      if helper = qid_invalid then (false, dest)
      else (true, dest.add_gates (case4_calls a b control d helper g.targets))
    | _ => (false, dest)
  else if g.op = gate_set.mcz then
    match g.controls with
    | [c0, c1] => (true, dest.add_gates (ccz_calls c0 c1 (targets0 g.targets)))
    | _ => (false, dest)
  else (false, dest)

/-! ## Basis states

A computational basis state of the register is a natural number: qubit `q` has
the value of binary digit `q`. -/

/-- The value of qubit `q` in the basis state `x`. -/
def qubit_bit (x q : Nat) : Bool := x.testBit q

/-- The basis state `x` with qubit `q` negated. -/
def flip_bit (x q : Nat) : Nat := x ^^^ 2 ^ q

/-- The basis state `x` with qubit `q` set to `b`. -/
def set_bit (x q : Nat) (b : Bool) : Nat :=
  if qubit_bit x q = b then x else flip_bit x q

/-- The action of a CNOT on a basis state: `target ^= control`. -/
def cx_bits (x control target : Nat) : Nat :=
  if qubit_bit x control then flip_bit x target else x

/-- The action of the CNOTs from `d` to each qubit of `ts`, in order. -/
def fan_bits (d : Nat) (ts : List Nat) (x : Nat) : Nat :=
  ts.foldl (fun y t => cx_bits y d t) x

/-- The multi-controlled Toffoli on a basis state: every target is negated when
all controls are 1, and nothing changes otherwise. -/
def toffoli (controls targets : List Nat) (x : Nat) : Nat :=
  if controls.all (qubit_bit x) then targets.foldl flip_bit x else x

/-! ## Phase reading of CNOT, T and T-dagger -/

/-- One gate on a pair (phase in units of pi/4 modulo 8, basis state): a CNOT is
`target ^= control`, T adds 1 and T-dagger adds -1 to the phase when the
acted-on qubit is 1. Other records have no reading here. -/
def phase_apply (g : gate) (s : Nat × Nat) : Option (Nat × Nat) :=
  match g.op, g.controls, g.targets with
  | gate_set.cx, [c], [t] => some (s.1, cx_bits s.2 c t)
  | gate_set.t, [], [q] => some (if qubit_bit s.2 q then (s.1 + 1) % 8 else s.1, s.2)
  | gate_set.t_dagger, [], [q] => some (if qubit_bit s.2 q then (s.1 + 7) % 8 else s.1, s.2)
  | _, _, _ => none

/-- A gate sequence on a pair (phase, basis state), first gate first. -/
def phase_run : List gate → Nat × Nat → Option (Nat × Nat)
  | [], s => some s
  | g :: gs, s =>
    match phase_apply g s with
    | some s1 => phase_run gs s1
    | none => none

/-! ## Unitary reading of the elementary gates

Amplitudes live in `Z[w]`, `w = exp(i pi / 4)`. A state is a finite sum of basis
states with amplitudes, together with the number of factors `1 / sqrt 2` that
multiply the whole sum; each Hadamard contributes one such factor. -/

/-- The number `a + b w + c w^2 + d w^3`, where `w^4 = -1`. -/
@[ext] structure Zomega where
  a : Int
  b : Int
  c : Int
  d : Int
deriving DecidableEq, Repr

instance : Zero Zomega := ⟨⟨0, 0, 0, 0⟩⟩

instance : One Zomega := ⟨⟨1, 0, 0, 0⟩⟩

instance : Add Zomega := ⟨fun x y => ⟨x.a + y.a, x.b + y.b, x.c + y.c, x.d + y.d⟩⟩

instance : Neg Zomega := ⟨fun x => ⟨-x.a, -x.b, -x.c, -x.d⟩⟩

/-- Multiplication by `w`. -/
def Zomega.mul_omega (z : Zomega) : Zomega := ⟨-z.d, z.a, z.b, z.c⟩

/-- Multiplication by the conjugate of `w`, which is `-w^3`. -/
def Zomega.mul_omega_inv (z : Zomega) : Zomega := ⟨z.b, z.c, z.d, -z.a⟩

/-- Multiplication by `sqrt 2 = w - w^3`. -/
def Zomega.mul_sqrt2 (z : Zomega) : Zomega := ⟨z.b - z.d, z.a + z.c, z.b + z.d, z.c - z.a⟩

/-- The phase `w^k`. -/
def Zomega.omega_pow : Nat → Zomega
  | 0 => 1
  | k + 1 => (Zomega.omega_pow k).mul_omega

/-- The product `(sqrt 2)^n * z`. -/
def Zomega.sqrt2_pow : Nat → Zomega → Zomega
  | 0, z => z
  | n + 1, z => (Zomega.sqrt2_pow n z).mul_sqrt2

/-- One term of a state: an amplitude on a basis state. -/
structure path where
  amp : Zomega
  basis : Nat
deriving DecidableEq, Repr

/-- The standard unitary of an elementary gate on one term, without the factor
`1 / sqrt 2` of the Hadamard: Pauli-X negates the qubit, CNOT is
`target ^= control`, T multiplies by `w` and T-dagger by its conjugate when the
qubit is 1, and the Hadamard sends `|b>` to `|0> + (-1)^b |1>`. A record that is
none of these five has no unitary reading: it sends the term to the empty sum. -/
def apply_gate (g : gate) (p : path) : List path :=
  match g.op, g.controls, g.targets with
  | gate_set.pauli_x, [], [q] => [⟨p.amp, flip_bit p.basis q⟩]
  | gate_set.cx, [c], [t] => [⟨p.amp, cx_bits p.basis c t⟩]
  | gate_set.t, [], [q] =>
    [⟨if qubit_bit p.basis q then p.amp.mul_omega else p.amp, p.basis⟩]
  | gate_set.t_dagger, [], [q] =>
    [⟨if qubit_bit p.basis q then p.amp.mul_omega_inv else p.amp, p.basis⟩]
  | gate_set.hadamard, [], [q] =>
    [⟨p.amp, set_bit p.basis q false⟩,
     ⟨if qubit_bit p.basis q then -p.amp else p.amp, set_bit p.basis q true⟩]
  | _, _, _ => []

/-- A gate sequence on a sum of terms, first gate first. -/
def run_paths (gs : List gate) (s : List path) : List path :=
  gs.foldl (fun s g => s.flatMap (apply_gate g)) s

/-- The number of Hadamard records of a sequence. -/
def hadamard_count (gs : List gate) : Nat :=
  gs.countP (fun g => g.op == gate_set.hadamard)

/-- A state: the sum of `paths` divided by `(sqrt 2)^halvings`. -/
structure qstate where
  halvings : Nat
  paths : List path

/-- The basis state `|x>`. -/
def ket (x : Nat) : qstate := ⟨0, [⟨1, x⟩]⟩

/-- A gate sequence on a state. -/
def run (gs : List gate) (s : qstate) : qstate :=
  ⟨s.halvings + hadamard_count gs, run_paths gs s.paths⟩

/-- The sum of the amplitudes the terms put on the basis state `z`. -/
def amp_sum : List path → Nat → Zomega
  | [], _ => 0
  | p :: s, z => (if p.basis = z then p.amp else 0) + amp_sum s z

/-- The amplitude of the basis state `z` in the state `s` is `alpha`. -/
def amplitude_is (s : qstate) (z : Nat) (alpha : Zomega) : Prop :=
  amp_sum s.paths z = Zomega.sqrt2_pow s.halvings alpha

/-! ### Evaluation with merged terms -/

/-- Adds a term to a sum, merging it with a term on the same basis state. -/
def insert_path (p : path) : List path → List path
  | [] => [p]
  | q :: s =>
    if q.basis = p.basis then ⟨q.amp + p.amp, q.basis⟩ :: s else q :: insert_path p s

/-- The same sum with at most one term per basis state. -/
def merge_paths : List path → List path
  | [] => []
  | p :: s => insert_path p (merge_paths s)

/-- One gate on a sum of terms, merging the terms after a Hadamard. -/
def step_merged (g : gate) (s : List path) : List path :=
  if g.op = gate_set.hadamard then merge_paths (s.flatMap (apply_gate g))
  else s.flatMap (apply_gate g)

/-- A gate sequence on a sum of terms, merging after every Hadamard. -/
def run_merged (gs : List gate) (s : List path) : List path :=
  gs.foldl (fun s g => step_merged g s) s

/-- The record is one of the five elementary gates, and a CNOT has two
different qubits. -/
def gate.unitary (g : gate) : Bool :=
  match g.op, g.controls, g.targets with
  | gate_set.pauli_x, [], [_] => true
  | gate_set.cx, [c], [t] => c != t
  | gate_set.t, [], [_] => true
  | gate_set.t_dagger, [], [_] => true
  | gate_set.hadamard, [], [_] => true
  | _, _, _ => false

/-- Every qubit of the record is below `k`. -/
def gate.below (k : Nat) (g : gate) : Bool :=
  g.controls.all (fun q => decide (q < k)) && g.targets.all (fun q => decide (q < k))

/-! ### A circuit on `k` qubits placed on chosen qubits of the register -/

/-- The qubit `qs[i]` (0 when there is none). -/
def nth_qubit (qs : List Nat) (i : Nat) : Nat := qs.getD i 0

/-- The record with qubit `i` replaced by `qs[i]`. -/
def gate.rename (qs : List Nat) (g : gate) : gate :=
  { g with
    controls := g.controls.map (nth_qubit qs)
    targets := g.targets.map (nth_qubit qs) }

/-- The basis state `x` with qubit `qs[i]` set to digit `i` of `l`. -/
def emb : List Nat → Nat → Nat → Nat
  | [], x, _ => x
  | q :: qs, x, l => set_bit (emb qs x (l / 2)) q (qubit_bit l 0)

/-- The number whose digit `i` is the value of qubit `qs[i]` in `x`. -/
def loc : List Nat → Nat → Nat
  | [], _ => 0
  | q :: qs, x => (qubit_bit x q).toNat + 2 * loc qs x

/-- The term `p` of a circuit on `0..k-1`, placed on the qubits `qs` of the
register in the basis state `x`. -/
def path.place (qs : List Nat) (x : Nat) (p : path) : path :=
  ⟨p.amp, emb qs x p.basis⟩

/-- Every record of the circuit is an elementary gate on qubits below `k`. -/
def core_ok (k : Nat) (core : List gate) : Bool :=
  core.all (fun g => g.unitary && g.below k)

/-- The check that the circuit `core` on qubits `0..k-1` sends the basis state
`l` to `c` times the basis state `expected l`, evaluated with merged terms: the
amplitude of `expected l` is `c`, and every other basis state that occurs has
amplitude 0. -/
def check_core (k : Nat) (core : List gate) (expected : Nat → Nat) (c : Zomega)
    (l : Nat) : Bool :=
  decide (expected l < 2 ^ k)
  && decide (amp_sum (run_merged core [⟨1, l⟩]) (expected l) = c)
  && (run_merged core [⟨1, l⟩]).all (fun p =>
      decide (p.basis = expected l)
      || decide (amp_sum (run_merged core [⟨1, l⟩]) p.basis = 0))

/-- The block `R1-TOF(a, b, helper)` of `case 3u`. -/
def r1_tof (a b helper : Nat) : List gate :=
  [ emit.hadamard helper, emit.t helper, emit.cx b helper, emit.t_dagger helper,
    emit.cx a helper, emit.t helper, emit.cx b helper, emit.t_dagger helper,
    emit.hadamard helper ]

/-- The block `S-R2-TOF(c3, helper, target)` of `case 3u`. -/
def s_r2_tof (c d helper : Nat) : List gate :=
  [ emit.hadamard d, emit.cx d helper, emit.t_dagger helper, emit.cx c helper,
    emit.t helper, emit.cx d helper, emit.t_dagger helper, emit.cx c helper,
    emit.t helper ]

/-- The record with T and T-dagger exchanged; every other record is kept. -/
def gate.dagger (g : gate) : gate :=
  match g.op with
  | gate_set.t => { g with op := gate_set.t_dagger }
  | gate_set.t_dagger => { g with op := gate_set.t }
  | _ => g

/-- The inverse of a sequence of Hadamard, CNOT, T and T-dagger gates: the gates
in reverse order with T and T-dagger exchanged. -/
def inverse_calls (gs : List gate) : List gate :=
  gs.reverse.map gate.dagger

/-- The index `h` is the helper the scan picks for a gate with the given controls
and targets on `n` qubits: the least index below `n` that is neither a control nor
a target. -/
def is_helper (n : Nat) (controls targets : List Nat) (h : Nat) : Prop :=
  h < n ∧ h ∉ controls ∧ h ∉ targets ∧ ∀ j, j < h → j ∈ controls ∨ j ∈ targets

/-- Modelled from the spec: the loop of `rewrite_network` (`generic/rewrite.hpp`
is not among the sources). For each gate of the source, in order, the rewriter is
invoked on the destination and the gate; when it returns false the pass stops and
reports failure, the destination staying as the rewriter left it. -/
def rewrite_loop (rewriter : network → gate → Bool × network) :
    List gate → network → Bool × network
  | [], dest => (true, dest)
  | g :: gs, dest =>
    match rewriter dest g with
    | (true, dest1) => rewrite_loop rewriter gs dest1
    | (false, dest1) => (false, dest1)

/-- Modelled from the spec: `rewrite_network(dest, src, rewriter, ancillae)`
(`generic/rewrite.hpp` is not among the sources). The destination gets as many
qubits as the source plus the ancillae, then the source gates are replayed through
the rewriter; the outcome is the success flag and the destination. -/
def rewrite_network (dest src : network) (rewriter : network → gate → Bool × network)
    (ancillae : Nat) : Bool × network :=
  rewrite_loop rewriter src.gates (add_qubits (src.num_qubits + ancillae) dest)

/-- The function `rpt(src)`: a default-constructed destination, one ancilla, the
call of `rewrite_network` as a statement, and `return dest`. -/
def rpt (qid_invalid : Nat) (src : network) : network :=
  (rewrite_network network.empty src (gate_rewriter qid_invalid) 1).2

/-- The gates that stand for an MCX gate with zero or one control: one Pauli-X
per target, or one CNOT from the control to each target. -/
def expand01 (g : gate) : List gate :=
  match g.controls with
  | [] => g.targets.map emit.pauli_x
  | c :: _ => g.targets.map (fun t => emit.cx c t)

/-- The getter `phy_virtual_map()`: a vector of zeros of the size of the live
map, then `map[virtual_phy_map_[i]] = i` for every index; the subscripts are
unchecked in the source. -/
def mapping_view.phy_virtual_map (v : mapping_view) : Except fault (List Nat) :=
  phy_virtual_loop v.virtual_phy_map_ (List.range v.virtual_phy_map_.length)
    (List.replicate v.virtual_phy_map_.length 0)

/-- The vector `res` of length `n` sends each entry of `r` back to its index:
`res[r[i]] = i` for every `i < n`. -/
def is_inverse (res r : List Nat) (n : Nat) : Prop :=
  res.length = n ∧ ∀ i, i < n → ∃ p, r[i]? = some p ∧ res[p]? = some i

/-- A call on a `mapping_view` that can change its state, with its arguments. -/
inductive view_op where
  | add_gate (op : gate_set) (target : Nat)
  | add_gate2 (op : gate_set) (control target : Nat)
  | add_swap (phy_a phy_b : Nat)
  | set_virtual_phy_map (map : List Nat)
  | set_phy_virtual_map (map : List Nat)

/-- The state after one call; a call that throws, trips an assertion or has
undefined behaviour ends the run with that fault. -/
def mapping_view.step (v : mapping_view) : view_op → Except fault mapping_view
  | .add_gate op target =>
    match v.add_gate op target with
    | .ok (_, v1) => .ok v1
    | .error e => .error e
  | .add_gate2 op control target =>
    match v.add_gate2 op control target with
    | .ok (_, v1) => .ok v1
    | .error e => .error e
  | .add_swap phy_a phy_b => v.add_swap phy_a phy_b
  | .set_virtual_phy_map map => .ok (v.set_virtual_phy_map map)
  | .set_phy_virtual_map map => v.set_phy_virtual_map map

/-- The state after a sequence of calls, made in order. -/
def mapping_view.run_ops : mapping_view → List view_op → Except fault mapping_view
  | v, [] => .ok v
  | v, o :: os =>
    match v.step o with
    | .ok v1 => mapping_view.run_ops v1 os
    | .error e => .error e

/-- The vector a remapping call is given, if the call is one, is a permutation
of `0..n-1`. -/
def view_op.remap_ok (n : Nat) : view_op → Prop
  | .set_virtual_phy_map map => map.Perm (List.range n)
  | .set_phy_virtual_map map => map.Perm (List.range n)
  | _ => True

/-- The qubits a gate or swap call names are below `n`, and the pair of a swap
is adjacent in `coupling`. -/
def view_op.in_range (n : Nat) (coupling : Nat → Nat → Bool) : view_op → Prop
  | .add_gate _ target => target < n
  | .add_gate2 _ control target => control < n ∧ target < n
  | .add_swap phy_a phy_b => phy_a < n ∧ phy_b < n ∧ coupling phy_a phy_b = true
  | _ => True

/-- The call is a two-qubit `add_gate` whose operands are mapped, at the time of
the call, to a physical pair that is not adjacent in the coupling matrix. -/
def nonadjacent_call (v : mapping_view) : view_op → Bool
  | .add_gate2 _ control target =>
    match v.virtual_phy_map_[control]?, v.virtual_phy_map_[target]? with
    | some phy_control, some phy_target => !v.coupling_matrix_ phy_control phy_target
    | _, _ => false
  | _ => false

/-- Some call of the sequence, made in order from the state `v`, is a
`nonadjacent_call` in the state it is made in. -/
def some_nonadjacent : mapping_view → List view_op → Bool
  | _, [] => false
  | v, o :: os =>
    nonadjacent_call v o ||
      match v.step o with
      | .ok v1 => some_nonadjacent v1 os
      | .error _ => false

/-! ## The TFC reader -/

/-- The characters `left_trim` strips by default, `" \t\n\v\f\r"`. They are
also the characters the stream extraction of a `std::string` skips. -/
def trim_chars : List Char :=
  [' ', Char.ofNat 9, Char.ofNat 10, Char.ofNat 11, Char.ofNat 12, Char.ofNat 13]

/-- The line delimiter of `std::getline`. -/
def newline : Char := Char.ofNat 10

/-- The character that marks a negated qubit. -/
def apostrophe : Char := Char.ofNat 39

/-- Membership in `trim_chars`. -/
def is_space (c : Char) : Bool := decide (c ∈ trim_chars)

/-- The function `left_trim(str)` with its default character set: the string
from its first character that is not in the set, empty if there is none. -/
def left_trim (str : List Char) : List Char := str.dropWhile is_space

/-- The maximal runs of characters that `sep` rejects, in order; `cur` holds
the run being read. -/
def runs (sep : Char → Bool) : List Char → List Char → List (List Char)
  | [], cur => if cur = [] then [] else [cur]
  | c :: cs, cur =>
    if sep c then
      if cur = [] then runs sep cs [] else cur :: runs sep cs []
    else runs sep cs (cur ++ [c])

/-- The strings `std::istream_iterator<std::string>` yields on a line: its
maximal runs of characters that are not white space. -/
def stream_tokens (line : List Char) : List (List Char) := runs is_space line []

/-- The comma loop of `split` on the rest of a token, `cur` being the characters
since `begin`: each piece that ends at a comma is trimmed and kept, also when it
is empty; what follows the last comma is kept when it is not empty. -/
def comma_pieces : List Char → List Char → List (List Char)
  | [], cur => if cur = [] then [] else [cur]
  | c :: cs, cur =>
    if c = ',' then left_trim cur :: comma_pieces cs []
    else comma_pieces cs (cur ++ [c])

/-- The body of the lambda of `split` on one token. -/
def split_token (str : List Char) : List (List Char) :=
  if ',' ∈ str then comma_pieces str [] else [str]

/-- The function `split(line)`. -/
def split (line : List Char) : List (List Char) :=
  (stream_tokens line).flatMap split_token

/-- The lines `std::getline` reads from the buffer, `cur` being the characters
of the line being read: a final line needs no delimiter, and nothing follows
the last delimiter unless characters do. -/
def getlines : List Char → List Char → List (List Char)
  | [], cur => if cur = [] then [] else [cur]
  | c :: cs, cur =>
    if c = newline then cur :: getlines cs [] else getlines cs (cur ++ [c])

/-- Modelled from the spec: a qubit reference (`IR/Qubit.h` is not among the
sources): the index of the qubit in creation order and its polarity. -/
structure Qubit where
  uid : Nat
  negated : Bool
deriving DecidableEq, Repr

/-- Modelled from the spec: the operator `!` on a qubit reference gives the
same qubit with the opposite polarity. -/
def Qubit.not (q : Qubit) : Qubit := { q with negated := !q.negated }

/-- The two operators the reader applies, `Op::X()` and `Op::Swap()`. -/
inductive Op where
  | X
  | Swap
deriving DecidableEq, Repr

/-- Modelled from the spec: a circuit (`IR/Circuit.h` is not among the sources):
the labels of its qubits in creation order and its operator applications in
order, each an operator with the qubits it is applied to. -/
structure Circuit where
  qubits : List (List Char)
  instructions : List (Op × List Qubit)
deriving DecidableEq, Repr

/-- Modelled from the spec: `create_qubit(label)` appends a qubit of positive
polarity and returns the reference to it. -/
def Circuit.create_qubit (c : Circuit) (label : List Char) : Qubit × Circuit :=
  (⟨c.qubits.length, false⟩, { c with qubits := c.qubits ++ [label] })

/-- Modelled from the spec: `apply_operator(op, qubits)` appends one operator
application. -/
def Circuit.apply_operator (c : Circuit) (op : Op) (qs : List Qubit) : Circuit :=
  { c with instructions := c.instructions ++ [(op, qs)] }

/-- The value the `std::unordered_map` holds for a key, if it holds the key;
the map is kept as the list of its entries. -/
def map_find : List (List Char × Qubit) → List Char → Option Qubit
  | [], _ => none
  | (key, q) :: m, label => if key = label then some q else map_find m label

/-- The call `qubits.emplace(label, q)` on the `std::unordered_map`: a key that
is present keeps its value. -/
def map_emplace (m : List (List Char × Qubit)) (label : List Char) (q : Qubit) :
    List (List Char × Qubit) :=
  match map_find m label with
  | some _ => m
  | none => m ++ [(label, q)]

/-- The checked read `qubits.at(label)`. -/
def map_at (m : List (List Char × Qubit)) (label : List Char) : Except fault Qubit :=
  match map_find m label with
  | some q => .ok q
  | none => .error fault.out_of_range

/-- The locals of `parse_stream`: the circuit and the label map. -/
structure reader where
  circuit : Circuit
  qubits : List (List Char × Qubit)

/-- The loop over the labels of a `.v` line: each label creates a qubit and is
emplaced in the map with it. -/
def declare_labels : reader → List (List Char) → reader
  | st, [] => st
  | st, label :: labels =>
    let r := st.circuit.create_qubit label
    declare_labels ⟨r.2, map_emplace st.qubits label r.1⟩ labels

/-- The body of the loop over the labels of a gate line, for one label;
`label.back()` on an empty label is undefined. -/
def gate_qubit (m : List (List Char × Qubit)) (label : List Char) : Except fault Qubit :=
  match label.getLast? with
  | none => .error fault.undefined
  | some c =>
    if c = apostrophe then
      match map_at m label.dropLast with
      | .ok q => .ok q.not
      | .error e => .error e
    else map_at m label

/-- The loop over the labels of a gate line. -/
def gate_qubits (m : List (List Char × Qubit)) : List (List Char) → Except fault (List Qubit)
  | [] => .ok []
  | label :: labels =>
    match gate_qubit m label with
    | .error e => .error e
    | .ok q =>
      match gate_qubits m labels with
      | .error e => .error e
      | .ok qs => .ok (q :: qs)

/-- The body of the loop of `parse_stream` for one line. -/
def parse_line (st : reader) (line0 : List Char) : Except fault reader :=
  let line := left_trim line0
  match line with
  | [] => .ok st
  | c :: _ =>
    if c = '#' then .ok st
    else
      match split line with
      | [] => .error fault.out_of_range
      | entry0 :: labels =>
        if c = '.' then
          if entry0 = ['.', 'v'] then .ok (declare_labels st labels) else .ok st
        else if entry0 = ['B', 'E', 'G', 'I', 'N'] ∨ entry0 = ['E', 'N', 'D'] then .ok st
        else
          match entry0 with
          | [] => .error fault.out_of_range
          | c0 :: _ =>
            if c0 = 'f' ∨ c0 = 't' then
              let op := if c0 = 'f' then Op.Swap else Op.X
              match gate_qubits st.qubits labels with
              | .error e => .error e
              | .ok op_qubits =>
                .ok { st with circuit := st.circuit.apply_operator op op_qubits }
            else .error fault.assertion

/-- The loop of `parse_stream` over the lines read. -/
def parse_lines : reader → List (List Char) → Except fault reader
  | st, [] => .ok st
  | st, line :: lines =>
    match parse_line st line with
    | .ok st1 => parse_lines st1 lines
    | .error e => .error e

/-- The function `parse_stream(buffer)` on the characters of the stream. -/
def parse_stream (buffer : List Char) : Except fault Circuit :=
  match parse_lines ⟨⟨[], []⟩, []⟩ (getlines buffer []) with
  | .ok st => .ok st.circuit
  | .error e => .error e

/-- The function `parse_source_buffer(buffer)`. -/
def parse_source_buffer (buffer : List Char) : Except fault Circuit :=
  parse_stream buffer

/-! ### The reader as the text format describes it -/

/-- A character that separates labels: white space or a comma. -/
def is_separator (c : Char) : Bool := is_space c || decide (c = ',')

/-- The tokens of a line: its maximal runs of characters that are not
separators. -/
def spec_tokens (line : List Char) : List (List Char) := runs is_separator line []

/-- What a line contributes. -/
inductive line_kind where
  | nothing
  | declares (labels : List (List Char))
  | applies (op : Op) (labels : List (List Char))
deriving DecidableEq, Repr

/-- The contribution of a line by the format: nothing for an empty line, a
line whose first non-blank character is `#`, a line starting with `.` other than
a `.v` line, and a `BEGIN` or `END` line; the labels after `.v`; Swap on the
labels after a first token starting with `f`, X on those after one starting
with `t`. -/
def spec_line (line : List Char) : line_kind :=
  match spec_tokens line with
  | [] => .nothing
  | token0 :: labels =>
    if (left_trim line).head? = some '#' then .nothing
    else if token0 = ['.', 'v'] then .declares labels
    else if token0.head? = some '.' then .nothing
    else if token0 = ['B', 'E', 'G', 'I', 'N'] ∨ token0 = ['E', 'N', 'D'] then .nothing
    else if token0.head? = some 'f' then .applies Op.Swap labels
    else if token0.head? = some 't' then .applies Op.X labels
    else .nothing

/-- The labels a line declares. -/
def spec_declared (line : List Char) : List (List Char) :=
  match spec_line line with
  | .declares labels => labels
  | _ => []

/-- The position of the first declaration of `label` among the declared labels
`names`, which is the index of the qubit that declaration created. -/
def first_index : List (List Char) → List Char → Nat
  | [], _ => 0
  | name :: names, label => if name = label then 0 else first_index names label + 1

/-- The qubit a label names on a gate line, among the declared labels `names`
in declaration order: a label with a trailing apostrophe names the negated
qubit of the label without it. -/
def spec_qubit (names : List (List Char)) (label : List Char) : Qubit :=
  if label.getLast? = some apostrophe then ⟨first_index names label.dropLast, true⟩
  else ⟨first_index names label, false⟩

/-- The operator application of a line, if it is a gate line. -/
def spec_instruction (names : List (List Char)) (line : List Char) :
    Option (Op × List Qubit) :=
  match spec_line line with
  | .applies op labels => some (op, labels.map (spec_qubit names))
  | _ => none

/-- The circuit the format describes for a text: one qubit per label listed on
`.v` lines, in declaration order, and one operator application per gate line,
in line order. -/
def spec_circuit (buffer : List Char) : Circuit :=
  let lines := getlines buffer []
  let names := lines.flatMap spec_declared
  ⟨names, lines.filterMap (spec_instruction names)⟩

/-- Every comma of the text directly follows a character of a label; `prev`
tells whether the character before is one. -/
def commas_ok : Bool → List Char → Bool
  | _, [] => true
  | prev, c :: cs =>
    if c = ',' then prev && commas_ok false cs
    else if is_space c then commas_ok false cs
    else commas_ok true cs

/-- The label, without a trailing apostrophe, is among `names`. -/
def label_declared (names : List (List Char)) (label : List Char) : Bool :=
  if label.getLast? = some apostrophe then decide (label.dropLast ∈ names)
  else decide (label ∈ names)

/-- The line is one the format describes, given the labels `names` declared
before it: empty, a comment, or with every comma directly after a label and
then a line starting with `.`, a `BEGIN` or `END` line, or a gate line whose
first token starts with `f` or `t` and whose labels are declared. -/
def line_ok (names : List (List Char)) (line : List Char) : Bool :=
  match left_trim line with
  | [] => true
  | c :: rest =>
    decide (c = '#') ||
      (commas_ok false (c :: rest) &&
        (decide (c = '.')
          || decide ((spec_tokens line).head? = some ['B', 'E', 'G', 'I', 'N'])
          || decide ((spec_tokens line).head? = some ['E', 'N', 'D'])
          || ((decide (c = 'f') || decide (c = 't'))
              && (spec_tokens line).tail.all (label_declared names))))

/-- Every line is one the format describes, given the labels declared before
it, `names` being those declared before the first. -/
def lines_ok : List (List Char) → List (List Char) → Bool
  | _, [] => true
  | names, line :: lines =>
    line_ok names line && lines_ok (names ++ spec_declared line) lines

/-- The text is one the format describes. -/
def text_ok (buffer : List Char) : Bool := lines_ok [] (getlines buffer [])

/-- The pieces `ps`, each followed by a comma. -/
def join_commas (ps : List (List Char)) : List Char := ps.flatMap (fun p => p ++ [','])

/-- The label map holds exactly the labels `names`, each with the positive
qubit of its first position in `names`. -/
def map_inv (m : List (List Char × Qubit)) (names : List (List Char)) : Prop :=
  ∀ label, map_find m label
    = if label ∈ names then some (⟨first_index names label, false⟩ : Qubit) else none

/-! ## Concrete inputs -/

/-- A sentinel for the concrete inputs: the largest 32-bit value. -/
def sentinel32 : Nat := 4294967295


/-- A line of three physical qubits, 0 - 1 - 2: only neighbours are coupled. -/
def line3 : device :=
  ⟨3, fun i j => decide (i < 3) && decide (j < 3) && (i + 1 == j || j + 1 == i)⟩

/-- A view over `line3` with the identity placement and no gate, strict or
relaxed according to `allow`. -/
def view3 (allow : Bool) : mapping_view :=
  { net := ⟨3, []⟩
    init_virtual_phy_map_ := [0, 1, 2]
    virtual_phy_map_ := [0, 1, 2]
    coupling_matrix_ := line3.coupling
    allow_partial_ := allow
    is_partial_ := false
    gate_type_is_mcst := true }

/-- The view `view3 false` after one Hadamard on virtual qubit 0. -/
def view3_one_gate : mapping_view :=
  { view3 false with net := ⟨3, [gate.single gate_set.hadamard 0]⟩ }

/-- A source circuit of two qubits with a single NOT on qubit 0. -/
def src_single_not : network :=
  ⟨2, [⟨gate_set.mcx, [], [0]⟩]⟩

/-- The view the constructor builds from a three-qubit network without gates
over `line3`. -/
def built3 (allow : Bool) : mapping_view :=
  { view3 allow with init_virtual_phy_map_ := [] }

/-- A sequence of calls on a three-qubit view: a Hadamard, a CX on an adjacent
pair, a swap, both remapping calls with permutations, and a CX on virtual
qubits 1 and 2, which are then on the physical qubits 0 and 2. -/
def calls3 : List view_op :=
  [view_op.add_gate gate_set.hadamard 0,
   view_op.add_gate2 gate_set.cx 0 1,
   view_op.add_swap 1 2,
   view_op.set_virtual_phy_map [2, 0, 1],
   view_op.set_phy_virtual_map [1, 0, 2],
   view_op.add_gate2 gate_set.cx 1 2]

/-- The relaxed view `built3 true` after the calls `calls3`. -/
def after_calls3 : mapping_view :=
  { built3 true with
    net := ⟨3, [gate.single gate_set.hadamard 0,
      gate.controlled gate_set.cx 0 1,
      gate.controlled gate_set.cx 1 2,
      gate.controlled gate_set.cx 2 1,
      gate.controlled gate_set.cx 1 2,
      gate.controlled gate_set.cx 0 2]⟩
    virtual_phy_map_ := [1, 0, 2]
    is_partial_ := true }

/-- A TFC text: three labels, a comment, two Toffoli-style lines and a swap. -/
def tfc_sample : List Char :=
  ".v a,b c\n.i a,b\n# comment\nBEGIN\n  t3 a, b' c\nf2 a b\n\nt1 c\r\nEND\n".toList

/-- A TFC text with a line that is neither ignored nor a gate line. -/
def tfc_unknown_line : List Char := ".v a\nx a\n".toList

/-- A TFC text in which white space comes between a label and the comma. -/
def tfc_stray_comma : List Char := ".v a ,b\n".toList

/-! ## Auxiliary facts -/

theorem vector_at_of_getElem? {v : List Nat} {i x : Nat} (h : v[i]? = some x) :
    vector_at v i = .ok x := by
  simp [vector_at, h]

theorem foldl_emplace_gates (gs : List gate) (n : network) :
    (gs.foldl network.emplace_gate n).gates = n.gates ++ gs := by
  induction gs generalizing n with
  | nil => simp
  | cons g gs ih => simp [ih, network.emplace_gate]

/-- The value exchange performed on the live map by `add_swap`. -/
theorem swap_entries_eq_map (m : List Nat) (p q : Nat) (hnd : m.Nodup)
    (hp : p ∈ m) (hq : q ∈ m) :
    (m.set (m.indexOf p) q).set (m.indexOf q) p
      = m.map (fun x => if x = p then q else if x = q then p else x) := by
  apply List.ext_getElem?
  intro i
  have hip : m.indexOf p < m.length := List.indexOf_lt_length.mpr hp
  have hiq : m.indexOf q < m.length := List.indexOf_lt_length.mpr hq
  by_cases hi : i < m.length
  · have hgi : m[i]? = some m[i] := List.getElem?_eq_getElem hi
    have key : ∀ x, x ∈ m → (m.indexOf x = i ↔ m[i] = x) := by
      intro x hx
      constructor
      · intro h
        subst h
        exact List.getElem_indexOf _
      · intro h
        subst h
        exact List.indexOf_getElem hnd i hi
    simp only [List.getElem?_set, List.length_set, List.getElem?_map, hgi, Option.map_some']
    by_cases h1 : m.indexOf q = i
    · have : m[i] = q := (key q hq).mp h1
      by_cases hpq : q = p
      · subst hpq
        simp [h1, hi, this]
      · simp [h1, hi, this, hpq]
    · have hne : ¬ m[i] = q := fun h => h1 ((key q hq).mpr h)
      by_cases h2 : m.indexOf p = i
      · have : m[i] = p := (key p hp).mp h2
        simp [h1, h2, hi, this]
      · have hne2 : ¬ m[i] = p := fun h => h2 ((key p hp).mpr h)
        simp [h1, h2, hne, hne2, hgi]
  · have hi2 : m.length ≤ i := Nat.le_of_not_lt hi
    have h1 : m.indexOf q ≠ i := by omega
    have h2 : m.indexOf p ≠ i := by omega
    simp [List.getElem?_set, h1, h2, List.getElem?_eq_none hi2]

theorem add_gates_gates (dest : network) (calls : List gate) :
    (dest.add_gates calls).gates = dest.gates ++ calls :=
  foldl_emplace_gates calls dest

/-- The scan returns the sentinel exactly when no index below `num_qubits`
passes the test, provided the sentinel is not itself such an index. -/
theorem helper_scan_eq_invalid_iff (qid_invalid : Nat) (free : Nat → Bool) (n : Nat)
    (hq : n ≤ qid_invalid) :
    helper_scan qid_invalid free n = qid_invalid ↔ ∀ i, i < n → free i = false := by
  unfold helper_scan
  cases hf : (List.range n).find? free with
  | none =>
    simp only [Option.getD_none, true_iff]
    intro i hi
    have := List.find?_eq_none.mp hf i (List.mem_range.mpr hi)
    simpa using this
  | some x =>
    have hx1 : free x = true := List.find?_some hf
    have hx2 : x < n := List.mem_range.mp (List.mem_of_find?_eq_some hf)
    simp only [Option.getD_some]
    constructor
    · intro h
      omega
    · intro h
      have := h x hx2
      simp [hx1] at this

/-- What the scan returns when it does not return the sentinel: the least index
below `num_qubits` that passes the test. -/
theorem helper_scan_spec (qid_invalid : Nat) (free : Nat → Bool) (n : Nat)
    (h : helper_scan qid_invalid free n ≠ qid_invalid) :
    helper_scan qid_invalid free n < n
    ∧ free (helper_scan qid_invalid free n) = true
    ∧ ∀ j, j < helper_scan qid_invalid free n → free j = false := by
  unfold helper_scan at h ⊢
  cases hf : (List.range n).find? free with
  | none => simp [hf] at h
  | some x =>
    simp only [Option.getD_some]
    obtain ⟨h1, h2, h3⟩ := List.find?_range_eq_some.mp hf
    refine ⟨List.mem_range.mp h2, h1, ?_⟩
    intro j hj
    simpa using h3 j hj

/-! ### Basis states -/

theorem qubit_bit_flip_bit (x q r : Nat) :
    qubit_bit (flip_bit x q) r = if q = r then !qubit_bit x r else qubit_bit x r := by
  unfold qubit_bit flip_bit
  rw [Nat.testBit_xor, Nat.testBit_two_pow]
  by_cases h : q = r <;> simp [h]

@[simp] theorem qubit_bit_flip_bit_same (x q : Nat) :
    qubit_bit (flip_bit x q) q = !qubit_bit x q := by
  simp [qubit_bit_flip_bit]

theorem qubit_bit_flip_bit_ne (x : Nat) {q r : Nat} (h : q ≠ r) :
    qubit_bit (flip_bit x q) r = qubit_bit x r := by
  simp [qubit_bit_flip_bit, h]

@[simp] theorem flip_bit_flip_bit (x q : Nat) : flip_bit (flip_bit x q) q = x := by
  unfold flip_bit
  exact Nat.xor_cancel_right _ _

theorem basis_ext {x y : Nat} (h : ∀ q, qubit_bit x q = qubit_bit y q) : x = y :=
  Nat.eq_of_testBit_eq h

theorem qubit_bit_set_bit (x q r : Nat) (b : Bool) :
    qubit_bit (set_bit x q b) r = if q = r then b else qubit_bit x r := by
  unfold set_bit
  by_cases h : qubit_bit x q = b
  · by_cases hqr : q = r
    · subst hqr; simp [h]
    · simp [h, hqr]
  · by_cases hqr : q = r
    · subst hqr
      simp only [h, if_false, qubit_bit_flip_bit_same, if_true]
      cases hb : qubit_bit x q <;> cases b <;> simp_all
    · simp [h, hqr, qubit_bit_flip_bit]

/-! ### Amplitudes -/

@[simp] theorem Zomega.zero_a : (0 : Zomega).a = 0 := rfl

@[simp] theorem Zomega.zero_b : (0 : Zomega).b = 0 := rfl

@[simp] theorem Zomega.zero_c : (0 : Zomega).c = 0 := rfl

@[simp] theorem Zomega.zero_d : (0 : Zomega).d = 0 := rfl

@[simp] theorem Zomega.add_a (x y : Zomega) : (x + y).a = x.a + y.a := rfl

@[simp] theorem Zomega.add_b (x y : Zomega) : (x + y).b = x.b + y.b := rfl

@[simp] theorem Zomega.add_c (x y : Zomega) : (x + y).c = x.c + y.c := rfl

@[simp] theorem Zomega.add_d (x y : Zomega) : (x + y).d = x.d + y.d := rfl

@[simp] theorem Zomega.neg_a (x : Zomega) : (-x).a = -x.a := rfl

@[simp] theorem Zomega.neg_b (x : Zomega) : (-x).b = -x.b := rfl

@[simp] theorem Zomega.neg_c (x : Zomega) : (-x).c = -x.c := rfl

@[simp] theorem Zomega.neg_d (x : Zomega) : (-x).d = -x.d := rfl

theorem Zomega.zero_add (x : Zomega) : 0 + x = x := by
  ext <;> simp

theorem Zomega.add_zero (x : Zomega) : x + 0 = x := by
  ext <;> simp

theorem Zomega.add_assoc (x y z : Zomega) : x + y + z = x + (y + z) := by
  ext <;> simp <;> omega

theorem Zomega.add_comm (x y : Zomega) : x + y = y + x := by
  ext <;> simp <;> omega

theorem Zomega.mul_omega_add (x y : Zomega) :
    (x + y).mul_omega = x.mul_omega + y.mul_omega := by
  ext <;> simp [Zomega.mul_omega]
  omega

theorem Zomega.mul_omega_zero : (0 : Zomega).mul_omega = 0 := by
  ext <;> simp [Zomega.mul_omega]

theorem Zomega.mul_omega_inv_add (x y : Zomega) :
    (x + y).mul_omega_inv = x.mul_omega_inv + y.mul_omega_inv := by
  ext <;> simp [Zomega.mul_omega_inv]
  omega

theorem Zomega.mul_omega_inv_zero : (0 : Zomega).mul_omega_inv = 0 := by
  ext <;> simp [Zomega.mul_omega_inv]

/-! ### Sums of terms -/

@[simp] theorem amp_sum_nil (z : Nat) : amp_sum [] z = 0 := rfl

@[simp] theorem amp_sum_cons (p : path) (s : List path) (z : Nat) :
    amp_sum (p :: s) z = (if p.basis = z then p.amp else 0) + amp_sum s z := rfl

theorem amp_sum_append (s t : List path) (z : Nat) :
    amp_sum (s ++ t) z = amp_sum s z + amp_sum t z := by
  induction s with
  | nil => simp [Zomega.zero_add]
  | cons p s ih => simp [ih, Zomega.add_assoc]

theorem amp_sum_flatMap_cons (f : path → List path) (p : path) (s : List path) (z : Nat) :
    amp_sum ((p :: s).flatMap f) z = amp_sum (f p) z + amp_sum (s.flatMap f) z := by
  rw [List.flatMap_cons, amp_sum_append]

theorem flip_bit_eq_iff (x y q : Nat) : flip_bit x q = y ↔ x = flip_bit y q := by
  constructor
  · intro h; rw [← h, flip_bit_flip_bit]
  · intro h; rw [h, flip_bit_flip_bit]

theorem cx_bits_cx_bits (x : Nat) {c t : Nat} (h : c ≠ t) : cx_bits (cx_bits x c t) c t = x := by
  unfold cx_bits
  by_cases hb : qubit_bit x c = true
  · simp [hb, qubit_bit_flip_bit_ne x (Ne.symm h)]
  · simp [hb]

theorem cx_bits_eq_iff (x y : Nat) {c t : Nat} (h : c ≠ t) :
    cx_bits x c t = y ↔ x = cx_bits y c t := by
  constructor
  · intro e; rw [← e, cx_bits_cx_bits x h]
  · intro e; rw [e, cx_bits_cx_bits y h]

/-- The amplitudes after a Pauli-X, from the amplitudes before it. -/
theorem amp_sum_pauli_x (q : Nat) (s : List path) (z : Nat) :
    amp_sum (s.flatMap (apply_gate (emit.pauli_x q))) z = amp_sum s (flip_bit z q) := by
  induction s with
  | nil => simp
  | cons p s ih =>
    rw [amp_sum_flatMap_cons, ih]
    simp [apply_gate, emit.pauli_x, gate.single, flip_bit_eq_iff, Zomega.add_zero]

/-- The amplitudes after a CNOT on two different qubits. -/
theorem amp_sum_cx {c t : Nat} (h : c ≠ t) (s : List path) (z : Nat) :
    amp_sum (s.flatMap (apply_gate (emit.cx c t))) z = amp_sum s (cx_bits z c t) := by
  induction s with
  | nil => simp
  | cons p s ih =>
    rw [amp_sum_flatMap_cons, ih]
    simp [apply_gate, emit.cx, gate.controlled, cx_bits_eq_iff _ _ h, Zomega.add_zero]

/-- The amplitudes after a T gate. -/
theorem amp_sum_t (q : Nat) (s : List path) (z : Nat) :
    amp_sum (s.flatMap (apply_gate (emit.t q))) z
      = if qubit_bit z q then (amp_sum s z).mul_omega else amp_sum s z := by
  induction s with
  | nil => cases qubit_bit z q <;> simp [Zomega.mul_omega_zero]
  | cons p s ih =>
    rw [amp_sum_flatMap_cons, ih]
    by_cases hz : p.basis = z
    · subst hz
      cases hb : qubit_bit p.basis q <;>
        simp [apply_gate, emit.t, gate.single, hb, Zomega.add_zero, Zomega.mul_omega_add]
    · cases hb : qubit_bit z q <;>
        simp [apply_gate, emit.t, gate.single, hb, hz, Zomega.add_zero, Zomega.zero_add,
          Zomega.mul_omega_add, Zomega.mul_omega_zero]

/-- The amplitudes after a T-dagger gate. -/
theorem amp_sum_t_dagger (q : Nat) (s : List path) (z : Nat) :
    amp_sum (s.flatMap (apply_gate (emit.t_dagger q))) z
      = if qubit_bit z q then (amp_sum s z).mul_omega_inv else amp_sum s z := by
  induction s with
  | nil => cases qubit_bit z q <;> simp [Zomega.mul_omega_inv_zero]
  | cons p s ih =>
    rw [amp_sum_flatMap_cons, ih]
    by_cases hz : p.basis = z
    · subst hz
      cases hb : qubit_bit p.basis q <;>
        simp [apply_gate, emit.t_dagger, gate.single, hb, Zomega.add_zero,
          Zomega.mul_omega_inv_add]
    · cases hb : qubit_bit z q <;>
        simp [apply_gate, emit.t_dagger, gate.single, hb, hz, Zomega.add_zero, Zomega.zero_add,
          Zomega.mul_omega_inv_add, Zomega.mul_omega_inv_zero]

theorem flip_bit_ne_self (x q : Nat) : flip_bit x q ≠ x := by
  intro h
  have := congrArg (fun y => qubit_bit y q) h
  simp at this

theorem set_bit_eq_iff (b z q : Nat) (v : Bool) :
    set_bit b q v = z ↔ qubit_bit z q = v ∧ (b = z ∨ b = flip_bit z q) := by
  constructor
  · intro h
    subst h
    refine ⟨by simp [qubit_bit_set_bit], ?_⟩
    unfold set_bit
    by_cases hb : qubit_bit b q = v
    · simp [hb]
    · simp [hb]
  · rintro ⟨hz, h | h⟩
    · subst h
      simp [set_bit, hz]
    · subst h
      have : ¬ qubit_bit (flip_bit z q) q = v := by
        rw [qubit_bit_flip_bit_same, hz]
        cases v <;> simp
      simp only [set_bit, this, if_false, flip_bit_flip_bit]

/-- The amplitudes after a Hadamard, without its factor `1 / sqrt 2`. -/
theorem amp_sum_hadamard (q : Nat) (s : List path) (z : Nat) :
    amp_sum (s.flatMap (apply_gate (emit.hadamard q))) z
      = if qubit_bit z q then amp_sum s (flip_bit z q) + -amp_sum s z
        else amp_sum s z + amp_sum s (flip_bit z q) := by
  induction s with
  | nil => cases qubit_bit z q <;> simp <;> rfl
  | cons p s ih =>
    rw [amp_sum_flatMap_cons, ih]
    have hne : flip_bit z q ≠ z := flip_bit_ne_self z q
    simp only [apply_gate, emit.hadamard, gate.single, amp_sum_cons, amp_sum_nil, set_bit_eq_iff]
    by_cases h1 : p.basis = z
    · subst h1
      have h2 : ¬ p.basis = flip_bit p.basis q := fun h => hne h.symm
      cases hb : qubit_bit p.basis q <;> simp [hb, h2] <;> ext <;> simp <;> omega
    · by_cases h2 : p.basis = flip_bit z q
      · have hb : qubit_bit p.basis q = !qubit_bit z q := by
          rw [h2, qubit_bit_flip_bit_same]
        cases hz : qubit_bit z q <;> simp [hb, hz, h1, h2, hne] <;> ext <;> simp <;> omega
      · cases hz : qubit_bit z q <;> simp [hz, h1, h2, hne] <;> ext <;> simp

/-- The shapes of the records with a unitary reading. -/
theorem unitary_cases {g : gate} (h : g.unitary = true) :
    (∃ q, g = emit.pauli_x q) ∨ (∃ q, g = emit.hadamard q) ∨ (∃ q, g = emit.t q)
    ∨ (∃ q, g = emit.t_dagger q) ∨ (∃ c t, c ≠ t ∧ g = emit.cx c t) := by
  obtain ⟨op, cs, ts⟩ := g
  unfold gate.unitary at h
  simp only [emit.pauli_x, emit.hadamard, emit.t, emit.t_dagger, emit.cx, gate.single,
    gate.controlled, gate.mk.injEq]
  split at h <;> simp_all

/-- Two sums with the same amplitudes have the same amplitudes after a gate. -/
theorem amp_sum_step_congr {g : gate} (hg : g.unitary = true) {s t : List path}
    (h : ∀ z, amp_sum s z = amp_sum t z) (z : Nat) :
    amp_sum (s.flatMap (apply_gate g)) z = amp_sum (t.flatMap (apply_gate g)) z := by
  rcases unitary_cases hg with ⟨q, rfl⟩ | ⟨q, rfl⟩ | ⟨q, rfl⟩ | ⟨q, rfl⟩ | ⟨c, t, hct, rfl⟩
  · simp only [amp_sum_pauli_x, h]
  · simp only [amp_sum_hadamard, h]
  · simp only [amp_sum_t, h]
  · simp only [amp_sum_t_dagger, h]
  · simp only [amp_sum_cx hct, h]

theorem run_paths_cons (g : gate) (gs : List gate) (s : List path) :
    run_paths (g :: gs) s = run_paths gs (s.flatMap (apply_gate g)) := rfl

theorem run_paths_append (gs hs : List gate) (s : List path) :
    run_paths (gs ++ hs) s = run_paths hs (run_paths gs s) := by
  simp [run_paths]

theorem amp_sum_run_congr {gs : List gate} (hgs : ∀ g, g ∈ gs → g.unitary = true)
    {s t : List path} (h : ∀ z, amp_sum s z = amp_sum t z) (z : Nat) :
    amp_sum (run_paths gs s) z = amp_sum (run_paths gs t) z := by
  induction gs generalizing s t z with
  | nil => exact h z
  | cons g gs ih =>
    rw [run_paths_cons, run_paths_cons]
    exact ih (fun g' hg' => hgs g' (List.mem_cons_of_mem _ hg'))
      (amp_sum_step_congr (hgs g (List.mem_cons_self _ _)) h) z

theorem amp_sum_insert_path (p : path) (s : List path) (z : Nat) :
    amp_sum (insert_path p s) z = (if p.basis = z then p.amp else 0) + amp_sum s z := by
  induction s with
  | nil => simp [insert_path]
  | cons q s ih =>
    unfold insert_path
    by_cases hq : q.basis = p.basis
    · by_cases hz : p.basis = z
      · simp [hq, hz]
        ext <;> simp <;> omega
      · simp [hq, hz, Zomega.zero_add]
    · simp only [hq, if_false, amp_sum_cons, ih]
      ext <;> simp <;> omega

theorem amp_sum_merge_paths (s : List path) (z : Nat) :
    amp_sum (merge_paths s) z = amp_sum s z := by
  induction s with
  | nil => rfl
  | cons p s ih => simp [merge_paths, amp_sum_insert_path, ih]

/-- Evaluation with merged terms gives the amplitudes of the plain evaluation. -/
theorem amp_sum_run_merged {gs : List gate} (hgs : ∀ g, g ∈ gs → g.unitary = true)
    (s : List path) (z : Nat) :
    amp_sum (run_merged gs s) z = amp_sum (run_paths gs s) z := by
  induction gs generalizing s z with
  | nil => rfl
  | cons g gs ih =>
    have hrest : ∀ g', g' ∈ gs → g'.unitary = true :=
      fun g' hg' => hgs g' (List.mem_cons_of_mem _ hg')
    show amp_sum (run_merged gs (step_merged g s)) z = _
    rw [ih hrest, run_paths_cons]
    apply amp_sum_run_congr hrest
    intro w
    unfold step_merged
    split
    · exact amp_sum_merge_paths _ w
    · rfl

/-! ### Placing a circuit on chosen qubits -/

theorem emb_bit_not_mem (qs : List Nat) (x l q : Nat) (h : q ∉ qs) :
    qubit_bit (emb qs x l) q = qubit_bit x q := by
  induction qs generalizing l with
  | nil => rfl
  | cons r qs ih =>
    have hr : r ≠ q := fun e => h (by simp [e])
    have hq : q ∉ qs := fun e => h (List.mem_cons_of_mem _ e)
    simp only [emb, qubit_bit_set_bit, hr, if_false]
    exact ih _ hq

theorem getD_mem_of_lt (qs : List Nat) {i : Nat} (h : i < qs.length) : nth_qubit qs i ∈ qs := by
  unfold nth_qubit
  rw [List.getD_eq_getElem _ _ h]
  exact List.getElem_mem h

theorem exists_getD_of_mem {qs : List Nat} {q : Nat} (h : q ∈ qs) :
    ∃ i, i < qs.length ∧ nth_qubit qs i = q := by
  obtain ⟨i, hi, e⟩ := List.getElem_of_mem h
  exact ⟨i, hi, by unfold nth_qubit; rw [List.getD_eq_getElem _ _ hi, e]⟩

theorem getD_inj_of_nodup {qs : List Nat} (hnd : qs.Nodup) {i j : Nat}
    (hi : i < qs.length) (hj : j < qs.length) (h : nth_qubit qs i = nth_qubit qs j) : i = j := by
  unfold nth_qubit at h
  rw [List.getD_eq_getElem _ _ hi, List.getD_eq_getElem _ _ hj] at h
  exact (List.Nodup.getElem_inj_iff hnd).mp h

theorem emb_bit_getD (qs : List Nat) (hnd : qs.Nodup) (x l i : Nat) (hi : i < qs.length) :
    qubit_bit (emb qs x l) (nth_qubit qs i) = qubit_bit l i := by
  induction qs generalizing l i with
  | nil => simp at hi
  | cons r qs ih =>
    obtain ⟨hr, hnd'⟩ := List.nodup_cons.mp hnd
    cases i with
    | zero => simp [emb, qubit_bit_set_bit, nth_qubit]
    | succ j =>
      have hj : j < qs.length := by simpa using hi
      have hmem : nth_qubit qs j ∈ qs := getD_mem_of_lt qs hj
      have hne : r ≠ nth_qubit qs j := fun e => hr (e ▸ hmem)
      have hs : nth_qubit (r :: qs) (j + 1) = nth_qubit qs j := rfl
      simp only [emb, hs, qubit_bit_set_bit, hne, if_false]
      rw [ih hnd' _ _ hj]
      exact Nat.testBit_div_two l j

theorem emb_flip_bit (qs : List Nat) (hnd : qs.Nodup) (x l i : Nat) (hi : i < qs.length) :
    flip_bit (emb qs x l) (nth_qubit qs i) = emb qs x (flip_bit l i) := by
  apply basis_ext
  intro r
  by_cases hr : r ∈ qs
  · obtain ⟨j, hj, rfl⟩ := exists_getD_of_mem hr
    rw [qubit_bit_flip_bit, emb_bit_getD qs hnd _ _ _ hj, emb_bit_getD qs hnd _ _ _ hj,
      qubit_bit_flip_bit]
    by_cases hij : i = j
    · simp [hij]
    · have : ¬ nth_qubit qs i = nth_qubit qs j := fun e => hij (getD_inj_of_nodup hnd hi hj e)
      simp [hij, this]
  · have hne : nth_qubit qs i ≠ r := fun e => hr (e ▸ getD_mem_of_lt qs hi)
    rw [qubit_bit_flip_bit_ne _ hne, emb_bit_not_mem _ _ _ _ hr, emb_bit_not_mem _ _ _ _ hr]

theorem emb_set_bit (qs : List Nat) (hnd : qs.Nodup) (x l i : Nat) (hi : i < qs.length)
    (b : Bool) : set_bit (emb qs x l) (nth_qubit qs i) b = emb qs x (set_bit l i b) := by
  unfold set_bit
  rw [emb_bit_getD qs hnd _ _ _ hi]
  by_cases h : qubit_bit l i = b
  · simp [h]
  · simp [h, emb_flip_bit qs hnd _ _ _ hi]

theorem emb_cx_bits (qs : List Nat) (hnd : qs.Nodup) (x l c t : Nat) (hc : c < qs.length)
    (ht : t < qs.length) :
    cx_bits (emb qs x l) (nth_qubit qs c) (nth_qubit qs t) = emb qs x (cx_bits l c t) := by
  unfold cx_bits
  rw [emb_bit_getD qs hnd _ _ _ hc]
  by_cases h : qubit_bit l c = true
  · simp [h, emb_flip_bit qs hnd _ _ _ ht]
  · simp [h]

/-- One gate of a circuit on `0..k-1`, placed on the qubits `qs`, acts on the
placed basis state as the gate acts on the small one. -/
theorem apply_gate_rename (qs : List Nat) (hnd : qs.Nodup) (x : Nat) (g : gate)
    (hg : g.below qs.length = true) (p : path) :
    apply_gate (g.rename qs) (p.place qs x) = (apply_gate g p).map (path.place qs x) := by
  obtain ⟨op, cs, ts⟩ := g
  simp only [gate.below, Bool.and_eq_true, List.all_eq_true, decide_eq_true_eq] at hg
  obtain ⟨hcs, hts⟩ := hg
  rcases cs with _ | ⟨c, _ | ⟨c', cs⟩⟩ <;> rcases ts with _ | ⟨t, _ | ⟨t', ts⟩⟩ <;>
    cases op <;> simp [apply_gate, gate.rename, path.place]
  · exact emb_flip_bit qs hnd x _ t (hts t (by simp))
  · exact ⟨emb_set_bit qs hnd x _ t (hts t (by simp)) false,
      by rw [emb_bit_getD qs hnd _ _ _ (hts t (by simp))],
      emb_set_bit qs hnd x _ t (hts t (by simp)) true⟩
  · rw [emb_bit_getD qs hnd _ _ _ (hts t (by simp))]
  · rw [emb_bit_getD qs hnd _ _ _ (hts t (by simp))]
  · exact emb_cx_bits qs hnd x _ c t (hcs c (by simp)) (hts t (by simp))

theorem run_paths_rename (qs : List Nat) (hnd : qs.Nodup) (x : Nat) (gs : List gate)
    (hgs : ∀ g, g ∈ gs → g.below qs.length = true) (s : List path) :
    run_paths (gs.map (gate.rename qs)) (s.map (path.place qs x))
      = (run_paths gs s).map (path.place qs x) := by
  induction gs generalizing s with
  | nil => rfl
  | cons g gs ih =>
    rw [List.map_cons, run_paths_cons, run_paths_cons,
      ← ih (fun g' hg' => hgs g' (List.mem_cons_of_mem _ hg'))]
    congr 1
    rw [List.flatMap_map, List.map_flatMap]
    congr 1
    funext p
    exact apply_gate_rename qs hnd x g (hgs g (List.mem_cons_self _ _)) p

theorem loc_lt (qs : List Nat) (x : Nat) : loc qs x < 2 ^ qs.length := by
  induction qs with
  | nil => simp [loc]
  | cons q qs ih =>
    have hb : (qubit_bit x q).toNat ≤ 1 := Bool.toNat_le _
    simp only [loc, List.length_cons, Nat.pow_succ]
    omega

theorem loc_bit (qs : List Nat) (x i : Nat) (hi : i < qs.length) :
    qubit_bit (loc qs x) i = qubit_bit x (nth_qubit qs i) := by
  induction qs generalizing i with
  | nil => simp at hi
  | cons q qs ih =>
    cases i with
    | zero =>
      simp only [loc, qubit_bit, Nat.testBit_zero, nth_qubit, List.getD_cons_zero]
      cases Nat.testBit x q <;> simp
    | succ j =>
      have hj : j < qs.length := by simpa using hi
      have hs : nth_qubit (q :: qs) (j + 1) = nth_qubit qs j := rfl
      rw [hs, ← ih j hj]
      simp only [loc, qubit_bit, Nat.testBit_succ]
      congr 1
      have hb : (Nat.testBit x q).toNat ≤ 1 := Bool.toNat_le _
      omega

theorem basis_lt_bit {x k i : Nat} (hx : x < 2 ^ k) (hi : k ≤ i) : qubit_bit x i = false :=
  Nat.testBit_lt_two_pow (Nat.lt_of_lt_of_le hx (Nat.pow_le_pow_right (by decide) hi))

theorem emb_loc_of_eq (qs : List Nat) (hnd : qs.Nodup) (x z : Nat)
    (h : ∀ q, q ∉ qs → qubit_bit z q = qubit_bit x q) : emb qs x (loc qs z) = z := by
  apply basis_ext
  intro r
  by_cases hr : r ∈ qs
  · obtain ⟨j, hj, rfl⟩ := exists_getD_of_mem hr
    rw [emb_bit_getD qs hnd _ _ _ hj, loc_bit _ _ _ hj]
  · rw [emb_bit_not_mem _ _ _ _ hr, h r hr]

theorem emb_loc (qs : List Nat) (hnd : qs.Nodup) (x : Nat) : emb qs x (loc qs x) = x :=
  emb_loc_of_eq qs hnd x x (fun _ _ => rfl)

theorem loc_emb (qs : List Nat) (hnd : qs.Nodup) (x b : Nat) (hb : b < 2 ^ qs.length) :
    loc qs (emb qs x b) = b := by
  apply basis_ext
  intro i
  by_cases hi : i < qs.length
  · rw [loc_bit _ _ _ hi, emb_bit_getD qs hnd _ _ _ hi]
  · rw [basis_lt_bit (loc_lt qs _) (Nat.le_of_not_lt hi), basis_lt_bit hb (Nat.le_of_not_lt hi)]

theorem emb_eq_iff (qs : List Nat) (hnd : qs.Nodup) (x z b : Nat) (hb : b < 2 ^ qs.length) :
    emb qs x b = z ↔ (z = emb qs x (loc qs z) ∧ b = loc qs z) := by
  constructor
  · intro h
    subst h
    rw [loc_emb qs hnd x b hb]
    exact ⟨rfl, rfl⟩
  · rintro ⟨h1, h2⟩
    rw [h2, ← h1]

theorem flip_bit_lt {x k q : Nat} (hx : x < 2 ^ k) (hq : q < k) : flip_bit x q < 2 ^ k :=
  Nat.xor_lt_two_pow hx (Nat.pow_lt_pow_right (by decide) hq)

theorem set_bit_lt {x k q : Nat} (hx : x < 2 ^ k) (hq : q < k) (b : Bool) :
    set_bit x q b < 2 ^ k := by
  unfold set_bit
  split
  · exact hx
  · exact flip_bit_lt hx hq

theorem cx_bits_lt {x k t : Nat} (hx : x < 2 ^ k) (ht : t < k) (c : Nat) :
    cx_bits x c t < 2 ^ k := by
  unfold cx_bits
  split
  · exact flip_bit_lt hx ht
  · exact hx

theorem apply_gate_lt (k : Nat) (g : gate) (hg : g.below k = true) (p : path)
    (hp : p.basis < 2 ^ k) : ∀ r, r ∈ apply_gate g p → r.basis < 2 ^ k := by
  obtain ⟨op, cs, ts⟩ := g
  simp only [gate.below, Bool.and_eq_true, List.all_eq_true, decide_eq_true_eq] at hg
  obtain ⟨hcs, hts⟩ := hg
  intro r hr
  rcases cs with _ | ⟨c, _ | ⟨c', cs⟩⟩ <;> rcases ts with _ | ⟨t, _ | ⟨t', ts⟩⟩ <;>
    cases op <;> simp [apply_gate] at hr
  · subst hr; exact flip_bit_lt hp (hts t (by simp))
  · rcases hr with rfl | rfl
    · exact set_bit_lt hp (hts t (by simp)) false
    · exact set_bit_lt hp (hts t (by simp)) true
  · subst hr; exact hp
  · subst hr; exact hp
  · subst hr; exact cx_bits_lt hp (hts t (by simp)) c

theorem run_paths_lt (k : Nat) (gs : List gate) (hgs : ∀ g, g ∈ gs → g.below k = true)
    (s : List path) (hs : ∀ p, p ∈ s → p.basis < 2 ^ k) :
    ∀ r, r ∈ run_paths gs s → r.basis < 2 ^ k := by
  induction gs generalizing s with
  | nil => exact hs
  | cons g gs ih =>
    rw [run_paths_cons]
    apply ih (fun g' hg' => hgs g' (List.mem_cons_of_mem _ hg'))
    intro r hr
    obtain ⟨p, hp, hrp⟩ := List.mem_flatMap.mp hr
    exact apply_gate_lt k g (hgs g (List.mem_cons_self _ _)) p (hs p hp) r hrp

/-- The amplitudes of a placed sum, from the amplitudes of the small sum. -/
theorem amp_sum_place (qs : List Nat) (hnd : qs.Nodup) (x : Nat) (s : List path)
    (hs : ∀ p, p ∈ s → p.basis < 2 ^ qs.length) (z : Nat) :
    amp_sum (s.map (path.place qs x)) z
      = if z = emb qs x (loc qs z) then amp_sum s (loc qs z) else 0 := by
  induction s with
  | nil => simp
  | cons p s ih =>
    have hp : p.basis < 2 ^ qs.length := hs p (List.mem_cons_self _ _)
    rw [List.map_cons, amp_sum_cons, ih (fun r hr => hs r (List.mem_cons_of_mem _ hr))]
    simp only [path.place, emb_eq_iff qs hnd x z p.basis hp, amp_sum_cons]
    by_cases h1 : z = emb qs x (loc qs z)
    · by_cases h2 : p.basis = loc qs z
      · simp [← h1, h2]
      · simp [← h1, h2]
    · simp [h1, Zomega.add_zero]

theorem amp_sum_eq_zero_of_not_mem (s : List path) (z : Nat)
    (h : ∀ p, p ∈ s → p.basis ≠ z) : amp_sum s z = 0 := by
  induction s with
  | nil => rfl
  | cons p s ih =>
    rw [amp_sum_cons, ih (fun r hr => h r (List.mem_cons_of_mem _ hr))]
    simp [h p (List.mem_cons_self _ _), Zomega.add_zero]

/-- What a passed check says about the amplitudes. -/
theorem check_core_spec {k : Nat} {core : List gate} {expected : Nat → Nat} {c : Zomega}
    {l : Nat} (h : check_core k core expected c l = true) :
    expected l < 2 ^ k
    ∧ ∀ w, amp_sum (run_merged core [⟨1, l⟩]) w = if w = expected l then c else 0 := by
  simp only [check_core, Bool.and_eq_true, decide_eq_true_eq, List.all_eq_true,
    Bool.or_eq_true] at h
  obtain ⟨⟨h1, h2⟩, h3⟩ := h
  refine ⟨h1, ?_⟩
  intro w
  by_cases hw : w = expected l
  · simp [hw, h2]
  · simp only [hw, if_false]
    by_cases hex : ∃ p, p ∈ run_merged core [⟨1, l⟩] ∧ p.basis = w
    · obtain ⟨p, hp, rfl⟩ := hex
      rcases h3 p hp with h | h
      · exact absurd h hw
      · exact h
    · apply amp_sum_eq_zero_of_not_mem
      intro p hp e
      exact hex ⟨p, hp, e⟩

/-- A checked circuit on `0..k-1`, placed on `k` different qubits of the
register, sends every basis state `x` to `c` times the basis state in which the
placed qubits carry `expected` of their values in `x`. -/
theorem core_lift (qs : List Nat) (hnd : qs.Nodup) (core : List gate)
    (expected : Nat → Nat) (c : Zomega) (hok : core_ok qs.length core = true)
    (hcheck : ∀ l, l < 2 ^ qs.length → check_core qs.length core expected c l = true)
    (x z : Nat) :
    amp_sum (run_paths (core.map (gate.rename qs)) [⟨1, x⟩]) z
      = if z = emb qs x (expected (loc qs x)) then c else 0 := by
  simp only [core_ok, List.all_eq_true, Bool.and_eq_true] at hok
  have hu : ∀ g, g ∈ core → g.unitary = true := fun g hg => (hok g hg).1
  have hb : ∀ g, g ∈ core → g.below qs.length = true := fun g hg => (hok g hg).2
  obtain ⟨hexp, hamp⟩ := check_core_spec (hcheck (loc qs x) (loc_lt qs x))
  have hstart : ([⟨1, x⟩] : List path) = [(⟨1, loc qs x⟩ : path)].map (path.place qs x) := by
    simp [path.place, emb_loc qs hnd x]
  rw [hstart, run_paths_rename qs hnd x core hb,
    amp_sum_place qs hnd x _ (run_paths_lt qs.length core hb _ (by
      intro p hp
      simp only [List.mem_singleton] at hp
      subst hp
      exact loc_lt qs x)) z,
    ← amp_sum_run_merged hu, hamp]
  by_cases h1 : z = emb qs x (loc qs z)
  · by_cases h2 : loc qs z = expected (loc qs x)
    · have : z = emb qs x (expected (loc qs x)) := by rw [← h2]; exact h1
      rw [if_pos h1, if_pos h2, if_pos this]
    · have : ¬ z = emb qs x (expected (loc qs x)) := by
        intro e
        apply h2
        rw [e, loc_emb qs hnd x _ hexp]
      rw [if_pos h1, if_neg h2, if_neg this]
  · have : ¬ z = emb qs x (expected (loc qs x)) := by
      intro e
      apply h1
      rw [e, loc_emb qs hnd x _ hexp]
    rw [if_neg h1, if_neg this]

/-! ### Toffoli and fan-out on basis states -/

theorem all_congr_mem (l : List Nat) (f g : Nat → Bool) (h : ∀ a, a ∈ l → f a = g a) :
    l.all f = l.all g := by
  induction l with
  | nil => rfl
  | cons a l ih =>
    rw [List.all_cons, List.all_cons, h a (List.mem_cons_self _ _),
      ih (fun b hb => h b (List.mem_cons_of_mem _ hb))]

theorem qubit_bit_cx_bits (x c t r : Nat) :
    qubit_bit (cx_bits x c t) r
      = if t = r ∧ qubit_bit x c = true then !qubit_bit x r else qubit_bit x r := by
  unfold cx_bits
  by_cases hc : qubit_bit x c = true
  · simp [hc, qubit_bit_flip_bit]
  · simp [hc]

theorem qubit_bit_foldl_flip (ts : List Nat) (hnd : ts.Nodup) (x r : Nat) :
    qubit_bit (ts.foldl flip_bit x) r = if r ∈ ts then !qubit_bit x r else qubit_bit x r := by
  induction ts generalizing x with
  | nil => simp
  | cons t ts ih =>
    obtain ⟨ht, hnd'⟩ := List.nodup_cons.mp hnd
    rw [List.foldl_cons, ih hnd', qubit_bit_flip_bit]
    by_cases hr : r ∈ ts
    · have : t ≠ r := fun e => ht (e ▸ hr)
      simp [hr, this]
    · by_cases htr : t = r
      · simp [hr, htr]
      · have : ¬ r = t := fun e => htr e.symm
        simp [hr, htr, this]

theorem qubit_bit_toffoli (cs ts : List Nat) (hnd : ts.Nodup) (x r : Nat) :
    qubit_bit (toffoli cs ts x) r
      = if r ∈ ts ∧ cs.all (qubit_bit x) = true then !qubit_bit x r else qubit_bit x r := by
  unfold toffoli
  by_cases h : cs.all (qubit_bit x) = true
  · rw [if_pos h, qubit_bit_foldl_flip ts hnd]
    simp [h]
  · rw [if_neg h]
    simp [h]

theorem qubit_bit_fan_bits (d : Nat) (ts : List Nat) (hd : d ∉ ts) (hnd : ts.Nodup)
    (x r : Nat) :
    qubit_bit (fan_bits d ts x) r
      = if r ∈ ts ∧ qubit_bit x d = true then !qubit_bit x r else qubit_bit x r := by
  induction ts generalizing x with
  | nil => simp [fan_bits]
  | cons t ts ih =>
    obtain ⟨ht, hnd'⟩ := List.nodup_cons.mp hnd
    have hdt : ¬ t = d := fun e => hd (by simp [e])
    have hd' : d ∉ ts := fun e => hd (List.mem_cons_of_mem _ e)
    have hstep : fan_bits d (t :: ts) x = fan_bits d ts (cx_bits x d t) := rfl
    rw [hstep, ih hd' hnd', qubit_bit_cx_bits, qubit_bit_cx_bits]
    by_cases hr : r ∈ ts
    · have : ¬ t = r := fun e => ht (e ▸ hr)
      simp [hr, this, hdt]
    · by_cases htr : t = r
      · subst htr
        simp [hr, hdt]
      · have : ¬ r = t := fun e => htr e.symm
        simp [hr, htr, this, hdt]

theorem fan_bits_fan_bits (d : Nat) (ts : List Nat) (hd : d ∉ ts) (hnd : ts.Nodup) (x : Nat) :
    fan_bits d ts (fan_bits d ts x) = x := by
  apply basis_ext
  intro r
  have hdd : qubit_bit (fan_bits d ts x) d = qubit_bit x d := by
    rw [qubit_bit_fan_bits d ts hd hnd]
    simp [hd]
  rw [qubit_bit_fan_bits d ts hd hnd, hdd, qubit_bit_fan_bits d ts hd hnd]
  by_cases hr : r ∈ ts <;> by_cases hb : qubit_bit x d = true <;> simp [hr, hb]

/-- Fan-out, Toffoli on the first target, fan-out again: the Toffoli on all the
targets. -/
theorem fan_toffoli_fan (cs : List Nat) (d : Nat) (ts : List Nat)
    (hnd : (cs ++ d :: ts).Nodup) (x : Nat) :
    fan_bits d ts (toffoli cs [d] (fan_bits d ts x)) = toffoli cs (d :: ts) x := by
  have hnd2 : (d :: ts).Nodup := (List.nodup_append.mp hnd).2.1
  obtain ⟨hd, hts⟩ := List.nodup_cons.mp hnd2
  have hdisj : ∀ c, c ∈ cs → c ∉ d :: ts :=
    fun c hc hm => (List.nodup_append.mp hnd).2.2 hc hm
  have hcs : ∀ c, c ∈ cs → qubit_bit (fan_bits d ts x) c = qubit_bit x c := by
    intro c hc
    have : c ∉ ts := fun e => hdisj c hc (List.mem_cons_of_mem _ e)
    rw [qubit_bit_fan_bits d ts hd hts]
    simp [this]
  have hall : cs.all (qubit_bit (fan_bits d ts x)) = cs.all (qubit_bit x) := by
    exact all_congr_mem cs _ _ hcs
  have hdd : qubit_bit (fan_bits d ts x) d = qubit_bit x d := by
    rw [qubit_bit_fan_bits d ts hd hts]
    simp [hd]
  apply basis_ext
  intro r
  rw [qubit_bit_fan_bits d ts hd hts, qubit_bit_toffoli cs [d] (by simp),
    qubit_bit_toffoli cs [d] (by simp), qubit_bit_toffoli cs (d :: ts) hnd2, hall, hdd,
    qubit_bit_fan_bits d ts hd hts]
  by_cases hr : r ∈ ts
  · have hrd : ¬ r = d := fun e => hd (e ▸ hr)
    by_cases hb : qubit_bit x d = true <;> by_cases ha : cs.all (qubit_bit x) = true <;>
      simp [hr, hrd, hb, ha, hd]
  · by_cases hrd : r = d
    · subst hrd
      by_cases ha : cs.all (qubit_bit x) = true <;> simp [hr, ha]
    · simp [hr, hrd, hd]

theorem fan_bits_eq_toffoli (c : Nat) (ts : List Nat) (hnd : (c :: ts).Nodup) (x : Nat) :
    fan_bits c ts x = toffoli [c] ts x := by
  obtain ⟨hc, hts⟩ := List.nodup_cons.mp hnd
  apply basis_ext
  intro r
  rw [qubit_bit_fan_bits c ts hc hts, qubit_bit_toffoli [c] ts hts]
  simp

theorem emb_foldl_flip (qs : List Nat) (hnd : qs.Nodup) (x : Nat) (ts : List Nat)
    (hts : ∀ t, t ∈ ts → t < qs.length) (l : Nat) :
    emb qs x (ts.foldl flip_bit l) = (ts.map (nth_qubit qs)).foldl flip_bit (emb qs x l) := by
  induction ts generalizing l with
  | nil => rfl
  | cons t ts ih =>
    rw [List.foldl_cons, ih (fun t' ht' => hts t' (List.mem_cons_of_mem _ ht')),
      List.map_cons, List.foldl_cons, emb_flip_bit qs hnd x l t (hts t (List.mem_cons_self _ _))]

/-- The Toffoli on the small basis state, placed, is the Toffoli on the placed
qubits. -/
theorem emb_toffoli (qs : List Nat) (hnd : qs.Nodup) (x : Nat) (cs ts : List Nat)
    (hcs : ∀ c, c ∈ cs → c < qs.length) (hts : ∀ t, t ∈ ts → t < qs.length) :
    emb qs x (toffoli cs ts (loc qs x))
      = toffoli (cs.map (nth_qubit qs)) (ts.map (nth_qubit qs)) x := by
  have hall : cs.all (qubit_bit (loc qs x)) = (cs.map (nth_qubit qs)).all (qubit_bit x) := by
    rw [List.all_map]
    exact all_congr_mem cs _ _ (fun c hc => loc_bit qs x c (hcs c hc))
  unfold toffoli
  rw [← hall]
  by_cases h : cs.all (qubit_bit (loc qs x)) = true
  · rw [if_pos h, if_pos h, emb_foldl_flip qs hnd x ts hts, emb_loc qs hnd x]
  · rw [if_neg h, if_neg h, emb_loc qs hnd x]

/-! ### Runs of gates that act on basis states -/

theorem run_paths_map_basis {α : Type} (f : α → gate) (act : α → Nat → Nat)
    (hf : ∀ a p, apply_gate (f a) p = [⟨p.amp, act a p.basis⟩]) (as : List α)
    (s : List path) :
    run_paths (as.map f) s
      = s.map (fun p => ⟨p.amp, as.foldl (fun y a => act a y) p.basis⟩) := by
  induction as generalizing s with
  | nil => simp [run_paths]
  | cons a as ih =>
    rw [List.map_cons, run_paths_cons, ih]
    have : s.flatMap (apply_gate (f a)) = s.map (fun p => ⟨p.amp, act a p.basis⟩) := by
      induction s with
      | nil => rfl
      | cons p s ihs => rw [List.flatMap_cons, hf, ihs]; rfl
    rw [this, List.map_map]
    rfl

theorem run_paths_fan_out (d : Nat) (ts : List Nat) (s : List path) :
    run_paths (ts.map (fun t => emit.cx d t)) s
      = s.map (fun p => ⟨p.amp, fan_bits d ts p.basis⟩) :=
  run_paths_map_basis (fun t => emit.cx d t) (fun t y => cx_bits y d t) (fun _ _ => rfl) ts s

theorem run_paths_pauli_x (ts : List Nat) (s : List path) :
    run_paths (ts.map emit.pauli_x) s
      = s.map (fun p => ⟨p.amp, ts.foldl flip_bit p.basis⟩) :=
  run_paths_map_basis emit.pauli_x (fun t y => flip_bit y t) (fun _ _ => rfl) ts s

theorem amp_sum_map_fan (d : Nat) (ts : List Nat) (hd : d ∉ ts) (hnd : ts.Nodup)
    (s : List path) (z : Nat) :
    amp_sum (s.map (fun p => ⟨p.amp, fan_bits d ts p.basis⟩)) z
      = amp_sum s (fan_bits d ts z) := by
  induction s with
  | nil => rfl
  | cons p s ih =>
    rw [List.map_cons, amp_sum_cons, amp_sum_cons, ih]
    have : (fan_bits d ts p.basis = z) ↔ (p.basis = fan_bits d ts z) := by
      constructor
      · intro h; rw [← h, fan_bits_fan_bits d ts hd hnd]
      · intro h; rw [h, fan_bits_fan_bits d ts hd hnd]
    simp only [this]

/-! ### The three fixed circuits, checked on `0..k-1` -/

set_option maxRecDepth 1000000 in
theorem check_case2_core :
    ∀ l, l < 2 ^ 3 → check_core 3 (case2_core 0 1 2) (toffoli [0, 1] [2]) ⟨2, 0, 0, 0⟩ l = true := by
  decide!

set_option maxRecDepth 1000000 in
theorem check_case3_core :
    ∀ l, l < 2 ^ 5 →
      check_core 5 (case3_core 0 1 2 3 4) (toffoli [0, 1, 2] [3]) ⟨8, 0, 0, 0⟩ l = true := by
  decide!

set_option maxRecDepth 1000000 in
theorem check_case4_core :
    ∀ l, l < 2 ^ 6 →
      check_core 6 (case4_core 0 1 2 3 4 5) (toffoli [0, 1, 2, 3] [4]) ⟨32, 0, 0, 0⟩ l = true := by
  decide!

/-! ### The three fixed circuits on the register -/

/-- A circuit that is a Toffoli on the first target, between two fan-outs, is
the Toffoli on all the targets. -/
theorem fan_core_fan (cs : List Nat) (d : Nat) (ts : List Nat)
    (hnd : (cs ++ d :: ts).Nodup) (core : List gate) (c : Zomega)
    (hcore : ∀ x z, amp_sum (run_paths core [⟨1, x⟩]) z
      = if z = toffoli cs [d] x then c else 0) (x z : Nat) :
    amp_sum (run_paths (fan_out d (d :: ts) ++ core ++ fan_out d (d :: ts)) [⟨1, x⟩]) z
      = if z = toffoli cs (d :: ts) x then c else 0 := by
  have hnd2 : (d :: ts).Nodup := (List.nodup_append.mp hnd).2.1
  obtain ⟨hd, hts⟩ := List.nodup_cons.mp hnd2
  have hfan : fan_out d (d :: ts) = ts.map (fun t => emit.cx d t) := rfl
  rw [run_paths_append, run_paths_append, hfan, run_paths_fan_out, run_paths_fan_out,
    amp_sum_map_fan d ts hd hts]
  simp only [List.map_cons, List.map_nil]
  rw [hcore]
  have : (fan_bits d ts z = toffoli cs [d] (fan_bits d ts x)) ↔ (z = toffoli cs (d :: ts) x) := by
    rw [← fan_toffoli_fan cs d ts hnd x]
    constructor
    · intro h; rw [← h, fan_bits_fan_bits d ts hd hts]
    · intro h; rw [h, fan_bits_fan_bits d ts hd hts]
  simp only [this]

theorem hadamard_count_append (gs hs : List gate) :
    hadamard_count (gs ++ hs) = hadamard_count gs + hadamard_count hs := by
  simp [hadamard_count]

theorem hadamard_count_fan_out (d : Nat) (ts : List Nat) :
    hadamard_count (fan_out d ts) = 0 := by
  unfold hadamard_count fan_out
  rw [List.countP_eq_zero]
  intro g hg
  obtain ⟨t, _, rfl⟩ := List.mem_map.mp hg
  simp [emit.cx, gate.controlled]

theorem nodup_with_helper (l ts : List Nat) (helper : Nat) (hnd : (l ++ ts).Nodup)
    (hh : helper ∉ l ++ ts) : (l ++ [helper]).Nodup := by
  rw [List.nodup_append]
  refine ⟨(List.nodup_append.mp hnd).1, List.nodup_singleton _, ?_⟩
  intro a ha hb
  rw [List.mem_singleton] at hb
  subst hb
  exact hh (List.mem_append_left _ ha)

theorem case2_sem (c0 c1 d : Nat) (ts : List Nat) (hnd : ([c0, c1] ++ d :: ts).Nodup)
    (x z : Nat) :
    amp_sum (run_paths (case2_calls c0 c1 (d :: ts)) [⟨1, x⟩]) z
      = if z = toffoli [c0, c1] (d :: ts) x then ⟨2, 0, 0, 0⟩ else 0 := by
  have hshape : case2_calls c0 c1 (d :: ts)
      = fan_out d (d :: ts) ++ case2_core c0 c1 d ++ fan_out d (d :: ts) := by
    simp [case2_calls, case2_core, targets0, List.append_assoc]
  rw [hshape]
  apply fan_core_fan [c0, c1] d ts hnd
  intro x z
  have hqs : [c0, c1, d].Nodup :=
    (List.nodup_append.mp (show ([c0, c1, d] ++ ts).Nodup from hnd)).1
  have h := core_lift [c0, c1, d] hqs (case2_core 0 1 2) (toffoli [0, 1] [2]) ⟨2, 0, 0, 0⟩
    (show core_ok 3 (case2_core 0 1 2) = true by decide) check_case2_core x z
  rw [emb_toffoli [c0, c1, d] hqs x [0, 1] [2]
    (show ∀ c, c ∈ [0, 1] → c < 3 by decide) (show ∀ t, t ∈ [2] → t < 3 by decide)] at h
  exact h

theorem case3_sem (a b c d helper : Nat) (ts : List Nat)
    (hnd : ([a, b, c] ++ d :: ts).Nodup) (hh : helper ∉ [a, b, c] ++ d :: ts) (x z : Nat) :
    amp_sum (run_paths (case3_calls a b c helper (d :: ts)) [⟨1, x⟩]) z
      = if z = toffoli [a, b, c] (d :: ts) x then ⟨8, 0, 0, 0⟩ else 0 := by
  have hshape : case3_calls a b c helper (d :: ts)
      = fan_out d (d :: ts) ++ case3_core a b c d helper ++ fan_out d (d :: ts) := rfl
  rw [hshape]
  apply fan_core_fan [a, b, c] d ts hnd
  intro x z
  have hqs : [a, b, c, d, helper].Nodup :=
    nodup_with_helper [a, b, c, d] ts helper hnd hh
  have h := core_lift [a, b, c, d, helper] hqs (case3_core 0 1 2 3 4) (toffoli [0, 1, 2] [3])
    ⟨8, 0, 0, 0⟩ (show core_ok 5 (case3_core 0 1 2 3 4) = true by decide) check_case3_core x z
  rw [emb_toffoli [a, b, c, d, helper] hqs x [0, 1, 2] [3]
    (show ∀ c, c ∈ [0, 1, 2] → c < 5 by decide) (show ∀ t, t ∈ [3] → t < 5 by decide)] at h
  exact h

theorem case4_sem (a b control d e helper : Nat) (ts : List Nat)
    (hnd : ([a, b, control, d] ++ e :: ts).Nodup)
    (hh : helper ∉ [a, b, control, d] ++ e :: ts) (x z : Nat) :
    amp_sum (run_paths (case4_calls a b control d helper (e :: ts)) [⟨1, x⟩]) z
      = if z = toffoli [a, b, control, d] (e :: ts) x then ⟨32, 0, 0, 0⟩ else 0 := by
  have hshape : case4_calls a b control d helper (e :: ts)
      = fan_out e (e :: ts) ++ case4_core a b control d e helper ++ fan_out e (e :: ts) := rfl
  rw [hshape]
  apply fan_core_fan [a, b, control, d] e ts hnd
  intro x z
  have hqs : [a, b, control, d, e, helper].Nodup :=
    nodup_with_helper [a, b, control, d, e] ts helper hnd hh
  have h := core_lift [a, b, control, d, e, helper] hqs (case4_core 0 1 2 3 4 5)
    (toffoli [0, 1, 2, 3] [4]) ⟨32, 0, 0, 0⟩
    (show core_ok 6 (case4_core 0 1 2 3 4 5) = true by decide) check_case4_core x z
  rw [emb_toffoli [a, b, control, d, e, helper] hqs x [0, 1, 2, 3] [4]
    (show ∀ c, c ∈ [0, 1, 2, 3] → c < 6 by decide) (show ∀ t, t ∈ [4] → t < 6 by decide)] at h
  exact h

theorem add_gates_eq (dest : network) (calls : List gate) :
    dest.add_gates calls = { dest with gates := dest.gates ++ calls } := by
  unfold network.add_gates
  induction calls generalizing dest with
  | nil => simp
  | cons g gs ih => simp [ih, network.emplace_gate]

theorem Zomega.sqrt2_pow_zero (n : Nat) : Zomega.sqrt2_pow n 0 = 0 := by
  induction n with
  | zero => rfl
  | succ n ih =>
    simp only [Zomega.sqrt2_pow, ih]
    ext <;> simp [Zomega.mul_sqrt2]

/-- From the unnormalised sums to the amplitudes of the state. -/
theorem amplitude_is_of_amp_sum (calls : List gate) (x y : Nat) (c : Zomega)
    (hc : Zomega.sqrt2_pow (hadamard_count calls) 1 = c)
    (hs : ∀ z, amp_sum (run_paths calls [⟨1, x⟩]) z = if z = y then c else 0) (z : Nat) :
    amplitude_is (run calls (ket x)) z (if z = y then Zomega.omega_pow 0 else 0) := by
  unfold amplitude_is run ket
  simp only [Nat.zero_add]
  rw [hs z]
  by_cases h : z = y
  · rw [if_pos h, if_pos h]
    exact hc.symm
  · rw [if_neg h, if_neg h, Zomega.sqrt2_pow_zero]

theorem hadamard_count_case2 (c0 c1 : Nat) (ts : List Nat) :
    hadamard_count (case2_calls c0 c1 ts) = 2 := by
  unfold case2_calls
  simp only [hadamard_count_append, hadamard_count_fan_out]
  rfl

theorem hadamard_count_case3 (a b c helper : Nat) (ts : List Nat) :
    hadamard_count (case3_calls a b c helper ts) = 6 := by
  unfold case3_calls
  simp only [hadamard_count_append, hadamard_count_fan_out]
  rfl

theorem hadamard_count_case4 (a b control d helper : Nat) (ts : List Nat) :
    hadamard_count (case4_calls a b control d helper ts) = 10 := by
  unfold case4_calls
  simp only [hadamard_count_append, hadamard_count_fan_out]
  rfl

theorem hadamard_count_map_pauli_x (ts : List Nat) :
    hadamard_count (ts.map emit.pauli_x) = 0 := by
  unfold hadamard_count
  rw [List.countP_eq_zero]
  intro g hg
  obtain ⟨t, _, rfl⟩ := List.mem_map.mp hg
  simp [emit.pauli_x, gate.single]

theorem hadamard_count_map_cx (c : Nat) (ts : List Nat) :
    hadamard_count (ts.map (fun t => emit.cx c t)) = 0 := by
  unfold hadamard_count
  rw [List.countP_eq_zero]
  intro g hg
  obtain ⟨t, _, rfl⟩ := List.mem_map.mp hg
  simp [emit.cx, gate.controlled]

/-! ## The claims -/

/-- C1. Strict-mode rejection is atomic: when `allow_partial_` is false and the
physical images of two in-range virtual qubits are not adjacent, the two-qubit
`add_gate` returns the empty optional and the whole state of the view (gates,
live map, initial snapshot, partial flag) is the state before the call. -/
theorem add_gate2_strict_rejects (v : mapping_view) (op : gate_set)
    (control target phy_control phy_target : Nat)
    (hstrict : v.allow_partial_ = false)
    (hc : v.virtual_phy_map_[control]? = some phy_control)
    (ht : v.virtual_phy_map_[target]? = some phy_target)
    (hadj : v.coupling_matrix_ phy_control phy_target = false) :
    v.add_gate2 op control target = .ok (none, v) := by
  simp [mapping_view.add_gate2, vector_at_of_getElem? hc, vector_at_of_getElem? ht, hadj,
    hstrict, bind, Except.bind, pure, Except.pure]

theorem add_gate2_strict_rejects_witness :
    (view3 false).allow_partial_ = false
    ∧ (view3 false).virtual_phy_map_[0]? = some 0
    ∧ (view3 false).virtual_phy_map_[2]? = some 2
    ∧ (view3 false).coupling_matrix_ 0 2 = false
    ∧ (view3 false).add_gate2 gate_set.cx 0 2 = .ok (none, view3 false) :=
  ⟨rfl, rfl, rfl, rfl,
    add_gate2_strict_rejects (view3 false) gate_set.cx 0 2 0 2 rfl rfl rfl rfl⟩

/-- C2. For in-range virtual qubits the two-qubit `add_gate` returns; it returns
a value exactly when the physical pair is adjacent or the view allows partial
mappings; and when it returns a value, that value is the gate `op` on the
translated pair, appended as the last gate, with the live map and the initial
snapshot untouched. -/
theorem add_gate2_places (v : mapping_view) (op : gate_set)
    (control target phy_control phy_target : Nat)
    (hc : v.virtual_phy_map_[control]? = some phy_control)
    (ht : v.virtual_phy_map_[target]? = some phy_target) :
    ∃ r v', v.add_gate2 op control target = .ok (r, v')
      ∧ (r.isSome = true ↔
          (v.coupling_matrix_ phy_control phy_target = true ∨ v.allow_partial_ = true))
      ∧ (r.isSome = true →
          r = some (gate.controlled op phy_control phy_target)
          ∧ v'.net.gates = v.net.gates ++ [gate.controlled op phy_control phy_target]
          ∧ v'.net.gates.length = v.net.gates.length + 1
          ∧ v'.virtual_phy_map_ = v.virtual_phy_map_
          ∧ v'.init_virtual_phy_map_ = v.init_virtual_phy_map_) := by
  rcases Bool.eq_false_or_eq_true (v.coupling_matrix_ phy_control phy_target) with hadj | hadj
  · refine ⟨some (gate.controlled op phy_control phy_target),
      { v with net := v.net.emplace_gate (gate.controlled op phy_control phy_target) },
      ?_, ?_, ?_⟩
    · simp [mapping_view.add_gate2, vector_at_of_getElem? hc, vector_at_of_getElem? ht, hadj,
        bind, Except.bind, pure, Except.pure]
    · simp [hadj]
    · simp [network.emplace_gate]
  · rcases Bool.eq_false_or_eq_true v.allow_partial_ with hall | hall
    · refine ⟨some (gate.controlled op phy_control phy_target),
        { v with
          is_partial_ := true
          net := v.net.emplace_gate (gate.controlled op phy_control phy_target) },
        ?_, ?_, ?_⟩
      · simp [mapping_view.add_gate2, vector_at_of_getElem? hc, vector_at_of_getElem? ht, hadj,
          hall, bind, Except.bind, pure, Except.pure]
      · simp [hall]
      · simp [network.emplace_gate]
    · refine ⟨none, v, ?_, ?_, ?_⟩
      · simp [mapping_view.add_gate2, vector_at_of_getElem? hc, vector_at_of_getElem? ht, hadj,
          hall, bind, Except.bind, pure, Except.pure]
      · simp [hadj, hall]
      · simp

theorem add_gate2_places_witness :
    ∃ r v', (view3 true).add_gate2 gate_set.cx 0 2 = .ok (r, v')
      ∧ (r.isSome = true ↔
          ((view3 true).coupling_matrix_ 0 2 = true ∨ (view3 true).allow_partial_ = true))
      ∧ (r.isSome = true →
          r = some (gate.controlled gate_set.cx 0 2)
          ∧ v'.net.gates = (view3 true).net.gates ++ [gate.controlled gate_set.cx 0 2]
          ∧ v'.net.gates.length = (view3 true).net.gates.length + 1
          ∧ v'.virtual_phy_map_ = (view3 true).virtual_phy_map_
          ∧ v'.init_virtual_phy_map_ = (view3 true).init_virtual_phy_map_) :=
  add_gate2_places (view3 true) gate_set.cx 0 2 0 2 rfl rfl

/-- C3. On a live map that is a permutation of `0..n-1`, `add_swap p q` for
adjacent `p, q < n` succeeds; the virtual qubit that was mapped to `p` is mapped
to `q`, the one that was mapped to `q` is mapped to `p`, every other entry is
unchanged; and the gates appended are `CX(p,q), CX(q,p), CX(p,q)` (three gates)
when the gate type is `mcst_gate` and one swap gate on `p, q` otherwise. -/
theorem add_swap_exchanges (v : mapping_view) (n p q : Nat)
    (hperm : v.virtual_phy_map_.Perm (List.range n))
    (hp : p < n) (hq : q < n) (hadj : v.coupling_matrix_ p q = true) :
    ∃ v', v.add_swap p q = .ok v'
      ∧ (∃ i : Nat, v.virtual_phy_map_[i]? = some p ∧ v'.virtual_phy_map_[i]? = some q)
      ∧ (∃ j : Nat, v.virtual_phy_map_[j]? = some q ∧ v'.virtual_phy_map_[j]? = some p)
      ∧ (∀ (i x : Nat), v.virtual_phy_map_[i]? = some x → x ≠ p → x ≠ q →
          v'.virtual_phy_map_[i]? = some x)
      ∧ v'.virtual_phy_map_.length = v.virtual_phy_map_.length
      ∧ v'.net.gates = v.net.gates ++
          (if v.gate_type_is_mcst then
            [gate.controlled gate_set.cx p q, gate.controlled gate_set.cx q p,
             gate.controlled gate_set.cx p q]
           else [gate.controlled gate_set.swap p q])
      ∧ v'.net.gates.length = v.net.gates.length + (if v.gate_type_is_mcst then 3 else 1) := by
  have hnd : v.virtual_phy_map_.Nodup := hperm.nodup_iff.mpr (List.nodup_range n)
  have hpm : p ∈ v.virtual_phy_map_ := hperm.mem_iff.mpr (List.mem_range.mpr hp)
  have hqm : q ∈ v.virtual_phy_map_ := hperm.mem_iff.mpr (List.mem_range.mpr hq)
  have hip : v.virtual_phy_map_.indexOf p < v.virtual_phy_map_.length :=
    List.indexOf_lt_length.mpr hpm
  have hiq : v.virtual_phy_map_.indexOf q < v.virtual_phy_map_.length :=
    List.indexOf_lt_length.mpr hqm
  have hgp : v.virtual_phy_map_[v.virtual_phy_map_.indexOf p]? = some p := by
    rw [List.getElem?_eq_getElem hip, List.getElem_indexOf]
  have hgq : v.virtual_phy_map_[v.virtual_phy_map_.indexOf q]? = some q := by
    rw [List.getElem?_eq_getElem hiq, List.getElem_indexOf]
  have hmap := swap_entries_eq_map v.virtual_phy_map_ p q hnd hpm hqm
  refine ⟨{ v with
      net := (swap_gates v.gate_type_is_mcst p q).foldl network.emplace_gate v.net
      virtual_phy_map_ := (v.virtual_phy_map_.set (v.virtual_phy_map_.indexOf p) q).set
        (v.virtual_phy_map_.indexOf q) p }, ?_, ?_, ?_, ?_, ?_, ?_, ?_⟩
  · simp [mapping_view.add_swap, hadj, find_index, hgp, hgq]
  · refine ⟨v.virtual_phy_map_.indexOf p, hgp, ?_⟩
    simp only [hmap, List.getElem?_map, hgp]
    simp
  · refine ⟨v.virtual_phy_map_.indexOf q, hgq, ?_⟩
    simp only [hmap, List.getElem?_map, hgq]
    by_cases h : q = p <;> simp [h]
  · intro i x hx hxp hxq
    simp only [hmap, List.getElem?_map, hx]
    simp [hxp, hxq]
  · simp
  · simp only [foldl_emplace_gates, swap_gates]
  · simp only [foldl_emplace_gates, swap_gates]
    cases v.gate_type_is_mcst <;> simp

theorem add_swap_exchanges_witness :
    (view3 false).virtual_phy_map_.Perm (List.range 3)
    ∧ (view3 false).coupling_matrix_ 1 2 = true
    ∧ ∃ v', (view3 false).add_swap 1 2 = .ok v'
      ∧ (∃ i : Nat, (view3 false).virtual_phy_map_[i]? = some 1 ∧ v'.virtual_phy_map_[i]? = some 2)
      ∧ (∃ j : Nat, (view3 false).virtual_phy_map_[j]? = some 2 ∧ v'.virtual_phy_map_[j]? = some 1)
      ∧ (∀ (i x : Nat), (view3 false).virtual_phy_map_[i]? = some x → x ≠ 1 → x ≠ 2 →
          v'.virtual_phy_map_[i]? = some x)
      ∧ v'.virtual_phy_map_.length = (view3 false).virtual_phy_map_.length
      ∧ v'.net.gates = (view3 false).net.gates ++
          (if (view3 false).gate_type_is_mcst then
            [gate.controlled gate_set.cx 1 2, gate.controlled gate_set.cx 2 1,
             gate.controlled gate_set.cx 1 2]
           else [gate.controlled gate_set.swap 1 2])
      ∧ v'.net.gates.length
          = (view3 false).net.gates.length + (if (view3 false).gate_type_is_mcst then 3 else 1) :=
  ⟨List.Perm.refl _, rfl,
    add_swap_exchanges (view3 false) 3 1 2 (List.Perm.refl _) (by decide) (by decide) rfl⟩

/-- C9. The code at a concrete construction: over the three-qubit device `line3`
the constructor leaves `init_virtual_phy_map()` empty (the vector is never
sized, so `std::iota` fills nothing) while the live map is the identity
`[0, 1, 2]`; and after the setter `phy_virtual_map([1, 0, 2])`, still before any
gate, the live map is `[1, 0, 2]` and the snapshot is still empty. -/
theorem construct_init_snapshot_empty :
    ∃ v, mapping_view.construct true ⟨2, []⟩ line3 false = .ok v
      ∧ v.net.gates = []
      ∧ v.init_virtual_phy_map = []
      ∧ v.virtual_phy_map_ = [0, 1, 2]
      ∧ v.init_virtual_phy_map ≠ v.virtual_phy_map_
      ∧ ∃ v', v.set_phy_virtual_map [1, 0, 2] = .ok v'
          ∧ v'.net.gates = []
          ∧ v'.virtual_phy_map_ = [1, 0, 2]
          ∧ v'.init_virtual_phy_map = []
          ∧ v'.init_virtual_phy_map ≠ v'.virtual_phy_map_ :=
  ⟨_, rfl, rfl, rfl, rfl, by decide, _, rfl, rfl, rfl, rfl, by decide⟩

/-- C10. After `set_virtual_phy_map(m)` the live map is `m`; the initial
snapshot is `m` too when the circuit held no gate at the call and is what it was
when the circuit held a gate; the gate sequence and the partial flag are
unchanged. -/
theorem set_virtual_phy_map_effect (v : mapping_view) (m : List Nat) :
    (v.set_virtual_phy_map m).virtual_phy_map_ = m
    ∧ (v.net.num_gates = 0 → (v.set_virtual_phy_map m).init_virtual_phy_map = m)
    ∧ (0 < v.net.num_gates →
        (v.set_virtual_phy_map m).init_virtual_phy_map = v.init_virtual_phy_map)
    ∧ (v.set_virtual_phy_map m).net = v.net
    ∧ mapping_view.is_partial (v.set_virtual_phy_map m) = mapping_view.is_partial v := by
  unfold mapping_view.set_virtual_phy_map mapping_view.init_virtual_phy_map
    mapping_view.is_partial
  by_cases h : v.net.num_gates = 0
  · simp [h]
  · simp [h]

theorem set_virtual_phy_map_effect_witness :
    ((view3 false).set_virtual_phy_map [2, 1, 0]).virtual_phy_map_ = [2, 1, 0]
    ∧ ((view3 false).set_virtual_phy_map [2, 1, 0]).init_virtual_phy_map = [2, 1, 0]
    ∧ (view3_one_gate.set_virtual_phy_map [2, 1, 0]).virtual_phy_map_ = [2, 1, 0]
    ∧ (view3_one_gate.set_virtual_phy_map [2, 1, 0]).init_virtual_phy_map = [0, 1, 2]
    ∧ (view3_one_gate.set_virtual_phy_map [2, 1, 0]).net = view3_one_gate.net :=
  ⟨(set_virtual_phy_map_effect (view3 false) [2, 1, 0]).1,
    (set_virtual_phy_map_effect (view3 false) [2, 1, 0]).2.1 rfl,
    (set_virtual_phy_map_effect view3_one_gate [2, 1, 0]).1,
    (set_virtual_phy_map_effect view3_one_gate [2, 1, 0]).2.2.1 (by decide),
    (set_virtual_phy_map_effect view3_one_gate [2, 1, 0]).2.2.2.1⟩

/-- C5 (as stated, refuted). For the MCX gate with controls 0, 1 and the single
target 2 the rewriter appends fifteen gates, not thirteen. -/
theorem case2_single_target_not_13 :
    (gate_rewriter sentinel32 ⟨3, []⟩ ⟨gate_set.mcx, [0, 1], [2]⟩).1 = true
    ∧ (gate_rewriter sentinel32 ⟨3, []⟩ ⟨gate_set.mcx, [0, 1], [2]⟩).2.gates.length = 15
    ∧ (gate_rewriter sentinel32 ⟨3, []⟩ ⟨gate_set.mcx, [0, 1], [2]⟩).2.gates.length ≠ 13 := by
  decide

/-- C5 (amended). For every MCX gate with exactly two controls and exactly one
target the rewriter succeeds and appends exactly fifteen gates: a Hadamard on
the target, the thirteen-gate sequence of CNOT, T and T-dagger gates, and a
Hadamard on the target. -/
theorem case2_single_target_15 (qid_invalid : Nat) (dest : network) (c0 c1 t : Nat) :
    gate_rewriter qid_invalid dest ⟨gate_set.mcx, [c0, c1], [t]⟩
      = (true, { dest with gates := dest.gates ++
          ([emit.hadamard t] ++ ccz_calls c0 c1 t ++ [emit.hadamard t]) })
    ∧ ([emit.hadamard t] ++ ccz_calls c0 c1 t ++ [emit.hadamard t]).length = 15
    ∧ (ccz_calls c0 c1 t).length = 13 := by
  refine ⟨?_, rfl, rfl⟩
  simp [gate_rewriter, network.add_gates, case2_calls, fan_out, targets0, ccz_calls,
    network.emplace_gate]

/-- C7. Provided the sentinel `qid_invalid` is not an index of the destination,
the rewriter returns true exactly for an MCX with at most two controls, an MCX
with three or four controls for which some index below `dest.num_qubits` is
neither a control nor a target, and an MCZ with exactly two controls. In
particular a three- or four-control MCX whose qubits all lie below `n` is
accepted on a destination with `n + 1` qubits. -/
theorem gate_rewriter_accepts_iff (qid_invalid : Nat) (dest : network) (g : gate)
    (hq : dest.num_qubits ≤ qid_invalid) :
    ((gate_rewriter qid_invalid dest g).1 = true ↔
      (g.op = gate_set.mcx ∧ g.num_controls ≤ 2)
      ∨ (g.op = gate_set.mcx ∧ (g.num_controls = 3 ∨ g.num_controls = 4)
          ∧ ∃ i, i < dest.num_qubits ∧ i ∉ g.controls ∧ i ∉ g.targets)
      ∨ (g.op = gate_set.mcz ∧ g.num_controls = 2))
    ∧ (∀ n, g.op = gate_set.mcx → (g.num_controls = 3 ∨ g.num_controls = 4) →
        (∀ x, x ∈ g.controls → x < n) → (∀ x, x ∈ g.targets → x < n) →
        dest.num_qubits = n + 1 → (gate_rewriter qid_invalid dest g).1 = true) := by
  have key : (gate_rewriter qid_invalid dest g).1 = true ↔
      (g.op = gate_set.mcx ∧ g.num_controls ≤ 2)
      ∨ (g.op = gate_set.mcx ∧ (g.num_controls = 3 ∨ g.num_controls = 4)
          ∧ ∃ i, i < dest.num_qubits ∧ i ∉ g.controls ∧ i ∉ g.targets)
      ∨ (g.op = gate_set.mcz ∧ g.num_controls = 2) := by
    obtain ⟨op, controls, targets⟩ := g
    simp only [gate.num_controls]
    by_cases hx : op = gate_set.mcx
    · subst hx
      have hz : gate_set.mcx ≠ gate_set.mcz := by decide
      match controls with
      | [] => simp [gate_rewriter]
      | [_] => simp [gate_rewriter]
      | [_, _] => simp [gate_rewriter]
      | [a, b, c] =>
        simp only [gate_rewriter, if_true]
        split
        · rename_i h
          rw [helper_scan_eq_invalid_iff _ _ _ hq] at h
          simp only [Bool.false_eq_true, List.length_cons, List.length_nil, true_and, false_iff]
          rintro (h1 | ⟨_, i, hi, hc, ht⟩ | ⟨h1, _⟩)
          · omega
          · have := h i hi
            simp at hc
            simp [hc, ht] at this
          · exact hz h1
        · rename_i h
          rw [helper_scan_eq_invalid_iff _ _ _ hq] at h
          push_neg at h
          obtain ⟨i, hi, hf⟩ := h
          simp only [List.length_cons, List.length_nil, true_and, true_iff]
          right; left
          refine ⟨by simp, i, hi, ?_⟩
          simp at hf
          simp [hf]
      | [a, b, c, d] =>
        simp only [gate_rewriter, if_true]
        split
        · rename_i h
          rw [helper_scan_eq_invalid_iff _ _ _ hq] at h
          simp only [Bool.false_eq_true, List.length_cons, List.length_nil, true_and, false_iff]
          rintro (h1 | ⟨_, i, hi, hc, ht⟩ | ⟨h1, _⟩)
          · omega
          · have := h i hi
            simp at hc
            simp [hc, ht] at this
          · exact hz h1
        · rename_i h
          rw [helper_scan_eq_invalid_iff _ _ _ hq] at h
          push_neg at h
          obtain ⟨i, hi, hf⟩ := h
          simp only [List.length_cons, List.length_nil, true_and, true_iff]
          right; left
          refine ⟨by simp, i, hi, ?_⟩
          simp at hf
          simp [hf]
      | _ :: _ :: _ :: _ :: _ :: _ =>
        simp [gate_rewriter]
    · by_cases hz : op = gate_set.mcz
      · subst hz
        match controls with
        | [] => simp [gate_rewriter]
        | [_] => simp [gate_rewriter]
        | [_, _] => simp [gate_rewriter]
        | _ :: _ :: _ :: _ => simp [gate_rewriter]
      · simp [gate_rewriter, hx, hz]
  refine ⟨key, ?_⟩
  intro n hop hnum hc ht hn
  rw [key]
  right; left
  refine ⟨hop, hnum, n, by omega, ?_, ?_⟩
  · intro h
    exact Nat.lt_irrefl _ (hc n h)
  · intro h
    exact Nat.lt_irrefl _ (ht n h)

theorem gate_rewriter_accepts_iff_witness :
    (⟨5, []⟩ : network).num_qubits ≤ sentinel32
    ∧ ((gate_rewriter sentinel32 ⟨5, []⟩ ⟨gate_set.mcx, [0, 1, 2], [3]⟩).1 = true ↔
        (gate_set.mcx = gate_set.mcx ∧ (3 : Nat) ≤ 2)
        ∨ (gate_set.mcx = gate_set.mcx ∧ ((3 : Nat) = 3 ∨ (3 : Nat) = 4)
            ∧ ∃ i, i < 5 ∧ i ∉ [0, 1, 2] ∧ i ∉ [3])
        ∨ (gate_set.mcx = gate_set.mcz ∧ (3 : Nat) = 2)) :=
  ⟨by decide,
    (gate_rewriter_accepts_iff sentinel32 ⟨5, []⟩ ⟨gate_set.mcx, [0, 1, 2], [3]⟩
      (by decide)).1⟩

/-- C8. Whenever the rewriter returns false, the destination it hands back is
the destination it was given: no gate was appended and no qubit added. -/
theorem gate_rewriter_failure_atomic (qid_invalid : Nat) (dest : network) (g : gate)
    (hfail : (gate_rewriter qid_invalid dest g).1 = false) :
    (gate_rewriter qid_invalid dest g).2 = dest := by
  obtain ⟨op, controls, targets⟩ := g
  unfold gate_rewriter at hfail ⊢
  simp only at hfail ⊢
  split at hfail
  · split at hfail <;> first
      | (simp at hfail; done)
      | (simp_all; done)
      | (split at hfail <;> simp_all)
  · split at hfail
    · split at hfail <;> simp_all
    · simp_all

theorem gate_rewriter_failure_atomic_witness :
    (gate_rewriter sentinel32 ⟨5, []⟩ ⟨gate_set.mcx, [0, 1, 2], [3, 4]⟩).1 = false
    ∧ (gate_rewriter sentinel32 ⟨5, []⟩ ⟨gate_set.mcx, [0, 1, 2], [3, 4]⟩).2 = ⟨5, []⟩ :=
  ⟨by decide,
    gate_rewriter_failure_atomic sentinel32 ⟨5, []⟩ ⟨gate_set.mcx, [0, 1, 2], [3, 4]⟩
      (by decide)⟩

/-- C6. For three pairwise-distinct qubits the rewriter accepts the MCZ gate with
controls `c0, c1` and target `t` and appends thirteen gates; read with CNOT as
`target ^= control` and T / T-dagger as +1 / -1 on the phase (mod 8) when the
acted-on bit is 1, they take every basis state `x` from phase 0 back to `x` with
phase `4 * c0 * c1 * t mod 8`: the factor is -1 when all three bits are 1 and +1
otherwise. -/
theorem mcz_two_controls_sign_flip (qid_invalid : Nat) (dest : network) (c0 c1 t x : Nat)
    (h01 : c0 ≠ c1) (h0t : c0 ≠ t) (h1t : c1 ≠ t) :
    ∃ calls, gate_rewriter qid_invalid dest ⟨gate_set.mcz, [c0, c1], [t]⟩
        = (true, { dest with gates := dest.gates ++ calls })
      ∧ calls.length = 13
      ∧ phase_run calls (0, x)
        = some (4 * (qubit_bit x c0).toNat * (qubit_bit x c1).toNat * (qubit_bit x t).toNat % 8,
            x) := by
  refine ⟨ccz_calls c0 c1 t, ?_, rfl, ?_⟩
  · simp [gate_rewriter, network.add_gates, targets0, ccz_calls, network.emplace_gate]
  · have h10 : c1 ≠ c0 := Ne.symm h01
    have ht0 : t ≠ c0 := Ne.symm h0t
    have ht1 : t ≠ c1 := Ne.symm h1t
    cases hb0 : qubit_bit x c0 <;> cases hb1 : qubit_bit x c1 <;> cases hbt : qubit_bit x t <;>
      simp [ccz_calls, phase_run, phase_apply, emit.cx, emit.t, emit.t_dagger, gate.single,
        gate.controlled, cx_bits, qubit_bit_flip_bit, hb0, hb1, hbt, h01, h0t, h1t, h10, ht0, ht1]

theorem mcz_two_controls_sign_flip_witness :
    ∃ calls, gate_rewriter sentinel32 ⟨3, []⟩ ⟨gate_set.mcz, [0, 1], [2]⟩
        = (true, { (⟨3, []⟩ : network) with gates := (⟨3, []⟩ : network).gates ++ calls })
      ∧ calls.length = 13
      ∧ phase_run calls (0, 7)
        = some (4 * (qubit_bit 7 0).toNat * (qubit_bit 7 1).toNat * (qubit_bit 7 2).toNat % 8,
            7) :=
  mcz_two_controls_sign_flip sentinel32 ⟨3, []⟩ 0 1 2 7 (by decide) (by decide) (by decide)

/-- C4. For every MCX gate with pairwise-distinct controls and targets (the two
sets disjoint, at least one target) that the rewriter accepts, the gates it
appends send every basis state `x` to a phase multiple of the basis state in
which every target is negated when all controls are 1 and every other qubit
(controls, helper, bystanders) keeps its value: the amplitude of that basis state
is a power of `w`, and every other amplitude is 0. -/
theorem rpt_mcx_is_toffoli (qid_invalid : Nat) (dest : network) (g : gate) (x : Nat)
    (hop : g.op = gate_set.mcx) (hnd : (g.controls ++ g.targets).Nodup)
    (hne : g.targets ≠ []) (hret : (gate_rewriter qid_invalid dest g).1 = true) :
    ∃ calls, (gate_rewriter qid_invalid dest g).2 = { dest with gates := dest.gates ++ calls }
      ∧ ∃ k, ∀ z, amplitude_is (run calls (ket x)) z
          (if z = toffoli g.controls g.targets x then Zomega.omega_pow k else 0) := by
  obtain ⟨op, cs, ts⟩ := g
  simp only at hop hnd hne
  subst hop
  cases ts with
  | nil => exact absurd rfl hne
  | cons d tl =>
    match cs, hnd, hret with
    | [], hnd, _ =>
      refine ⟨(d :: tl).map emit.pauli_x, ?_, 0, ?_⟩
      · simp [gate_rewriter, add_gates_eq]
      · apply amplitude_is_of_amp_sum _ x _ 1
        · rw [hadamard_count_map_pauli_x]; rfl
        · intro z
          rw [run_paths_pauli_x]
          simp [toffoli, Zomega.add_zero, eq_comm]
    | [c], hnd, _ =>
      refine ⟨(d :: tl).map (fun t => emit.cx c t), ?_, 0, ?_⟩
      · simp [gate_rewriter, add_gates_eq]
      · apply amplitude_is_of_amp_sum _ x _ 1
        · rw [hadamard_count_map_cx]; rfl
        · intro z
          rw [run_paths_fan_out]
          simp only [List.map_cons, List.map_nil, fan_bits_eq_toffoli c (d :: tl) hnd]
          simp [Zomega.add_zero, eq_comm]
    | [c0, c1], hnd, _ =>
      refine ⟨case2_calls c0 c1 (d :: tl), ?_, 0, ?_⟩
      · simp [gate_rewriter, add_gates_eq]
      · apply amplitude_is_of_amp_sum _ x _ ⟨2, 0, 0, 0⟩
        · rw [hadamard_count_case2]; rfl
        · exact case2_sem c0 c1 d tl hnd x
    | [a, b, c], hnd, hret =>
      simp only [gate_rewriter, if_true] at hret ⊢
      split at hret
      · simp at hret
      · rename_i hhelper
        obtain ⟨_, hfree, _⟩ := helper_scan_spec _ _ _ hhelper
        simp only [if_neg hhelper]
        refine ⟨_, add_gates_eq _ _, 0, ?_⟩
        apply amplitude_is_of_amp_sum _ x _ ⟨8, 0, 0, 0⟩
        · rw [hadamard_count_case3]; rfl
        · apply case3_sem a b c d _ tl hnd
          generalize helper_scan _ _ _ = helper at hfree ⊢
          simp at hfree
          simp only [List.cons_append, List.nil_append, List.mem_cons, not_or]
          exact ⟨hfree.1.1.1, hfree.1.1.2, hfree.1.2, hfree.2.1, hfree.2.2⟩
    | [a, b, control, d'], hnd, hret =>
      simp only [gate_rewriter, if_true] at hret ⊢
      split at hret
      · simp at hret
      · rename_i hhelper
        obtain ⟨_, hfree, _⟩ := helper_scan_spec _ _ _ hhelper
        simp only [if_neg hhelper]
        refine ⟨_, add_gates_eq _ _, 0, ?_⟩
        apply amplitude_is_of_amp_sum _ x _ ⟨32, 0, 0, 0⟩
        · rw [hadamard_count_case4]; rfl
        · apply case4_sem a b control d' d _ tl hnd
          generalize helper_scan _ _ _ = helper at hfree ⊢
          simp at hfree
          simp only [List.cons_append, List.nil_append, List.mem_cons, not_or]
          exact ⟨hfree.1.1.1.1, hfree.1.1.1.2, hfree.1.1.2, hfree.1.2, hfree.2.1, hfree.2.2⟩
    | _ :: _ :: _ :: _ :: _ :: _, _, hret =>
      simp [gate_rewriter] at hret

theorem rpt_mcx_is_toffoli_witness :
    (gate_rewriter sentinel32 ⟨5, []⟩ ⟨gate_set.mcx, [0, 1, 2], [3]⟩).1 = true
    ∧ toffoli [0, 1, 2] [3] 7 = 15
    ∧ ∃ calls, (gate_rewriter sentinel32 ⟨5, []⟩ ⟨gate_set.mcx, [0, 1, 2], [3]⟩).2
          = { (⟨5, []⟩ : network) with gates := (⟨5, []⟩ : network).gates ++ calls }
        ∧ ∃ k, ∀ z, amplitude_is (run calls (ket 7)) z
            (if z = toffoli [0, 1, 2] [3] 7 then Zomega.omega_pow k else 0) :=
  ⟨by decide, by decide,
    rpt_mcx_is_toffoli sentinel32 ⟨5, []⟩ ⟨gate_set.mcx, [0, 1, 2], [3]⟩ 7 rfl (by decide)
      (by decide) (by decide)⟩

/-- C18. For every MCX gate with controls `c0, c1` and targets `t0, t1, ...` the
rewriter appends the fan-out CNOTs from `t0`, a Hadamard on `t0`, exactly the
thirteen gates it appends for the MCZ gate with controls `c0, c1` and target
`t0`, a Hadamard on `t0`, and the fan-out again: `15 + 2 (k - 1)` gates for `k`
targets. -/
theorem case2_is_conjugated_mcz (qid_invalid : Nat) (dest dest' : network)
    (c0 c1 t0 : Nat) (ts : List Nat) :
    ∃ Z, gate_rewriter qid_invalid dest' ⟨gate_set.mcz, [c0, c1], [t0]⟩
        = (true, { dest' with gates := dest'.gates ++ Z })
      ∧ Z.length = 13
      ∧ gate_rewriter qid_invalid dest ⟨gate_set.mcx, [c0, c1], t0 :: ts⟩
        = (true, { dest with gates := dest.gates ++
            (ts.map (fun ti => emit.cx t0 ti) ++ [emit.hadamard t0] ++ Z
              ++ [emit.hadamard t0] ++ ts.map (fun ti => emit.cx t0 ti)) })
      ∧ (ts.map (fun ti => emit.cx t0 ti)).length = (t0 :: ts).length - 1
      ∧ (ts.map (fun ti => emit.cx t0 ti) ++ [emit.hadamard t0] ++ Z
          ++ [emit.hadamard t0] ++ ts.map (fun ti => emit.cx t0 ti)).length
        = 15 + 2 * ((t0 :: ts).length - 1) := by
  refine ⟨ccz_calls c0 c1 t0, ?_, rfl, ?_, by simp, ?_⟩
  · simp [gate_rewriter, add_gates_eq, targets0]
  · simp [gate_rewriter, add_gates_eq, targets0, case2_calls, fan_out]
  · simp [ccz_calls]
    omega

theorem case3_core_blocks (a b c d helper : Nat) :
    case3_core a b c d helper
      = r1_tof a b helper ++ s_r2_tof c d helper ++ inverse_calls (r1_tof a b helper)
        ++ inverse_calls (s_r2_tof c d helper) := rfl

/-- C19. For an MCX gate with controls `a, b, c` and targets `d, t1, ...` on a
destination that has an index below `num_qubits` outside the gate (the sentinel
not being an index), the rewriter appends the fan-out, the block R1-TOF on
`a, b, h`, the block S-R2-TOF on `c, h, d`, the inverse of the first block, the
inverse of the second block, and the fan-out again, where `h` is the least index
below `num_qubits` that is neither a control nor a target; each block has nine
gates and the total is `36 + 2 (k - 1)`. -/
theorem case3_block_structure (qid_invalid : Nat) (dest : network) (a b c d : Nat)
    (ts : List Nat) (hq : dest.num_qubits ≤ qid_invalid)
    (hex : ∃ i, i < dest.num_qubits ∧ i ∉ [a, b, c] ∧ i ∉ d :: ts) :
    ∃ h, (h < dest.num_qubits ∧ h ∉ [a, b, c] ∧ h ∉ d :: ts
        ∧ ∀ j, j < h → j ∈ [a, b, c] ∨ j ∈ d :: ts)
      ∧ gate_rewriter qid_invalid dest ⟨gate_set.mcx, [a, b, c], d :: ts⟩
        = (true, { dest with gates := dest.gates ++
            (ts.map (fun ti => emit.cx d ti) ++ r1_tof a b h ++ s_r2_tof c d h
              ++ inverse_calls (r1_tof a b h) ++ inverse_calls (s_r2_tof c d h)
              ++ ts.map (fun ti => emit.cx d ti)) })
      ∧ (r1_tof a b h).length = 9 ∧ (s_r2_tof c d h).length = 9
      ∧ (inverse_calls (r1_tof a b h)).length = 9
      ∧ (inverse_calls (s_r2_tof c d h)).length = 9
      ∧ (ts.map (fun ti => emit.cx d ti) ++ r1_tof a b h ++ s_r2_tof c d h
            ++ inverse_calls (r1_tof a b h) ++ inverse_calls (s_r2_tof c d h)
            ++ ts.map (fun ti => emit.cx d ti)).length
          = 36 + 2 * ((d :: ts).length - 1) := by
  have hne : helper_scan qid_invalid
      (fun i => i != a && i != b && i != c && !(d :: ts).contains i) dest.num_qubits
      ≠ qid_invalid := by
    intro h
    rw [helper_scan_eq_invalid_iff _ _ _ hq] at h
    obtain ⟨i, hi, hc, ht⟩ := hex
    have := h i hi
    simp at hc ht
    simp [hc, ht] at this
  obtain ⟨h1, h2, h3⟩ := helper_scan_spec _ _ _ hne
  refine ⟨_, ⟨h1, ?_, ?_, ?_⟩, ?_, rfl, rfl, rfl, rfl, ?_⟩
  · generalize helper_scan _ _ _ = h at h2
    simp at h2
    simp [h2]
  · generalize helper_scan _ _ _ = h at h2
    simp at h2
    simp [h2]
  · intro j hj
    have := h3 j hj
    simp at this
    by_contra hcon
    simp only [List.mem_cons, not_or] at hcon
    simp at hcon
    have h4 := this hcon.1.1 hcon.1.2.1 hcon.1.2.2 hcon.2.1
    exact hcon.2.2 h4
  · simp only [gate_rewriter, if_true, if_neg hne, add_gates_eq, case3_calls,
      case3_core_blocks, fan_out, targets0, List.headD_cons, List.tail_cons,
      List.append_assoc]
  · simp [r1_tof, s_r2_tof, inverse_calls]
    omega

theorem case3_block_structure_witness :
    (⟨5, []⟩ : network).num_qubits ≤ sentinel32
    ∧ ∃ h, (h < 5 ∧ h ∉ [1, 2, 3] ∧ h ∉ [4] ∧ ∀ j, j < h → j ∈ [1, 2, 3] ∨ j ∈ [4])
      ∧ gate_rewriter sentinel32 ⟨5, []⟩ ⟨gate_set.mcx, [1, 2, 3], [4]⟩
        = (true, { (⟨5, []⟩ : network) with gates := (⟨5, []⟩ : network).gates ++
            (([] : List Nat).map (fun ti => emit.cx 4 ti) ++ r1_tof 1 2 h ++ s_r2_tof 3 4 h
              ++ inverse_calls (r1_tof 1 2 h) ++ inverse_calls (s_r2_tof 3 4 h)
              ++ ([] : List Nat).map (fun ti => emit.cx 4 ti)) })
      ∧ (r1_tof 1 2 h).length = 9 ∧ (s_r2_tof 3 4 h).length = 9
      ∧ (inverse_calls (r1_tof 1 2 h)).length = 9
      ∧ (inverse_calls (s_r2_tof 3 4 h)).length = 9
      ∧ (([] : List Nat).map (fun ti => emit.cx 4 ti) ++ r1_tof 1 2 h ++ s_r2_tof 3 4 h
            ++ inverse_calls (r1_tof 1 2 h) ++ inverse_calls (s_r2_tof 3 4 h)
            ++ ([] : List Nat).map (fun ti => emit.cx 4 ti)).length
          = 36 + 2 * (([4] : List Nat).length - 1) :=
  ⟨by decide, case3_block_structure sentinel32 ⟨5, []⟩ 1 2 3 4 [] (by decide)
    ⟨0, by decide, by decide, by decide⟩⟩

theorem rename_wf (qs : List Nat) (hnd : qs.Nodup) (g : gate) (hu : g.unitary = true)
    (hb : g.below qs.length = true) :
    (g.rename qs).unitary = true
    ∧ ∀ x, x ∈ (g.rename qs).controls ++ (g.rename qs).targets → x ∈ qs := by
  obtain ⟨op, cs, ts⟩ := g
  simp only [gate.below, Bool.and_eq_true, List.all_eq_true, decide_eq_true_eq] at hb
  obtain ⟨hcs, hts⟩ := hb
  rcases cs with _ | ⟨c, _ | ⟨c', cs⟩⟩ <;> rcases ts with _ | ⟨t, _ | ⟨t', ts⟩⟩ <;>
    cases op <;> simp [gate.unitary] at hu <;> simp [gate.unitary, gate.rename]
  · exact getD_mem_of_lt qs (hts t (by simp))
  · exact getD_mem_of_lt qs (hts t (by simp))
  · exact getD_mem_of_lt qs (hts t (by simp))
  · exact getD_mem_of_lt qs (hts t (by simp))
  · refine ⟨fun e => hu (getD_inj_of_nodup hnd (hcs c (by simp)) (hts t (by simp)) e), ?_, ?_⟩
    · exact getD_mem_of_lt qs (hcs c (by simp))
    · exact getD_mem_of_lt qs (hts t (by simp))

theorem unitary_ops {e : gate} (h : e.unitary = true) :
    e.op ≠ gate_set.mcx ∧ e.op ≠ gate_set.mcz ∧ e.op ≠ gate_set.swap := by
  rcases unitary_cases h with ⟨q, rfl⟩ | ⟨q, rfl⟩ | ⟨q, rfl⟩ | ⟨q, rfl⟩ | ⟨c, t, _, rfl⟩ <;>
    simp [emit.pauli_x, emit.hadamard, emit.t, emit.t_dagger, emit.cx, gate.single,
      gate.controlled]

theorem fan_core_fan_wf (qs : List Nat) (hnd : qs.Nodup) (core : List gate)
    (hok : core_ok qs.length core = true) (d : Nat) (ts : List Nat) (hd : d ∉ ts)
    (allowed : Nat → Prop) (hqs : ∀ x, x ∈ qs → allowed x) (hda : allowed d)
    (hts : ∀ t, t ∈ ts → allowed t) (e : gate)
    (he : e ∈ ts.map (fun ti => emit.cx d ti) ++ core.map (gate.rename qs)
      ++ ts.map (fun ti => emit.cx d ti)) :
    e.unitary = true ∧ ∀ x, x ∈ e.controls ++ e.targets → allowed x := by
  have hfan : ∀ e, e ∈ ts.map (fun ti => emit.cx d ti) →
      e.unitary = true ∧ ∀ x, x ∈ e.controls ++ e.targets → allowed x := by
    intro e he
    obtain ⟨t, ht, rfl⟩ := List.mem_map.mp he
    have hdt : d ≠ t := fun h => hd (h ▸ ht)
    refine ⟨by simp [emit.cx, gate.controlled, gate.unitary, hdt], ?_⟩
    intro x hx
    simp [emit.cx, gate.controlled] at hx
    rcases hx with rfl | rfl
    · exact hda
    · exact hts _ ht
  simp only [List.mem_append] at he
  rcases he with (he | he) | he
  · exact hfan e he
  · obtain ⟨g, hg, rfl⟩ := List.mem_map.mp he
    simp only [core_ok, List.all_eq_true, Bool.and_eq_true] at hok
    obtain ⟨h1, h2⟩ := rename_wf qs hnd g (hok g hg).1 (hok g hg).2
    exact ⟨h1, fun x hx => hqs x (h2 x hx)⟩
  · exact hfan e he

/-- C20. For an MCX or MCZ gate whose controls and targets are pairwise distinct
and below `dest.num_qubits` (with at least one target), every gate the rewriter
appends is a Pauli-X, Hadamard, T or T-dagger gate on one qubit or a CNOT on two
different qubits; each of its qubits is below `dest.num_qubits` and is a control
or target of the input gate or the helper the scan picks; none is an MCX, MCZ or
SWAP gate. -/
theorem emitted_gates_elementary (qid_invalid : Nat) (dest : network) (g : gate)
    (hop : g.op = gate_set.mcx ∨ g.op = gate_set.mcz)
    (hnd : (g.controls ++ g.targets).Nodup)
    (hlt : ∀ x, x ∈ g.controls ++ g.targets → x < dest.num_qubits)
    (hne : g.targets ≠ []) :
    ∃ calls, (gate_rewriter qid_invalid dest g).2 = { dest with gates := dest.gates ++ calls }
      ∧ ∀ e, e ∈ calls →
        ((∃ t, e = emit.pauli_x t) ∨ (∃ t, e = emit.hadamard t) ∨ (∃ t, e = emit.t t)
          ∨ (∃ t, e = emit.t_dagger t) ∨ (∃ c t, c ≠ t ∧ e = emit.cx c t))
        ∧ (∀ x, x ∈ e.controls ++ e.targets →
            x < dest.num_qubits
            ∧ (x ∈ g.controls ∨ x ∈ g.targets
                ∨ is_helper dest.num_qubits g.controls g.targets x))
        ∧ e.op ≠ gate_set.mcx ∧ e.op ≠ gate_set.mcz ∧ e.op ≠ gate_set.swap := by
  suffices hs : ∃ calls,
      (gate_rewriter qid_invalid dest g).2 = { dest with gates := dest.gates ++ calls }
      ∧ ∀ e, e ∈ calls → e.unitary = true ∧ ∀ x, x ∈ e.controls ++ e.targets →
          x < dest.num_qubits
          ∧ (x ∈ g.controls ∨ x ∈ g.targets
              ∨ is_helper dest.num_qubits g.controls g.targets x) by
    obtain ⟨calls, h1, h2⟩ := hs
    exact ⟨calls, h1, fun e he => ⟨unitary_cases (h2 e he).1, (h2 e he).2,
      unitary_ops (h2 e he).1⟩⟩
  obtain ⟨op, cs, ts⟩ := g
  simp only at hop hnd hlt hne ⊢
  cases ts with
  | nil => exact absurd rfl hne
  | cons d tl =>
    have hin : ∀ x, x ∈ cs ++ d :: tl →
        x < dest.num_qubits
        ∧ (x ∈ cs ∨ x ∈ d :: tl ∨ is_helper dest.num_qubits cs (d :: tl) x) := by
      intro x hx
      refine ⟨hlt x hx, ?_⟩
      rcases List.mem_append.mp hx with h | h
      · exact Or.inl h
      · exact Or.inr (Or.inl h)
    have hnone : ∃ calls, dest = { dest with gates := dest.gates ++ calls }
        ∧ ∀ e, e ∈ calls → e.unitary = true ∧ ∀ x, x ∈ e.controls ++ e.targets →
            x < dest.num_qubits
            ∧ (x ∈ cs ∨ x ∈ d :: tl ∨ is_helper dest.num_qubits cs (d :: tl) x) :=
      ⟨[], by simp, by simp⟩
    have hd : d ∉ tl := (List.nodup_cons.mp (List.nodup_append.mp hnd).2.1).1
    rcases hop with rfl | rfl
    · match cs, hnd, hin, hnone with
      | [], hnd, hin, _ =>
        refine ⟨(d :: tl).map emit.pauli_x, by simp [gate_rewriter, add_gates_eq], ?_⟩
        intro e he
        obtain ⟨t, ht, rfl⟩ := List.mem_map.mp he
        refine ⟨rfl, ?_⟩
        intro x hx
        simp [emit.pauli_x, gate.single] at hx
        subst hx
        exact hin _ (by simpa using ht)
      | [c], hnd, hin, _ =>
        refine ⟨(d :: tl).map (fun t => emit.cx c t), by simp [gate_rewriter, add_gates_eq], ?_⟩
        intro e he
        obtain ⟨t, ht, rfl⟩ := List.mem_map.mp he
        have hct : c ≠ t := by
          intro h
          subst h
          exact (List.nodup_cons.mp hnd).1 ht
        refine ⟨by simp [emit.cx, gate.controlled, gate.unitary, hct], ?_⟩
        intro x hx
        simp [emit.cx, gate.controlled] at hx
        rcases hx with rfl | rfl
        · exact hin _ (by simp)
        · exact hin _ (List.mem_append_right _ ht)
      | [c0, c1], hnd, hin, _ =>
        refine ⟨case2_calls c0 c1 (d :: tl), by simp [gate_rewriter, add_gates_eq], ?_⟩
        intro e he
        have hshape : case2_calls c0 c1 (d :: tl)
            = tl.map (fun ti => emit.cx d ti) ++ (case2_core 0 1 2).map (gate.rename [c0, c1, d])
              ++ tl.map (fun ti => emit.cx d ti) := by
          simp [case2_calls, case2_core, targets0, fan_out, List.append_assoc, gate.rename,
            nth_qubit, ccz_calls, emit.cx, emit.t, emit.t_dagger, emit.hadamard, gate.single,
            gate.controlled]
        rw [hshape] at he
        have hqs : [c0, c1, d].Nodup :=
          (List.nodup_append.mp (show ([c0, c1, d] ++ tl).Nodup from hnd)).1
        exact fan_core_fan_wf [c0, c1, d] hqs (case2_core 0 1 2)
          (show core_ok 3 (case2_core 0 1 2) = true by decide) d tl hd _
          (fun x hx => hin x (by simp at hx ⊢; tauto)) (hin d (by simp))
          (fun t ht => hin t (by simp [ht])) e he
      | [a, b, c], hnd, hin, hnone =>
        simp only [gate_rewriter, if_true]
        split
        · exact hnone
        · rename_i hhelper
          obtain ⟨h1, h2, h3⟩ := helper_scan_spec _ _ _ hhelper
          simp only [add_gates_eq]
          refine ⟨_, rfl, ?_⟩
          generalize helper_scan _ _ _ = helper at h1 h2 h3 ⊢
          simp at h2
          have hh : helper ∉ [a, b, c] ++ d :: tl := by simp; tauto
          have hhelp : is_helper dest.num_qubits [a, b, c] (d :: tl) helper := by
            refine ⟨h1, by simp; tauto, by simp; tauto, ?_⟩
            intro j hj
            have := h3 j hj
            simp at this
            by_contra hcon
            simp only [List.mem_cons, not_or] at hcon
            simp at hcon
            exact hcon.2.2 (this hcon.1.1 hcon.1.2.1 hcon.1.2.2 hcon.2.1)
          intro e he
          have hshape : case3_calls a b c helper (d :: tl)
              = tl.map (fun ti => emit.cx d ti)
                ++ (case3_core 0 1 2 3 4).map (gate.rename [a, b, c, d, helper])
                ++ tl.map (fun ti => emit.cx d ti) := rfl
          rw [hshape] at he
          exact fan_core_fan_wf [a, b, c, d, helper]
            (nodup_with_helper [a, b, c, d] tl helper hnd hh) (case3_core 0 1 2 3 4)
            (show core_ok 5 (case3_core 0 1 2 3 4) = true by decide) d tl hd _
            (fun x hx => by
              simp only [List.mem_cons, List.mem_singleton, List.not_mem_nil, or_false] at hx
              rcases hx with rfl | rfl | rfl | rfl | rfl
              · exact hin _ (by simp)
              · exact hin _ (by simp)
              · exact hin _ (by simp)
              · exact hin _ (by simp)
              · exact ⟨h1, Or.inr (Or.inr hhelp)⟩)
            (hin d (by simp)) (fun t ht => hin t (by simp [ht])) e he
      | [a, b, control, d'], hnd, hin, hnone =>
        simp only [gate_rewriter, if_true]
        split
        · exact hnone
        · rename_i hhelper
          obtain ⟨h1, h2, h3⟩ := helper_scan_spec _ _ _ hhelper
          simp only [add_gates_eq]
          refine ⟨_, rfl, ?_⟩
          generalize helper_scan _ _ _ = helper at h1 h2 h3 ⊢
          simp at h2
          have hh : helper ∉ [a, b, control, d'] ++ d :: tl := by simp; tauto
          have hhelp : is_helper dest.num_qubits [a, b, control, d'] (d :: tl) helper := by
            refine ⟨h1, by simp; tauto, by simp; tauto, ?_⟩
            intro j hj
            have := h3 j hj
            simp at this
            by_contra hcon
            simp only [List.mem_cons, not_or] at hcon
            simp at hcon
            exact hcon.2.2 (this hcon.1.1 hcon.1.2.1 hcon.1.2.2.1 hcon.1.2.2.2 hcon.2.1)
          intro e he
          have hshape : case4_calls a b control d' helper (d :: tl)
              = tl.map (fun ti => emit.cx d ti)
                ++ (case4_core 0 1 2 3 4 5).map (gate.rename [a, b, control, d', d, helper])
                ++ tl.map (fun ti => emit.cx d ti) := rfl
          rw [hshape] at he
          exact fan_core_fan_wf [a, b, control, d', d, helper]
            (nodup_with_helper [a, b, control, d', d] tl helper hnd hh) (case4_core 0 1 2 3 4 5)
            (show core_ok 6 (case4_core 0 1 2 3 4 5) = true by decide) d tl hd _
            (fun x hx => by
              simp only [List.mem_cons, List.mem_singleton, List.not_mem_nil, or_false] at hx
              rcases hx with rfl | rfl | rfl | rfl | rfl | rfl
              · exact hin _ (by simp)
              · exact hin _ (by simp)
              · exact hin _ (by simp)
              · exact hin _ (by simp)
              · exact hin _ (by simp)
              · exact ⟨h1, Or.inr (Or.inr hhelp)⟩)
            (hin d (by simp)) (fun t ht => hin t (by simp [ht])) e he
      | _ :: _ :: _ :: _ :: _ :: _, _, _, hnone =>
        simpa [gate_rewriter] using hnone
    · have hz : gate_set.mcz ≠ gate_set.mcx := by decide
      match cs, hnd, hin, hnone with
      | [c0, c1], hnd, hin, _ =>
        refine ⟨ccz_calls c0 c1 d, by simp [gate_rewriter, add_gates_eq, targets0], ?_⟩
        intro e he
        have hshape : ccz_calls c0 c1 d
            = ([] : List Nat).map (fun ti => emit.cx d ti)
              ++ (ccz_calls 0 1 2).map (gate.rename [c0, c1, d])
              ++ ([] : List Nat).map (fun ti => emit.cx d ti) := by
          simp [ccz_calls, gate.rename, nth_qubit, emit.cx, emit.t, emit.t_dagger, gate.single,
            gate.controlled]
        rw [hshape] at he
        have hqs : [c0, c1, d].Nodup :=
          (List.nodup_append.mp (show ([c0, c1, d] ++ tl).Nodup from hnd)).1
        exact fan_core_fan_wf [c0, c1, d] hqs (ccz_calls 0 1 2)
          (show core_ok 3 (ccz_calls 0 1 2) = true by decide) d [] (by simp) _
          (fun x hx => hin x (by simp at hx ⊢; tauto)) (hin d (by simp))
          (fun t ht => by simp at ht) e he
      | [], _, _, hnone => simpa [gate_rewriter] using hnone
      | [_], _, _, hnone => simpa [gate_rewriter] using hnone
      | _ :: _ :: _ :: _, _, _, hnone => simpa [gate_rewriter] using hnone

theorem emitted_gates_elementary_witness :
    ∃ calls, (gate_rewriter sentinel32 ⟨6, []⟩ ⟨gate_set.mcx, [1, 2, 3], [4, 5]⟩).2
        = { (⟨6, []⟩ : network) with gates := (⟨6, []⟩ : network).gates ++ calls }
      ∧ ∀ e, e ∈ calls →
        ((∃ t, e = emit.pauli_x t) ∨ (∃ t, e = emit.hadamard t) ∨ (∃ t, e = emit.t t)
          ∨ (∃ t, e = emit.t_dagger t) ∨ (∃ c t, c ≠ t ∧ e = emit.cx c t))
        ∧ (∀ x, x ∈ e.controls ++ e.targets →
            x < 6 ∧ (x ∈ [1, 2, 3] ∨ x ∈ [4, 5] ∨ is_helper 6 [1, 2, 3] [4, 5] x))
        ∧ e.op ≠ gate_set.mcx ∧ e.op ≠ gate_set.mcz ∧ e.op ≠ gate_set.swap :=
  emitted_gates_elementary sentinel32 ⟨6, []⟩ ⟨gate_set.mcx, [1, 2, 3], [4, 5]⟩
    (Or.inl rfl) (by decide) (by decide) (by decide)

/-- C14. The code at a concrete construction: a network with four qubits over
the three-vertex device `line3`. The assertion reads the qubit count of the fresh
base network, which is 0, so it passes, and the view ends up holding four qubits
on a device that has three. -/
theorem construct_over_capacity :
    (⟨4, []⟩ : network).num_qubits > line3.num_vertices
    ∧ mapping_view.construct true ⟨4, []⟩ line3 false ≠ .error fault.assertion
    ∧ ∃ v, mapping_view.construct true ⟨4, []⟩ line3 false = .ok v
        ∧ v.net.num_qubits = 4
        ∧ v.virtual_phy_map_ = [0, 1, 2] :=
  ⟨by decide, by simp [mapping_view.construct, network.empty], _, rfl, rfl, rfl⟩

theorem add_qubits_eq (k : Nat) (n : network) :
    add_qubits k n = { n with num_qubits := n.num_qubits + k } := by
  induction k generalizing n with
  | zero => rfl
  | succ k ih =>
    simp only [add_qubits, ih, network.add_qubit]
    congr 1
    omega

theorem gate_rewriter_expand01 (qid_invalid : Nat) (dest : network) (g : gate)
    (hop : g.op = gate_set.mcx) (hc : g.num_controls ≤ 1) :
    gate_rewriter qid_invalid dest g
      = (true, { dest with gates := dest.gates ++ expand01 g }) := by
  obtain ⟨op, cs, ts⟩ := g
  simp only [gate.num_controls] at hop hc
  subst hop
  match cs, hc with
  | [], _ => simp [gate_rewriter, add_gates_eq, expand01]
  | [c], _ => simp [gate_rewriter, add_gates_eq, expand01]

theorem rewrite_loop_expand01 (qid_invalid : Nat) (gs : List gate) (dest : network)
    (h : ∀ g, g ∈ gs → g.op = gate_set.mcx ∧ g.num_controls ≤ 1) :
    rewrite_loop (gate_rewriter qid_invalid) gs dest
      = (true, { dest with gates := dest.gates ++ gs.flatMap expand01 }) := by
  induction gs generalizing dest with
  | nil => simp [rewrite_loop]
  | cons g gs ih =>
    have hg := h g (List.mem_cons_self _ _)
    simp only [rewrite_loop, gate_rewriter_expand01 qid_invalid dest g hg.1 hg.2]
    rw [ih _ (fun g' hg' => h g' (List.mem_cons_of_mem _ hg'))]
    simp [List.append_assoc]

/-- C16. For a source circuit with `n` qubits whose gates are all MCX gates with
zero or one control, the pass succeeds and `rpt` returns the circuit with `n + 1`
qubits whose gates are, for each source gate in order and each of its targets in
order, one Pauli-X on the target (no control) or one CNOT from the control to the
target, on the qubit ids of the source; when the source ids are below `n`, no
gate touches the ancilla `n`. -/
theorem rpt_zero_one_controls (qid_invalid : Nat) (src : network)
    (h : ∀ g, g ∈ src.gates → g.op = gate_set.mcx ∧ g.num_controls ≤ 1) :
    (rewrite_network network.empty src (gate_rewriter qid_invalid) 1).1 = true
    ∧ rpt qid_invalid src = ⟨src.num_qubits + 1, src.gates.flatMap expand01⟩
    ∧ ((∀ g, g ∈ src.gates → ∀ x, x ∈ g.controls ++ g.targets → x < src.num_qubits) →
        ∀ e, e ∈ (rpt qid_invalid src).gates → ∀ x, x ∈ e.controls ++ e.targets →
          x ≠ src.num_qubits) := by
  have hrun : rewrite_network network.empty src (gate_rewriter qid_invalid) 1
      = (true, ⟨src.num_qubits + 1, src.gates.flatMap expand01⟩) := by
    unfold rewrite_network
    rw [rewrite_loop_expand01 qid_invalid _ _ h, add_qubits_eq]
    simp [network.empty]
  have hrpt : rpt qid_invalid src = ⟨src.num_qubits + 1, src.gates.flatMap expand01⟩ := by
    simp [rpt, hrun]
  refine ⟨by rw [hrun], hrpt, ?_⟩
  intro hlt e he x hx
  rw [hrpt] at he
  simp only [List.mem_flatMap] at he
  obtain ⟨g, hg, heg⟩ := he
  have hgl := hlt g hg
  obtain ⟨op, cs, ts⟩ := g
  have hlen := (h _ hg).2
  simp only [gate.num_controls] at hlen
  match cs, hlen, hgl, heg with
  | [], _, hgl, heg =>
    simp only [expand01, List.mem_map] at heg
    obtain ⟨t, ht, rfl⟩ := heg
    simp [emit.pauli_x, gate.single] at hx
    subst hx
    exact Nat.ne_of_lt (hgl _ (by simp [ht]))
  | [c], _, hgl, heg =>
    simp only [expand01, List.mem_map] at heg
    obtain ⟨t, ht, rfl⟩ := heg
    simp [emit.cx, gate.controlled] at hx
    rcases hx with rfl | rfl
    · exact Nat.ne_of_lt (hgl _ (by simp))
    · exact Nat.ne_of_lt (hgl _ (by simp [ht]))

theorem rpt_zero_one_controls_witness :
    (rewrite_network network.empty src_single_not (gate_rewriter sentinel32) 1).1 = true
    ∧ rpt sentinel32 src_single_not = ⟨3, [emit.pauli_x 0]⟩ :=
  ⟨(rpt_zero_one_controls sentinel32 src_single_not (by decide)).1,
    (rpt_zero_one_controls sentinel32 src_single_not (by decide)).2.1⟩

theorem phy_virtual_loop_append (map is js acc : List Nat) :
    phy_virtual_loop map (is ++ js) acc
      = match phy_virtual_loop map is acc with
        | .ok a => phy_virtual_loop map js a
        | .error e => .error e := by
  induction is generalizing acc with
  | nil => rfl
  | cons i is ih =>
    simp only [List.cons_append, phy_virtual_loop]
    cases phy_virtual_step map acc i with
    | ok a => exact ih a
    | error e => rfl

theorem perm_range_getElem? {r : List Nat} {n : Nat} (hr : r.Perm (List.range n)) {i : Nat}
    (hi : i < n) : ∃ p, r[i]? = some p ∧ p < n := by
  have hlen : r.length = n := by simpa using hr.length_eq
  have hi' : i < r.length := by omega
  refine ⟨r[i], List.getElem?_eq_getElem hi', ?_⟩
  exact List.mem_range.mp (hr.mem_iff.mp (List.getElem_mem hi'))

theorem perm_range_index {r : List Nat} {n : Nat} (hr : r.Perm (List.range n)) {p : Nat}
    (hp : p < n) : ∃ i, i < n ∧ r[i]? = some p := by
  have hlen : r.length = n := by simpa using hr.length_eq
  have hmem : p ∈ r := hr.mem_iff.mpr (List.mem_range.mpr hp)
  obtain ⟨i, hi, e⟩ := List.getElem_of_mem hmem
  exact ⟨i, by omega, by rw [List.getElem?_eq_getElem hi, e]⟩

theorem perm_range_inj {r : List Nat} {n : Nat} (hr : r.Perm (List.range n)) {i j p : Nat}
    (hi : r[i]? = some p) (hj : r[j]? = some p) : i = j := by
  have hnd : r.Nodup := hr.nodup_iff.mpr (List.nodup_range n)
  obtain ⟨hi1, hi2⟩ := List.getElem?_eq_some_iff.mp hi
  obtain ⟨hj1, hj2⟩ := List.getElem?_eq_some_iff.mp hj
  exact (List.Nodup.getElem_inj_iff hnd).mp (hi2.trans hj2.symm)

/-- The loop `res[r[i]] = i` over all indices of a permutation `r` of `0..n-1`
runs without an out-of-range subscript and leaves the inverse of `r`, whatever
the vector held before. -/
theorem phy_virtual_loop_inverse (r acc : List Nat) (n : Nat) (hr : r.Perm (List.range n))
    (hacc : acc.length = n) :
    ∃ res, phy_virtual_loop r (List.range n) acc = .ok res ∧ is_inverse res r n := by
  have key : ∀ k, k ≤ n → ∃ res, phy_virtual_loop r (List.range k) acc = .ok res
      ∧ res.length = n ∧ ∀ i, i < k → ∃ p, r[i]? = some p ∧ res[p]? = some i := by
    intro k
    induction k with
    | zero =>
      intro _
      exact ⟨acc, rfl, hacc, fun i hi => absurd hi (Nat.not_lt_zero i)⟩
    | succ k ih =>
      intro hk
      obtain ⟨res, h1, h2, h3⟩ := ih (by omega)
      obtain ⟨p, hp, hpn⟩ := perm_range_getElem? hr (show k < n by omega)
      refine ⟨res.set p k, ?_, by simp [h2], ?_⟩
      · rw [List.range_succ, phy_virtual_loop_append, h1]
        simp [phy_virtual_loop, phy_virtual_step, hp, h2, hpn]
      · intro i hi
        by_cases hik : i = k
        · subst hik
          exact ⟨p, hp, by rw [List.getElem?_set_self (by omega)]⟩
        · obtain ⟨q, hq1, hq2⟩ := h3 i (by omega)
          refine ⟨q, hq1, ?_⟩
          have hpq : p ≠ q := by
            intro e
            subst e
            exact hik (perm_range_inj hr hq1 hp)
          rw [List.getElem?_set_ne hpq]
          exact hq2
  obtain ⟨res, h1, h2, h3⟩ := key n (Nat.le_refl n)
  exact ⟨res, h1, h2, h3⟩

theorem is_inverse_unique {res res' r : List Nat} {n : Nat} (hr : r.Perm (List.range n))
    (h : is_inverse res r n) (h' : is_inverse res' r n) : res = res' := by
  apply List.ext_getElem?
  intro p
  by_cases hp : p < n
  · obtain ⟨i, hi, hip⟩ := perm_range_index hr hp
    obtain ⟨q, hq1, hq2⟩ := h.2 i hi
    obtain ⟨q', hq1', hq2'⟩ := h'.2 i hi
    rw [hip] at hq1 hq1'
    cases hq1
    cases hq1'
    rw [hq2, hq2']
  · rw [List.getElem?_eq_none (by rw [h.1]; omega), List.getElem?_eq_none (by rw [h'.1]; omega)]

theorem is_inverse_symm {res r : List Nat} {n : Nat} (hr : r.Perm (List.range n))
    (h : is_inverse res r n) : is_inverse r res n := by
  refine ⟨by simpa using hr.length_eq, ?_⟩
  intro p hp
  obtain ⟨i, hi, hip⟩ := perm_range_index hr hp
  obtain ⟨q, hq1, hq2⟩ := h.2 i hi
  rw [hip] at hq1
  cases hq1
  exact ⟨i, hq2, hip⟩

theorem is_inverse_perm {res r : List Nat} {n : Nat} (hr : r.Perm (List.range n))
    (h : is_inverse res r n) : res.Perm (List.range n) := by
  have hsym := is_inverse_symm hr h
  have hmap : res.map (fun i => r[i]?.getD 0) = List.range n := by
    apply List.ext_getElem?
    intro p
    by_cases hp : p < n
    · obtain ⟨i, hi1, hi2⟩ := hsym.2 p hp
      rw [List.getElem?_map, hi1, List.getElem?_range hp]
      simp [hi2]
    · rw [List.getElem?_eq_none (by simp [h.1]; omega),
        List.getElem?_eq_none (by simp; omega)]
  have hnd : res.Nodup := List.Nodup.of_map _ (by rw [hmap]; exact List.nodup_range n)
  rw [List.perm_ext_iff_of_nodup hnd (List.nodup_range n)]
  intro a
  rw [List.mem_range]
  constructor
  · intro ha
    obtain ⟨p, hp⟩ := List.mem_iff_getElem?.mp ha
    have hpn : p < n := by
      have := (List.getElem?_eq_some_iff.mp hp).1
      rw [h.1] at this
      exact this
    obtain ⟨i, hi1, hi2⟩ := hsym.2 p hpn
    rw [hp] at hi1
    cases hi1
    have := (List.getElem?_eq_some_iff.mp hi2).1
    rw [hsym.1] at this
    exact this
  · intro ha
    obtain ⟨p, _, hp2⟩ := h.2 a ha
    exact List.mem_iff_getElem?.mpr ⟨p, hp2⟩

/-- C11. For a permutation `m` of `0..n-1`: after `set_virtual_phy_map(m)` the
getter `phy_virtual_map()` returns the vector `r` of length `n` with
`r[m[v]] = v` for every virtual `v` and `m[r[p]] = p` for every physical `p`;
passing `r` to the setter `phy_virtual_map(r)` leaves the live map equal to `m`;
and on any view whose live map has `n` entries, the setter applied to a
permutation `r'` of `0..n-1` followed by the getter returns `r'`. -/
theorem phy_virtual_map_round_trip (v : mapping_view) (m : List Nat) (n : Nat)
    (hm : m.Perm (List.range n)) :
    (∃ r, (v.set_virtual_phy_map m).phy_virtual_map = .ok r
      ∧ r.length = n
      ∧ (∀ i, i < n → ∃ p, m[i]? = some p ∧ r[p]? = some i)
      ∧ (∀ p, p < n → ∃ i, r[p]? = some i ∧ m[i]? = some p)
      ∧ ∃ v', (v.set_virtual_phy_map m).set_phy_virtual_map r = .ok v'
          ∧ v'.virtual_phy_map_ = m)
    ∧ ∀ (w : mapping_view) (r' : List Nat), w.virtual_phy_map_.length = n →
        r'.Perm (List.range n) →
        ∃ w', w.set_phy_virtual_map r' = .ok w' ∧ w'.phy_virtual_map = .ok r' := by
  have hlen : m.length = n := by simpa using hm.length_eq
  have hlive : (v.set_virtual_phy_map m).virtual_phy_map_ = m :=
    rfl
  constructor
  · obtain ⟨r, hr1, hr2⟩ := phy_virtual_loop_inverse m (List.replicate n 0) n hm (by simp)
    have hrperm := is_inverse_perm hm hr2
    have hsym := is_inverse_symm hm hr2
    refine ⟨r, ?_, hr2.1, hr2.2, hsym.2, ?_⟩
    · simp only [mapping_view.phy_virtual_map, hlive, hlen]
      exact hr1
    · obtain ⟨res, hres1, hres2⟩ := phy_virtual_loop_inverse r m n hrperm hlen
      have hres : res = m := is_inverse_unique hrperm hres2 hsym
      rw [hres] at hres1
      refine ⟨{ (v.set_virtual_phy_map m) with virtual_phy_map_ := m }, ?_, rfl⟩
      simp only [mapping_view.set_phy_virtual_map, hlive, hlen, hres1]
  · intro w r' hw hr'
    obtain ⟨live, h1, h2⟩ := phy_virtual_loop_inverse r' w.virtual_phy_map_ n hr' hw
    have hliveperm := is_inverse_perm hr' h2
    have hsym := is_inverse_symm hr' h2
    obtain ⟨res, hres1, hres2⟩ :=
      phy_virtual_loop_inverse live (List.replicate n 0) n hliveperm (by simp)
    have hres : res = r' := is_inverse_unique hliveperm hres2 hsym
    rw [hres] at hres1
    refine ⟨{ w with virtual_phy_map_ := live }, ?_, ?_⟩
    · simp only [mapping_view.set_phy_virtual_map, hw, h1]
    · simp only [mapping_view.phy_virtual_map, h2.1]
      exact hres1

theorem phy_virtual_map_round_trip_witness :
    ([2, 0, 1] : List Nat).Perm (List.range 3)
    ∧ ((view3 false).set_virtual_phy_map [2, 0, 1]).phy_virtual_map = .ok [1, 2, 0]
    ∧ ∃ r, ((view3 false).set_virtual_phy_map [2, 0, 1]).phy_virtual_map = .ok r
      ∧ r.length = 3
      ∧ (∀ i, i < 3 → ∃ p, ([2, 0, 1] : List Nat)[i]? = some p ∧ r[p]? = some i)
      ∧ (∀ p, p < 3 → ∃ i, r[p]? = some i ∧ ([2, 0, 1] : List Nat)[i]? = some p)
      ∧ ∃ v', ((view3 false).set_virtual_phy_map [2, 0, 1]).set_phy_virtual_map r = .ok v'
          ∧ v'.virtual_phy_map_ = [2, 0, 1] :=
  ⟨by decide, rfl, (phy_virtual_map_round_trip (view3 false) [2, 0, 1] 3 (by decide)).1⟩

theorem swap_map_perm (m : List Nat) (n p q : Nat) (hm : m.Perm (List.range n))
    (hp : p < n) (hq : q < n) :
    (m.map (fun x => if x = p then q else if x = q then p else x)).Perm (List.range n) := by
  have hnd : m.Nodup := hm.nodup_iff.mpr (List.nodup_range n)
  have hinj : Function.Injective (fun x : Nat => if x = p then q else if x = q then p else x) := by
    intro a b h
    simp only at h
    split_ifs at h <;> omega
  rw [List.perm_ext_iff_of_nodup (hnd.map hinj) (List.nodup_range n)]
  intro a
  rw [List.mem_range, List.mem_map]
  constructor
  · rintro ⟨x, hx, rfl⟩
    have hxn : x < n := List.mem_range.mp (hm.mem_iff.mp hx)
    split_ifs <;> omega
  · intro ha
    refine ⟨if a = p then q else if a = q then p else a, ?_, ?_⟩
    · apply hm.mem_iff.mpr
      rw [List.mem_range]
      split_ifs <;> omega
    · split_ifs <;> omega

theorem add_gate_state {v v' : mapping_view} {op : gate_set} {t : Nat} {g : gate}
    (h : v.add_gate op t = .ok (g, v')) :
    v'.virtual_phy_map_ = v.virtual_phy_map_ ∧ v'.allow_partial_ = v.allow_partial_
      ∧ v'.coupling_matrix_ = v.coupling_matrix_ ∧ v'.is_partial_ = v.is_partial_ := by
  unfold mapping_view.add_gate vector_at at h
  cases hx : v.virtual_phy_map_[t]? with
  | none => simp [hx, bind, Except.bind] at h
  | some x =>
    simp [hx, bind, Except.bind, pure, Except.pure] at h
    obtain ⟨_, rfl⟩ := h
    exact ⟨rfl, rfl, rfl, rfl⟩

theorem add_gate2_state {v v' : mapping_view} {op : gate_set} {c t : Nat} {r : Option gate}
    (h : v.add_gate2 op c t = .ok (r, v')) :
    v'.virtual_phy_map_ = v.virtual_phy_map_ ∧ v'.allow_partial_ = v.allow_partial_
      ∧ v'.coupling_matrix_ = v.coupling_matrix_
      ∧ v'.is_partial_
          = (v.is_partial_ || (v.allow_partial_ && nonadjacent_call v (.add_gate2 op c t))) := by
  unfold mapping_view.add_gate2 vector_at at h
  cases hc : v.virtual_phy_map_[c]? with
  | none => simp [hc, bind, Except.bind] at h
  | some pc =>
    cases ht : v.virtual_phy_map_[t]? with
    | none => simp [hc, ht, bind, Except.bind] at h
    | some pt =>
      rcases Bool.eq_false_or_eq_true (v.coupling_matrix_ pc pt) with hadj | hadj
      · simp [hc, ht, hadj, bind, Except.bind, pure, Except.pure] at h
        obtain ⟨_, rfl⟩ := h
        simp [nonadjacent_call, hc, ht, hadj]
      · rcases Bool.eq_false_or_eq_true v.allow_partial_ with hall | hall
        · simp [hc, ht, hadj, hall, bind, Except.bind, pure, Except.pure] at h
          obtain ⟨_, rfl⟩ := h
          simp [nonadjacent_call, hc, ht, hadj, hall]
        · simp [hc, ht, hadj, hall, bind, Except.bind, pure, Except.pure] at h
          obtain ⟨_, rfl⟩ := h
          simp [nonadjacent_call, hc, ht, hadj, hall]

theorem add_swap_state {v v' : mapping_view} {a b : Nat} (h : v.add_swap a b = .ok v') :
    a ∈ v.virtual_phy_map_ ∧ b ∈ v.virtual_phy_map_
      ∧ v'.virtual_phy_map_
          = (v.virtual_phy_map_.set (v.virtual_phy_map_.indexOf a) b).set
              (v.virtual_phy_map_.indexOf b) a
      ∧ v'.allow_partial_ = v.allow_partial_
      ∧ v'.coupling_matrix_ = v.coupling_matrix_ ∧ v'.is_partial_ = v.is_partial_ := by
  unfold mapping_view.add_swap find_index at h
  rcases Bool.eq_false_or_eq_true (v.coupling_matrix_ a b) with hadj | hadj
  · cases ha : v.virtual_phy_map_[v.virtual_phy_map_.indexOf a]? with
    | none => simp [hadj, ha] at h
    | some xa =>
      cases hb : v.virtual_phy_map_[v.virtual_phy_map_.indexOf b]? with
      | none => simp [hadj, ha, hb] at h
      | some xb =>
        have hia := (List.getElem?_eq_some_iff.mp ha).1
        have hib := (List.getElem?_eq_some_iff.mp hb).1
        have hma : a ∈ v.virtual_phy_map_ := List.indexOf_lt_length.mp hia
        have hmb : b ∈ v.virtual_phy_map_ := List.indexOf_lt_length.mp hib
        have hxa : xa = a := by
          have := (List.getElem?_eq_some_iff.mp ha).2
          rw [List.getElem_indexOf] at this
          exact this.symm
        have hxb : xb = b := by
          have := (List.getElem?_eq_some_iff.mp hb).2
          rw [List.getElem_indexOf] at this
          exact this.symm
        simp [hadj, ha, hb] at h
        subst h
        subst hxa
        subst hxb
        exact ⟨hma, hmb, rfl, rfl, rfl, rfl⟩
  · simp [hadj] at h

theorem set_phy_virtual_map_state {v v' : mapping_view} {map : List Nat}
    (h : v.set_phy_virtual_map map = .ok v') :
    phy_virtual_loop map (List.range v.virtual_phy_map_.length) v.virtual_phy_map_
        = .ok v'.virtual_phy_map_
      ∧ v'.allow_partial_ = v.allow_partial_
      ∧ v'.coupling_matrix_ = v.coupling_matrix_ ∧ v'.is_partial_ = v.is_partial_ := by
  unfold mapping_view.set_phy_virtual_map at h
  cases hl : phy_virtual_loop map (List.range v.virtual_phy_map_.length) v.virtual_phy_map_ with
  | error e => simp [hl] at h
  | ok m =>
    simp [hl] at h
    subst h
    exact ⟨rfl, rfl, rfl, rfl⟩

theorem set_virtual_phy_map_state (v : mapping_view) (map : List Nat) :
    (v.set_virtual_phy_map map).virtual_phy_map_ = map
      ∧ (v.set_virtual_phy_map map).allow_partial_ = v.allow_partial_
      ∧ (v.set_virtual_phy_map map).coupling_matrix_ = v.coupling_matrix_
      ∧ (v.set_virtual_phy_map map).is_partial_ = v.is_partial_ := by
  unfold mapping_view.set_virtual_phy_map
  by_cases h : v.net.num_gates = 0 <;> simp [h]

/-- One call keeps the mode and the coupling matrix, and the flag after it is
the flag before it or-ed with "relaxed mode and the call was non-adjacent". -/
theorem step_flags {v v' : mapping_view} {o : view_op} (h : v.step o = .ok v') :
    v'.allow_partial_ = v.allow_partial_ ∧ v'.coupling_matrix_ = v.coupling_matrix_
      ∧ v'.is_partial_ = (v.is_partial_ || (v.allow_partial_ && nonadjacent_call v o)) := by
  cases o with
  | add_gate op t =>
    simp only [mapping_view.step] at h
    cases hr : v.add_gate op t with
    | error e => simp [hr] at h
    | ok r =>
      obtain ⟨g, v1⟩ := r
      simp [hr] at h
      subst h
      obtain ⟨_, h2, h3, h4⟩ := add_gate_state hr
      exact ⟨h2, h3, by simp [h4, nonadjacent_call]⟩
  | add_gate2 op c t =>
    simp only [mapping_view.step] at h
    cases hr : v.add_gate2 op c t with
    | error e => simp [hr] at h
    | ok r =>
      obtain ⟨g, v1⟩ := r
      simp [hr] at h
      subst h
      obtain ⟨_, h2, h3, h4⟩ := add_gate2_state hr
      exact ⟨h2, h3, h4⟩
  | add_swap a b =>
    simp only [mapping_view.step] at h
    obtain ⟨_, _, _, h2, h3, h4⟩ := add_swap_state h
    exact ⟨h2, h3, by simp [h4, nonadjacent_call]⟩
  | set_virtual_phy_map map =>
    simp only [mapping_view.step, Except.ok.injEq] at h
    subst h
    obtain ⟨_, h2, h3, h4⟩ := set_virtual_phy_map_state v map
    exact ⟨h2, h3, by simp [h4, nonadjacent_call]⟩
  | set_phy_virtual_map map =>
    simp only [mapping_view.step] at h
    obtain ⟨_, h2, h3, h4⟩ := set_phy_virtual_map_state h
    exact ⟨h2, h3, by simp [h4, nonadjacent_call]⟩

theorem run_ops_flags (ops : List view_op) : ∀ {v v' : mapping_view},
    v.run_ops ops = .ok v' →
    v'.allow_partial_ = v.allow_partial_ ∧ v'.coupling_matrix_ = v.coupling_matrix_
      ∧ v'.is_partial_ = (v.is_partial_ || (v.allow_partial_ && some_nonadjacent v ops)) := by
  induction ops with
  | nil =>
    intro v v' h
    simp only [mapping_view.run_ops, Except.ok.injEq] at h
    subst h
    simp [some_nonadjacent]
  | cons o os ih =>
    intro v v' h
    simp only [mapping_view.run_ops] at h
    cases hs : v.step o with
    | error e => simp [hs] at h
    | ok v1 =>
      simp only [hs] at h
      obtain ⟨a1, a2, a3⟩ := step_flags hs
      obtain ⟨b1, b2, b3⟩ := ih h
      refine ⟨b1.trans a1, b2.trans a2, ?_⟩
      rw [b3, a3, a1]
      simp only [some_nonadjacent, hs]
      cases v.is_partial_ <;> cases v.allow_partial_ <;> cases nonadjacent_call v o <;>
        cases some_nonadjacent v1 os <;> rfl

theorem run_ops_append (ops1 ops2 : List view_op) : ∀ (v : mapping_view),
    v.run_ops (ops1 ++ ops2)
      = match v.run_ops ops1 with
        | .ok v1 => v1.run_ops ops2
        | .error e => .error e := by
  induction ops1 with
  | nil => intro v; rfl
  | cons o os ih =>
    intro v
    simp only [List.cons_append, mapping_view.run_ops]
    cases v.step o with
    | ok v1 => exact ih v1
    | error e => rfl

/-- One call whose remapping vector, if any, is a permutation keeps the live
map a permutation of `0..n-1`. -/
theorem step_perm {v v' : mapping_view} {o : view_op} {n : Nat}
    (hv : v.virtual_phy_map_.Perm (List.range n)) (ho : o.remap_ok n)
    (h : v.step o = .ok v') : v'.virtual_phy_map_.Perm (List.range n) := by
  cases o with
  | add_gate op t =>
    simp only [mapping_view.step] at h
    cases hr : v.add_gate op t with
    | error e => simp [hr] at h
    | ok r =>
      obtain ⟨g, v1⟩ := r
      simp [hr] at h
      subst h
      rw [(add_gate_state hr).1]
      exact hv
  | add_gate2 op c t =>
    simp only [mapping_view.step] at h
    cases hr : v.add_gate2 op c t with
    | error e => simp [hr] at h
    | ok r =>
      obtain ⟨g, v1⟩ := r
      simp [hr] at h
      subst h
      rw [(add_gate2_state hr).1]
      exact hv
  | add_swap a b =>
    simp only [mapping_view.step] at h
    obtain ⟨ha, hb, hm, _⟩ := add_swap_state h
    have hnd : v.virtual_phy_map_.Nodup := hv.nodup_iff.mpr (List.nodup_range n)
    rw [hm, swap_entries_eq_map _ a b hnd ha hb]
    exact swap_map_perm _ n a b hv (List.mem_range.mp (hv.mem_iff.mp ha))
      (List.mem_range.mp (hv.mem_iff.mp hb))
  | set_virtual_phy_map map =>
    simp only [mapping_view.step, Except.ok.injEq] at h
    subst h
    rw [(set_virtual_phy_map_state v map).1]
    exact ho
  | set_phy_virtual_map map =>
    simp only [mapping_view.step] at h
    have hl := (set_phy_virtual_map_state h).1
    have hlen : v.virtual_phy_map_.length = n := by simpa using hv.length_eq
    rw [hlen] at hl
    obtain ⟨res, hres1, hres2⟩ := phy_virtual_loop_inverse map v.virtual_phy_map_ n ho hlen
    rw [hres1] at hl
    cases hl
    exact is_inverse_perm ho hres2

/-- A call on in-range qubits (adjacent ones for a swap) whose remapping
vector, if any, is a permutation returns normally on a view whose live map is a
permutation of `0..n-1`. -/
theorem step_total {v : mapping_view} {o : view_op} {n : Nat}
    (hv : v.virtual_phy_map_.Perm (List.range n)) (ho : o.remap_ok n)
    (hr : o.in_range n v.coupling_matrix_) : ∃ v', v.step o = .ok v' := by
  have hlen : v.virtual_phy_map_.length = n := by simpa using hv.length_eq
  cases o with
  | add_gate op t =>
    obtain ⟨p, hp, _⟩ := perm_range_getElem? hv (show t < n from hr)
    simp [mapping_view.step, mapping_view.add_gate, vector_at_of_getElem? hp, bind, Except.bind,
      pure, Except.pure]
  | add_gate2 op c t =>
    obtain ⟨pc, hpc, _⟩ := perm_range_getElem? hv hr.1
    obtain ⟨pt, hpt, _⟩ := perm_range_getElem? hv hr.2
    rcases Bool.eq_false_or_eq_true (v.coupling_matrix_ pc pt) with hadj | hadj
    · simp [mapping_view.step, mapping_view.add_gate2, vector_at_of_getElem? hpc,
        vector_at_of_getElem? hpt, hadj, bind, Except.bind, pure, Except.pure]
    · rcases Bool.eq_false_or_eq_true v.allow_partial_ with hall | hall
      · simp [mapping_view.step, mapping_view.add_gate2, vector_at_of_getElem? hpc,
          vector_at_of_getElem? hpt, hadj, hall, bind, Except.bind, pure, Except.pure]
      · simp [mapping_view.step, mapping_view.add_gate2, vector_at_of_getElem? hpc,
          vector_at_of_getElem? hpt, hadj, hall, bind, Except.bind, pure, Except.pure]
  | add_swap a b =>
    obtain ⟨ha, hb, hadj⟩ := hr
    have hpm : a ∈ v.virtual_phy_map_ := hv.mem_iff.mpr (List.mem_range.mpr ha)
    have hqm : b ∈ v.virtual_phy_map_ := hv.mem_iff.mpr (List.mem_range.mpr hb)
    have hip := List.indexOf_lt_length.mpr hpm
    have hiq := List.indexOf_lt_length.mpr hqm
    have hgp : v.virtual_phy_map_[v.virtual_phy_map_.indexOf a]? = some a := by
      rw [List.getElem?_eq_getElem hip, List.getElem_indexOf]
    have hgq : v.virtual_phy_map_[v.virtual_phy_map_.indexOf b]? = some b := by
      rw [List.getElem?_eq_getElem hiq, List.getElem_indexOf]
    simp [mapping_view.step, mapping_view.add_swap, hadj, find_index, hgp, hgq]
  | set_virtual_phy_map map => exact ⟨_, rfl⟩
  | set_phy_virtual_map map =>
    obtain ⟨res, hres1, _⟩ := phy_virtual_loop_inverse map v.virtual_phy_map_ n ho hlen
    simp [mapping_view.step, mapping_view.set_phy_virtual_map, hlen, hres1]

theorem run_ops_perm (ops : List view_op) (n : Nat) : ∀ {v v' : mapping_view},
    v.virtual_phy_map_.Perm (List.range n) → (∀ o ∈ ops, o.remap_ok n) →
    v.run_ops ops = .ok v' → v'.virtual_phy_map_.Perm (List.range n) := by
  induction ops with
  | nil =>
    intro v v' hv _ h
    simp only [mapping_view.run_ops, Except.ok.injEq] at h
    subst h
    exact hv
  | cons o os ih =>
    intro v v' hv ho h
    simp only [mapping_view.run_ops] at h
    cases hs : v.step o with
    | error e => simp [hs] at h
    | ok v1 =>
      simp only [hs] at h
      exact ih (step_perm hv (ho o (List.mem_cons_self _ _)) hs)
        (fun o' ho' => ho o' (List.mem_cons_of_mem _ ho')) h

theorem run_ops_total (ops : List view_op) (n : Nat) : ∀ {v : mapping_view},
    v.virtual_phy_map_.Perm (List.range n) → (∀ o ∈ ops, o.remap_ok n) →
    (∀ o ∈ ops, o.in_range n v.coupling_matrix_) → ∃ v', v.run_ops ops = .ok v' := by
  induction ops with
  | nil => intro v _ _ _; exact ⟨v, rfl⟩
  | cons o os ih =>
    intro v hv ho hr
    obtain ⟨v1, hs⟩ := step_total hv (ho o (List.mem_cons_self _ _)) (hr o (List.mem_cons_self _ _))
    have hc : v1.coupling_matrix_ = v.coupling_matrix_ := (step_flags hs).2.1
    obtain ⟨v', h⟩ := ih (step_perm hv (ho o (List.mem_cons_self _ _)) hs)
      (fun o' ho' => ho o' (List.mem_cons_of_mem _ ho'))
      (fun o' ho' => by rw [hc]; exact hr o' (List.mem_cons_of_mem _ ho'))
    exact ⟨v', by simp only [mapping_view.run_ops, hs, h]⟩

theorem construct_state {mcst allow : Bool} {src : network} {arch : device} {v0 : mapping_view}
    (h : mapping_view.construct mcst src arch allow = .ok v0) :
    v0.virtual_phy_map_ = List.range arch.num_vertices ∧ v0.allow_partial_ = allow
      ∧ v0.coupling_matrix_ = arch.coupling ∧ v0.is_partial_ = false := by
  unfold mapping_view.construct at h
  simp only [network.empty, network.num_qubits] at h
  split at h
  · simp only [Except.ok.injEq] at h
    subst h
    simp [iota]
  · cases h

/-- C12, counterexample. On a view constructed over the three-qubit line,
`set_virtual_phy_map([0, 0, 0])` returns normally and leaves the live map
`[0, 0, 0]`, in which physical qubit 0 is assigned to three virtual qubits. -/
theorem live_map_not_always_permutation :
    ∃ v0 v', mapping_view.construct true ⟨3, []⟩ line3 false = .ok v0
      ∧ v0.run_ops [view_op.set_virtual_phy_map [0, 0, 0]] = .ok v'
      ∧ v'.virtual_phy_map_ = [0, 0, 0]
      ∧ ¬ v'.virtual_phy_map_.Nodup
      ∧ ¬ v'.virtual_phy_map_.Perm (List.range 3) :=
  ⟨_, _, rfl, rfl, rfl, by decide, by decide⟩

/-- C12, amended. Starting from construction over a device with `n` qubits,
after every sequence of calls in which each vector passed to
`set_virtual_phy_map` or to the `phy_virtual_map` setter is a permutation of
`0..n-1`, the live map is a permutation of `0..n-1` (so it has `n` entries and
no physical qubit is assigned to two virtual qubits); and when moreover every
gate call names qubits below `n` and every swap names an adjacent pair below
`n`, the sequence does return normally. -/
theorem live_map_permutation_invariant (mcst allow : Bool) (src : network) (arch : device)
    (v0 : mapping_view) (ops : List view_op)
    (hc : mapping_view.construct mcst src arch allow = .ok v0)
    (hops : ∀ o ∈ ops, o.remap_ok arch.num_vertices) :
    (∀ v', v0.run_ops ops = .ok v' →
        v'.virtual_phy_map_.Perm (List.range arch.num_vertices)
        ∧ v'.virtual_phy_map_.length = arch.num_vertices
        ∧ v'.virtual_phy_map_.Nodup)
    ∧ ((∀ o ∈ ops, o.in_range arch.num_vertices arch.coupling) →
        ∃ v', v0.run_ops ops = .ok v') := by
  obtain ⟨h1, _, h3, _⟩ := construct_state hc
  have hv0 : v0.virtual_phy_map_.Perm (List.range arch.num_vertices) := by rw [h1]
  constructor
  · intro v' hrun
    have hp := run_ops_perm ops arch.num_vertices hv0 hops hrun
    exact ⟨hp, by simpa using hp.length_eq, hp.nodup_iff.mpr (List.nodup_range _)⟩
  · intro hr
    exact run_ops_total ops arch.num_vertices hv0 hops (by rw [h3]; exact hr)

theorem live_map_permutation_invariant_witness :
    mapping_view.construct true ⟨3, []⟩ line3 false = .ok (built3 false)
    ∧ (∀ o ∈ calls3, o.remap_ok line3.num_vertices)
    ∧ (∀ v', (built3 false).run_ops calls3 = .ok v' →
        v'.virtual_phy_map_.Perm (List.range line3.num_vertices)
        ∧ v'.virtual_phy_map_.length = line3.num_vertices
        ∧ v'.virtual_phy_map_.Nodup)
    ∧ ((∀ o ∈ calls3, o.in_range line3.num_vertices line3.coupling) →
        ∃ v', (built3 false).run_ops calls3 = .ok v') :=
  have hops : ∀ o ∈ calls3, o.remap_ok line3.num_vertices := by
    intro o ho
    simp only [calls3, List.mem_cons, List.mem_singleton, List.not_mem_nil, or_false] at ho
    rcases ho with rfl | rfl | rfl | rfl | rfl | rfl <;>
      first
        | trivial
        | (show List.Perm _ (List.range 3); decide)
  ⟨rfl, hops,
    live_map_permutation_invariant true false ⟨3, []⟩ line3 (built3 false) calls3 rfl hops⟩

/-- C13. For every sequence of calls made, from construction, on a
`mapping_view` and returning normally: `is_partial()` is true afterwards if and
only if the view was built with `allow_partial = true` and some two-qubit
`add_gate` call of the sequence named a pair mapped, at the time of the call, to
physical qubits that are not adjacent; once true it is true after every further
sequence of calls; and it is false when the view was built in strict mode. -/
theorem is_partial_iff_forced (mcst allow : Bool) (src : network) (arch : device)
    (v0 v' : mapping_view) (ops : List view_op)
    (hc : mapping_view.construct mcst src arch allow = .ok v0)
    (hrun : v0.run_ops ops = .ok v') :
    ( mapping_view.is_partial v' = true ↔ (allow = true ∧ some_nonadjacent v0 ops = true))
    ∧ (∀ (ops2 : List view_op) (v2 : mapping_view), v'.run_ops ops2 = .ok v2 →
         mapping_view.is_partial v' = true → mapping_view.is_partial v2 = true)
    ∧ (allow = false → mapping_view.is_partial v' = false) := by
  obtain ⟨_, h2, _, h4⟩ := construct_state hc
  obtain ⟨_, _, f3⟩ := run_ops_flags ops hrun
  rw [h2, h4] at f3
  refine ⟨?_, ?_, ?_⟩
  · simp only [mapping_view.is_partial, f3]
    simp
  · intro ops2 v2 hrun2 hp
    obtain ⟨_, _, g3⟩ := run_ops_flags ops2 hrun2
    simp only [mapping_view.is_partial] at hp ⊢
    rw [g3, hp]
    rfl
  · intro ha
    simp only [mapping_view.is_partial, f3, ha]
    rfl

theorem is_partial_iff_forced_witness :
    mapping_view.construct true ⟨3, []⟩ line3 true = .ok (built3 true)
    ∧ (built3 true).run_ops calls3 = .ok after_calls3
    ∧ mapping_view.is_partial after_calls3 = true
    ∧ some_nonadjacent (built3 true) calls3 = true
    ∧ ( mapping_view.is_partial after_calls3 = true
          ↔ (true = true ∧ some_nonadjacent (built3 true) calls3 = true))
    ∧ (∀ (ops2 : List view_op) (v2 : mapping_view), after_calls3.run_ops ops2 = .ok v2 →
         mapping_view.is_partial after_calls3 = true → mapping_view.is_partial v2 = true)
    ∧ (true = false → mapping_view.is_partial after_calls3 = false) :=
  ⟨rfl, rfl, rfl, rfl,
    is_partial_iff_forced true true ⟨3, []⟩ line3 (built3 true) after_calls3 calls3 rfl rfl⟩

theorem is_separator_false {c : Char} (h : is_separator c = false) :
    is_space c = false ∧ c ≠ ',' := by
  simpa [is_separator] using h

theorem is_separator_of_space {c : Char} (h : is_space c = true) : is_separator c = true := by
  simp [is_separator, h]

theorem is_space_comma : is_space ',' = false := by decide

theorem runs_dropWhile (sep : Char → Bool) (hsep : ∀ c, is_space c = true → sep c = true)
    (line : List Char) : runs sep line [] = runs sep (line.dropWhile is_space) [] := by
  induction line with
  | nil => rfl
  | cons c cs ih =>
    rcases Bool.eq_false_or_eq_true (is_space c) with h | h
    · rw [List.dropWhile_cons_of_pos h, ← ih]
      simp [runs, hsep c h]
    · rw [List.dropWhile_cons_of_neg (by simp [h])]

theorem runs_head (sep : Char → Bool) (xs : List Char) : ∀ (cur : List Char), cur ≠ [] →
    ∃ t ts, runs sep xs cur = (cur ++ t) :: ts := by
  induction xs with
  | nil =>
    intro cur h
    exact ⟨[], [], by simp [runs, h]⟩
  | cons c cs ih =>
    intro cur h
    rcases Bool.eq_false_or_eq_true (sep c) with hc | hc
    · exact ⟨[], runs sep cs [], by simp [runs, hc, h]⟩
    · obtain ⟨t, ts, e⟩ := ih (cur ++ [c]) (by simp)
      exact ⟨c :: t, ts, by simp [runs, hc, e]⟩

theorem runs_ne_nil (sep : Char → Bool) (xs : List Char) : ∀ (cur : List Char),
    ∀ t ∈ runs sep xs cur, t ≠ [] := by
  induction xs with
  | nil =>
    intro cur t ht
    by_cases h : cur = []
    · simp [runs, h] at ht
    · simp [runs, h] at ht
      rw [ht]
      exact h
  | cons c cs ih =>
    intro cur t ht
    rcases Bool.eq_false_or_eq_true (sep c) with hc | hc
    · by_cases h : cur = []
      · simp only [runs, hc, h, if_true] at ht
        exact ih [] t ht
      · simp only [runs, hc, h, if_true, if_false, List.mem_cons] at ht
        rcases ht with rfl | ht
        · exact h
        · exact ih [] t ht
    · simp only [runs, hc] at ht
      exact ih _ t ht

theorem left_trim_label (p : List Char) (hp : ∀ c ∈ p, is_space c = false) :
    left_trim p = p := by
  cases p with
  | nil => rfl
  | cons c cs =>
    have := hp c (List.mem_cons_self _ _)
    simp [left_trim, List.dropWhile, this]

theorem comma_pieces_no_comma (q : List Char) : ∀ (acc : List Char), (∀ c ∈ q, c ≠ ',') →
    comma_pieces q acc = if acc ++ q = [] then [] else [acc ++ q] := by
  induction q with
  | nil => intro acc _; simp [comma_pieces]
  | cons c cs ih =>
    intro acc hq
    have hc : c ≠ ',' := hq c (List.mem_cons_self _ _)
    simp only [comma_pieces, hc, if_false]
    rw [ih (acc ++ [c]) (fun x hx => hq x (List.mem_cons_of_mem _ hx))]
    simp

theorem comma_pieces_piece (p rest : List Char) : ∀ (acc : List Char), (∀ c ∈ p, c ≠ ',') →
    comma_pieces (p ++ ',' :: rest) acc = left_trim (acc ++ p) :: comma_pieces rest [] := by
  induction p with
  | nil => intro acc _; simp [comma_pieces]
  | cons c cs ih =>
    intro acc hp
    have hc : c ≠ ',' := hp c (List.mem_cons_self _ _)
    have e : (c :: cs) ++ ',' :: rest = c :: (cs ++ ',' :: rest) := rfl
    rw [e]
    simp only [comma_pieces, hc, if_false]
    rw [ih (acc ++ [c]) (fun x hx => hp x (List.mem_cons_of_mem _ hx))]
    simp

theorem join_commas_cons (p : List Char) (ps : List (List Char)) :
    join_commas (p :: ps) = p ++ ',' :: join_commas ps := by
  simp [join_commas]

theorem join_commas_append (ps : List (List Char)) (q : List Char) :
    join_commas (ps ++ [q]) = join_commas ps ++ q ++ [','] := by
  simp [join_commas]

theorem join_commas_eq_nil {ps : List (List Char)} (h : join_commas ps = []) : ps = [] := by
  cases ps with
  | nil => rfl
  | cons p ps => simp [join_commas] at h

theorem comma_pieces_join (ps : List (List Char)) (q : List Char)
    (hps : ∀ p ∈ ps, p ≠ [] ∧ ∀ c ∈ p, is_separator c = false)
    (hq : ∀ c ∈ q, is_separator c = false) :
    comma_pieces (join_commas ps ++ q) [] = ps ++ (if q = [] then [] else [q]) := by
  induction ps with
  | nil =>
    rw [show join_commas [] = [] from rfl, List.nil_append,
      comma_pieces_no_comma q [] (fun c hc => (is_separator_false (hq c hc)).2)]
    simp
  | cons p ps ih =>
    have hp := hps p (List.mem_cons_self _ _)
    rw [join_commas_cons, List.append_assoc, List.cons_append,
      comma_pieces_piece p _ [] (fun c hc => (is_separator_false (hp.2 c hc)).2),
      List.nil_append, left_trim_label p (fun c hc => (is_separator_false (hp.2 c hc)).1),
      ih (fun p' hp' => hps p' (List.mem_cons_of_mem _ hp'))]
    rfl

theorem split_token_join (ps : List (List Char)) (q : List Char)
    (hps : ∀ p ∈ ps, p ≠ [] ∧ ∀ c ∈ p, is_separator c = false)
    (hq : ∀ c ∈ q, is_separator c = false) (hne : join_commas ps ++ q ≠ []) :
    split_token (join_commas ps ++ q) = ps ++ (if q = [] then [] else [q]) := by
  unfold split_token
  cases ps with
  | nil =>
    have hq0 : q ≠ [] := by simpa [join_commas] using hne
    have hnc : ',' ∉ q := fun h => (is_separator_false (hq _ h)).2 rfl
    simp [join_commas, hnc, hq0]
  | cons p ps =>
    have hmem : ',' ∈ join_commas (p :: ps) ++ q := by
      rw [join_commas_cons]
      simp
    rw [if_pos hmem]
    exact comma_pieces_join (p :: ps) q hps hq

/-- When every comma directly follows a character of a label, the entries
`split` produces are the maximal runs of characters that are neither white
space nor commas. -/
theorem split_runs (rest : List Char) : ∀ (ps : List (List Char)) (q : List Char),
    (∀ p ∈ ps, p ≠ [] ∧ ∀ c ∈ p, is_separator c = false) →
    (∀ c ∈ q, is_separator c = false) →
    commas_ok (!q.isEmpty) rest = true →
    (runs is_space rest (join_commas ps ++ q)).flatMap split_token
      = ps ++ runs is_separator rest q := by
  induction rest with
  | nil =>
    intro ps q hps hq _
    by_cases hcur : join_commas ps ++ q = []
    · have h1 : join_commas ps = [] := (List.append_eq_nil.mp hcur).1
      have h2 : q = [] := (List.append_eq_nil.mp hcur).2
      have h3 : ps = [] := join_commas_eq_nil h1
      subst h2
      subst h3
      simp [runs, join_commas]
    · simp only [runs, hcur, if_false, List.flatMap_cons, List.flatMap_nil, List.append_nil]
      rw [split_token_join ps q hps hq hcur]
  | cons c cs ih =>
    intro ps q hps hq hok
    by_cases hcomma : c = ','
    · subst hcomma
      simp only [commas_ok, if_true, Bool.and_eq_true] at hok
      have hq0 : q ≠ [] := by
        intro h
        subst h
        simp at hok
      have h := ih (ps ++ [q]) []
        (by
          intro p hp
          rcases List.mem_append.mp hp with hp | hp
          · exact hps p hp
          · rw [List.mem_singleton.mp hp]
            exact ⟨hq0, hq⟩)
        (by intro c hc; cases hc) hok.2
      rw [join_commas_append, List.append_nil] at h
      have hsep : is_separator ',' = true := by decide
      simp only [runs, is_space_comma, Bool.false_eq_true, if_false, hsep, if_true, hq0]
      rw [h]
      simp
    · rcases Bool.eq_false_or_eq_true (is_space c) with hsp | hsp
      · simp only [commas_ok, hcomma, if_false, hsp, if_true] at hok
        have h := ih [] [] (by intro p hp; cases hp) (by intro c hc; cases hc) hok
        simp only [join_commas, List.flatMap_nil, List.nil_append] at h
        have hsep := is_separator_of_space hsp
        by_cases hcur : join_commas ps ++ q = []
        · have h1 : join_commas ps = [] := (List.append_eq_nil.mp hcur).1
          have h2 : q = [] := (List.append_eq_nil.mp hcur).2
          have h3 : ps = [] := join_commas_eq_nil h1
          subst h2
          subst h3
          simp only [runs, hsp, hsep, if_true, List.nil_append]
          simpa [join_commas] using h
        · simp only [runs, hsp, hsep, hcur, if_true, if_false, List.flatMap_cons]
          rw [split_token_join ps q hps hq hcur, h]
          by_cases hq0 : q = []
          · simp [hq0]
          · simp [hq0]
      · have hsep : is_separator c = false := by simp [is_separator, hsp, hcomma]
        simp only [commas_ok, hcomma, if_false, hsp, Bool.false_eq_true] at hok
        have h := ih ps (q ++ [c])
          (hps)
          (by
            intro x hx
            rcases List.mem_append.mp hx with hx | hx
            · exact hq x hx
            · rw [List.mem_singleton.mp hx]
              exact hsep)
          (by
            have e : (!(q ++ [c]).isEmpty) = true := by simp
            rw [e]
            exact hok)
        simp only [runs, hsp, hsep, Bool.false_eq_true, if_false]
        rw [List.append_assoc]
        exact h

theorem first_index_append_mem {names : List (List Char)} {k : List Char} (h : k ∈ names)
    (later : List (List Char)) : first_index (names ++ later) k = first_index names k := by
  induction names with
  | nil => cases h
  | cons n ns ih =>
    by_cases e : n = k
    · simp [first_index, e]
    · have hk : k ∈ ns := by
        rcases List.mem_cons.mp h with h1 | h1
        · exact absurd h1.symm e
        · exact h1
      simp [first_index, e, ih hk]

theorem first_index_append_self {names : List (List Char)} {k : List Char} (h : k ∉ names) :
    first_index (names ++ [k]) k = names.length := by
  induction names with
  | nil => simp [first_index]
  | cons n ns ih =>
    have e : ¬ n = k := fun e => h (e ▸ List.mem_cons_self _ _)
    have hk : k ∉ ns := fun hk => h (List.mem_cons_of_mem _ hk)
    simp [first_index, e, ih hk]

theorem map_find_append (m : List (List Char × Qubit)) (label k : List Char) (q : Qubit) :
    map_find (m ++ [(label, q)]) k
      = (map_find m k).or (if label = k then some q else none) := by
  induction m with
  | nil => simp [map_find]
  | cons x m ih =>
    obtain ⟨key, v⟩ := x
    by_cases e : key = k
    · simp [map_find, e]
    · simp [map_find, e, ih]

theorem map_inv_emplace (m : List (List Char × Qubit)) (names : List (List Char))
    (label : List Char) (h : map_inv m names) :
    map_inv (map_emplace m label ⟨names.length, false⟩) (names ++ [label]) := by
  intro k
  have hk := h k
  have hl := h label
  unfold map_emplace
  by_cases hmem : label ∈ names
  · rw [if_pos hmem] at hl
    rw [hl]
    simp only
    by_cases hkm : k ∈ names
    · rw [hk, if_pos hkm, if_pos (List.mem_append_left _ hkm), first_index_append_mem hkm]
    · have hkl : k ≠ label := fun e => hkm (e ▸ hmem)
      rw [hk, if_neg hkm, if_neg (by simp [hkm, hkl])]
  · rw [if_neg hmem] at hl
    rw [hl]
    simp only
    rw [map_find_append, hk]
    by_cases hkm : k ∈ names
    · rw [if_pos hkm, if_pos (List.mem_append_left _ hkm), first_index_append_mem hkm]
      rfl
    · rw [if_neg hkm]
      by_cases hkl : label = k
      · subst hkl
        rw [if_pos (by simp), first_index_append_self hkm]
        simp
      · have hkl2 : ¬ k = label := fun e => hkl e.symm
        rw [if_neg (show ¬ k ∈ names ++ [label] by simp [hkm, hkl2])]
        simp [hkl]

theorem declare_labels_spec (labels : List (List Char)) : ∀ (st : reader),
    map_inv st.qubits st.circuit.qubits →
    (declare_labels st labels).circuit.qubits = st.circuit.qubits ++ labels
    ∧ map_inv (declare_labels st labels).qubits (st.circuit.qubits ++ labels)
    ∧ (declare_labels st labels).circuit.instructions = st.circuit.instructions := by
  induction labels with
  | nil =>
    intro st h
    simpa [declare_labels] using h
  | cons label labels ih =>
    intro st h
    have h1 := map_inv_emplace st.qubits st.circuit.qubits label h
    obtain ⟨a, b, c⟩ := ih ⟨(st.circuit.create_qubit label).2,
      map_emplace st.qubits label (st.circuit.create_qubit label).1⟩ h1
    simp only [declare_labels]
    refine ⟨?_, ?_, ?_⟩
    · rw [a]
      simp [Circuit.create_qubit]
    · have e : st.circuit.qubits ++ label :: labels
          = (st.circuit.create_qubit label).2.qubits ++ labels := by
        simp [Circuit.create_qubit]
      rw [e]
      exact b
    · rw [c]
      rfl

theorem gate_qubit_spec (m : List (List Char × Qubit)) (names later : List (List Char))
    (label : List Char) (h : map_inv m names) (hne : label ≠ [])
    (hd : label_declared names label = true) :
    gate_qubit m label = .ok (spec_qubit (names ++ later) label) := by
  unfold gate_qubit spec_qubit
  cases hl : label.getLast? with
  | none => exact absurd (List.getLast?_eq_none_iff.mp hl) hne
  | some c =>
    simp only
    unfold label_declared at hd
    rw [hl] at hd
    by_cases hc : c = apostrophe
    · subst hc
      simp only [if_true, decide_eq_true_eq] at hd
      simp [map_at, h label.dropLast, hd, Qubit.not, first_index_append_mem hd]
    · have hs : ¬ (some c = some apostrophe) := fun e => hc (Option.some.inj e)
      simp only [hs, if_false, decide_eq_true_eq] at hd
      simp [hc, map_at, h label, hd, first_index_append_mem hd]

theorem gate_qubits_spec (m : List (List Char × Qubit)) (names later : List (List Char))
    (h : map_inv m names) (labels : List (List Char)) (hne : ∀ l ∈ labels, l ≠ [])
    (hd : labels.all (label_declared names) = true) :
    gate_qubits m labels = .ok (labels.map (spec_qubit (names ++ later))) := by
  induction labels with
  | nil => rfl
  | cons l ls ih =>
    simp only [List.all_cons, Bool.and_eq_true] at hd
    simp only [gate_qubits, gate_qubit_spec m names later l h (hne l (List.mem_cons_self _ _)) hd.1,
      ih (fun x hx => hne x (List.mem_cons_of_mem _ hx)) hd.2, List.map_cons]

theorem spec_tokens_left_trim (line : List Char) :
    spec_tokens line = spec_tokens (left_trim line) :=
  runs_dropWhile is_separator (fun _ h => is_separator_of_space h) line

theorem head_left_trim {line rest : List Char} {c : Char} (h : left_trim line = c :: rest) :
    is_space c = false := by
  unfold left_trim at h
  have := List.head_dropWhile_not is_space line (by rw [h]; simp)
  simpa [h] using this

/-- The effect of the loop body on one line the format describes is the
contribution the format gives the line. -/
theorem parse_line_spec (st : reader) (line : List Char)
    (hinv : map_inv st.qubits st.circuit.qubits)
    (hok : line_ok st.circuit.qubits line = true) :
    ∃ st1, parse_line st line = .ok st1
      ∧ st1.circuit.qubits = st.circuit.qubits ++ spec_declared line
      ∧ map_inv st1.qubits st1.circuit.qubits
      ∧ ∀ later, st1.circuit.instructions
          = st.circuit.instructions
            ++ (spec_instruction (st.circuit.qubits ++ later) line).toList := by
  unfold line_ok at hok
  unfold parse_line
  cases hl : left_trim line with
  | nil =>
    have ht : spec_tokens line = [] := by
      rw [spec_tokens_left_trim, hl]
      rfl
    refine ⟨st, rfl, ?_, hinv, ?_⟩
    · simp [spec_declared, spec_line, ht]
    · intro later
      simp [spec_instruction, spec_line, ht]
  | cons c rest =>
    rw [hl] at hok
    simp only
    by_cases hhash : c = '#'
    · refine ⟨st, by simp [hhash], ?_, hinv, ?_⟩
      · simp only [spec_declared, spec_line, hl, hhash, List.head?_cons, if_true]
        cases spec_tokens line <;> simp
      · intro later
        simp only [spec_instruction, spec_line, hl, hhash, List.head?_cons, if_true]
        cases spec_tokens line <;> simp
    · simp only [hhash, decide_False, Bool.false_or, Bool.and_eq_true] at hok
      obtain ⟨hcommas, hkind⟩ := hok
      have hsp : is_space c = false := head_left_trim hl
      have hcomma : c ≠ ',' := by
        intro e
        subst e
        simp [commas_ok] at hcommas
      have hsep : is_separator c = false := by simp [is_separator, hsp, hcomma]
      have hsplit : split (c :: rest) = spec_tokens (c :: rest) := by
        have := split_runs (c :: rest) [] [] (by intro p hp; cases hp)
          (by intro x hx; cases hx) hcommas
        simpa [join_commas, split, stream_tokens, spec_tokens] using this
      obtain ⟨t, ts, hruns⟩ := runs_head is_separator rest [c] (by simp)
      have htok : spec_tokens (c :: rest) = (c :: t) :: ts := by
        simp only [spec_tokens, runs, hsep, Bool.false_eq_true, if_false, List.nil_append]
        exact hruns
      have htok0 : spec_tokens line = (c :: t) :: ts := by
        rw [spec_tokens_left_trim, hl, htok]
      have hts : ∀ l ∈ ts, l ≠ [] := by
        intro l hl0
        apply runs_ne_nil is_separator (c :: rest) [] l
        show l ∈ spec_tokens (c :: rest)
        rw [htok]
        exact List.mem_cons_of_mem _ hl0
      have hhd : ¬ (some c = some '#') := fun e => hhash (Option.some.inj e)
      rw [hsplit, htok]
      simp only [hhash, if_false]
      by_cases hdot : c = '.'
      · subst hdot
        simp only [if_true]
        by_cases hv : ('.' :: t) = ['.', 'v']
        · rw [if_pos hv]
          obtain ⟨a, b, d⟩ := declare_labels_spec ts st hinv
          have hsl : spec_line line = .declares ts := by
            simp only [spec_line, htok0, hl, List.head?_cons, hhd, if_false, hv, if_true]
          refine ⟨declare_labels st ts, rfl, ?_, ?_, ?_⟩
          · rw [a]
            simp [spec_declared, hsl]
          · rw [a]
            exact b
          · intro later
            rw [d]
            simp [spec_instruction, hsl]
        · rw [if_neg hv]
          have hsl : spec_line line = .nothing := by
            simp only [spec_line, htok0, hl, List.head?_cons, hhd, if_false, hv, if_true]
          refine ⟨st, rfl, ?_, hinv, ?_⟩
          · simp [spec_declared, hsl]
          · intro later
            simp [spec_instruction, hsl]
      · have hv : ¬ ((c :: t) = ['.', 'v']) := by
          intro e
          exact hdot (List.cons.inj e).1
        have hhd2 : ¬ (some c = some '.') := fun e => hdot (Option.some.inj e)
        simp only [hdot, if_false]
        by_cases hbe : (c :: t) = ['B', 'E', 'G', 'I', 'N'] ∨ (c :: t) = ['E', 'N', 'D']
        · rw [if_pos hbe]
          have hsl : spec_line line = .nothing := by
            simp only [spec_line, htok0, hl, List.head?_cons, hhd, hhd2, if_false, hv, hbe,
              if_true]
          refine ⟨st, rfl, ?_, hinv, ?_⟩
          · simp [spec_declared, hsl]
          · intro later
            simp [spec_instruction, hsl]
        · rw [if_neg hbe]
          have hb1 : ¬ ((c :: t) = ['B', 'E', 'G', 'I', 'N']) := fun e => hbe (Or.inl e)
          have hb2 : ¬ ((c :: t) = ['E', 'N', 'D']) := fun e => hbe (Or.inr e)
          simp only [htok0, List.head?_cons, hdot, decide_False, Bool.false_or,
            Option.some.injEq, hb1, hb2, List.tail_cons, Bool.and_eq_true, Bool.or_eq_true,
            decide_eq_true_eq] at hkind
          obtain ⟨hft, hdecl⟩ := hkind
          rw [if_pos hft]
          have hq := fun later =>
            gate_qubits_spec st.qubits st.circuit.qubits later hinv ts hts hdecl
          rw [hq []]
          simp only
          have hsl : spec_line line
              = .applies (if c = 'f' then Op.Swap else Op.X) ts := by
            simp only [spec_line, htok0, hl, List.head?_cons, hhd, hhd2, if_false, hv, hbe,
              Option.some.injEq]
            by_cases hf : c = 'f'
            · simp [hf]
            · have ht : c = 't' := hft.resolve_left hf
              simp [hf, ht]
          refine ⟨_, rfl, ?_, hinv, ?_⟩
          · simp [spec_declared, hsl, Circuit.apply_operator]
          · intro later
            have e1 := hq later
            have e2 := hq []
            rw [e1] at e2
            have e3 : ts.map (spec_qubit (st.circuit.qubits ++ later))
                = ts.map (spec_qubit (st.circuit.qubits ++ [])) := Except.ok.inj e2
            simp only [spec_instruction, hsl, Option.toList, Circuit.apply_operator, e3]

/-- The loop over lines the format describes returns, its circuit holding the
declared labels and the operator applications the format gives the lines. -/
theorem parse_lines_spec (lines : List (List Char)) : ∀ (st : reader),
    map_inv st.qubits st.circuit.qubits →
    lines_ok st.circuit.qubits lines = true →
    ∃ st1, parse_lines st lines = .ok st1
      ∧ st1.circuit.qubits = st.circuit.qubits ++ lines.flatMap spec_declared
      ∧ ∀ later, st1.circuit.instructions
          = st.circuit.instructions ++ lines.filterMap
              (spec_instruction (st.circuit.qubits ++ lines.flatMap spec_declared ++ later)) := by
  induction lines with
  | nil =>
    intro st _ _
    exact ⟨st, rfl, by simp, by simp⟩
  | cons line lines ih =>
    intro st hinv hok
    simp only [lines_ok, Bool.and_eq_true] at hok
    obtain ⟨st1, h1, h2, h3, h4⟩ := parse_line_spec st line hinv hok.1
    obtain ⟨st2, g1, g2, g3⟩ := ih st1 h3 (by rw [h2]; exact hok.2)
    refine ⟨st2, by simp only [parse_lines, h1, g1], ?_, ?_⟩
    · rw [g2, h2]
      simp
    · intro later
      rw [g3 later, h4 (spec_declared line ++ lines.flatMap spec_declared ++ later), h2]
      have e : st.circuit.qubits
            ++ (spec_declared line ++ lines.flatMap spec_declared ++ later)
          = st.circuit.qubits ++ (line :: lines).flatMap spec_declared ++ later := by
        simp
      have e2 : st.circuit.qubits ++ spec_declared line ++ lines.flatMap spec_declared ++ later
          = st.circuit.qubits ++ (line :: lines).flatMap spec_declared ++ later := by
        simp
      rw [e, e2, List.filterMap_cons]
      cases spec_instruction
        (st.circuit.qubits ++ (line :: lines).flatMap spec_declared ++ later) line <;> simp

/-- A comma that follows white space leaves an empty entry: on `.v a ,b` the
reader creates three qubits, one of them with the empty label. -/
theorem stray_comma_empty_label :
    split tfc_stray_comma = [['.', 'v'], ['a'], [], ['b']]
    ∧ parse_source_buffer tfc_stray_comma = .ok ⟨[['a'], [], ['b']], []⟩ :=
  ⟨rfl, rfl⟩

/-- C17, counterexample. The text `.v a` / `x a` uses only a declared label,
and `parse_source_buffer` does not return a circuit on it: the line `x a` is
neither ignored nor starts with `f` or `t`, and trips the assertion. -/
theorem parse_unknown_line_asserts :
    parse_source_buffer tfc_unknown_line = .error fault.assertion := by
  rfl

/-- C17, amended. For every text in which each line is empty, a comment, a
line starting with `.`, a `BEGIN` or `END` line, or a line whose first token
starts with `f` or `t` and whose labels, without a trailing apostrophe, were
declared on an earlier `.v` line, and in which every comma outside comments
directly follows a label character, `parse_source_buffer` returns the circuit
with one qubit per label listed on `.v` lines, in declaration order, and one
operator application per gate line, in line order: Swap for `f`, X for `t`, on
the qubits named by the remaining tokens, a trailing apostrophe giving the
negated qubit. -/
theorem parse_source_buffer_refines (buffer : List Char) (hok : text_ok buffer = true) :
    parse_source_buffer buffer = .ok (spec_circuit buffer) := by
  obtain ⟨st1, h1, h2, h3⟩ := parse_lines_spec (getlines buffer []) ⟨⟨[], []⟩, []⟩
    (by intro k; simp [map_find]) hok
  simp only [parse_source_buffer, parse_stream, h1, spec_circuit]
  have h4 := h3 []
  simp only [List.nil_append, List.append_nil] at h2 h4
  congr 1
  cases hc : st1.circuit with
  | mk qs ins =>
    rw [hc] at h2 h4
    simp only at h2 h4
    rw [h2, h4]

theorem parse_source_buffer_refines_witness :
    text_ok tfc_sample = true
    ∧ parse_source_buffer tfc_sample = .ok (spec_circuit tfc_sample)
    ∧ spec_circuit tfc_sample
        = ⟨[['a'], ['b'], ['c']],
           [(Op.X, [⟨0, false⟩, ⟨1, true⟩, ⟨2, false⟩]),
            (Op.Swap, [⟨0, false⟩, ⟨1, false⟩]),
            (Op.X, [⟨2, false⟩])]⟩ :=
  ⟨by decide, parse_source_buffer_refines tfc_sample (by decide), by decide⟩

end Tweedledum
